import Mathlib

/-! ApvlvContent: the content tree of apvlv

A shallow embedding of `src/ApvlvContent.cc`: the tree of `QTreeWidgetItem`s that
mirrors a `FileIndex` tree, with the filter, sort and navigation routines that
work on it, followed by the properties proved about them.

Conventions of the embedding

* A `QTreeWidgetItem` is an `Item`: the `FileIndex` it carries in its user data,
  its `hidden`, `expanded` and `selected` flags and the ordered list of its
  children.  The widget is the list of children of `invisibleRootItem ()`.
* A `QTreeWidgetItem *` is a `Path`: the child indexes that lead from the
  invisible root to the item; `[]` is the invisible root itself, which carries no
  `FileIndex`.  A null pointer is `none`.
* Loops over an explicit stack take a fuel argument and return `none` when the
  fuel runs out; the fuel each entry point passes is shown to be enough.
* The index tree `mIndex` is an `IndexNode`, and `Content` gathers the members
  that `setIndex`, `refreshIndex` and `onFileDelete` read and write.  Functions
  that are declared outside `ApvlvContent.cc`, and what the dialogs and the file
  system answer, are arguments of the functions that use them.
-/

namespace apvlv

/-! ## Data model -/

/-- The kind of an index entry. -/
inductive FileIndexType where
  | DIR
  | FILE
  | PAGE
  deriving DecidableEq, Repr

/-- The scalar fields of a `FileIndex` that `ApvlvContent.cc` reads. -/
structure FileIndex where
  type : FileIndexType
  title : String
  path : String
  mtime : Int
  size : Nat
  page : Int
  anchor : String
  deriving DecidableEq, Repr

/-- A `QTreeWidgetItem` that was filled by `setFileIndexToTreeItem`. -/
inductive Item where
  | mk (index : FileIndex) (hidden expanded selected : Bool) (children : List Item)
  deriving Repr

/-- The children of `mTreeWidget.invisibleRootItem ()`. -/
abbrev TreeWidget := List Item

/-- A `QTreeWidgetItem *`, as the child indexes from the invisible root. -/
abbrev Path := List Nat

namespace Item

/-- The `FileIndex` stored in the user data of the item. -/
def index : Item → FileIndex
  | mk i _ _ _ _ => i

/-- Reads `isHidden ()`. -/
def hidden : Item → Bool
  | mk _ h _ _ _ => h

/-- Reads `isExpanded ()`. -/
def expanded : Item → Bool
  | mk _ _ e _ _ => e

/-- Reads `isSelected ()`. -/
def selected : Item → Bool
  | mk _ _ _ s _ => s

/-- The ordered children of the item. -/
def children : Item → List Item
  | mk _ _ _ _ cs => cs

/-- Writes the hidden flag: `setHidden (b)`. -/
def setHidden (b : Bool) : Item → Item
  | mk i _ e s cs => mk i b e s cs

/-- Writes the expanded flag: `setExpanded (b)`. -/
def setExpanded (b : Bool) : Item → Item
  | mk i h _ s cs => mk i h b s cs

/-- Writes the selected flag: `setSelected (b)`. -/
def setSelected (b : Bool) : Item → Item
  | mk i h e _ cs => mk i h e b cs

/-- Replaces the list of children. -/
def setChildren (cs : List Item) : Item → Item
  | mk i h e s _ => mk i h e s cs

mutual
/-- Number of items in the subtree of an item, the item included. -/
def size : Item → Nat
  | mk _ _ _ _ cs => 1 + sizeL cs
/-- Number of items in a forest. -/
def sizeL : List Item → Nat
  | [] => 0
  | c :: cs => size c + sizeL cs
end

end Item

/-! ## Pointers into the tree -/

namespace Item

/-- The item reached from `it` by following child indexes. -/
def get : Item → Path → Option Item
  | it, [] => some it
  | it, i :: p =>
    match it.children[i]? with
    | none => none
    | some c => get c p

/-- Applies `f` to the item reached from `it` by following child indexes. -/
def modifyAt (f : Item → Item) : Path → Item → Item
  | [], it => f it
  | i :: p, it => it.setChildren (it.children.modify (modifyAt f p) i)

end Item

/-- The item a pointer designates. The invisible root is not an `Item`. -/
def getItem (w : TreeWidget) : Path → Option Item
  | [] => none
  | i :: p =>
    match w[i]? with
    | none => none
    | some c => c.get p

/-- The children of the item a pointer designates (those of the invisible root for `[]`). -/
def childrenOf (w : TreeWidget) : Path → List Item
  | [] => w
  | i :: p =>
    match getItem w (i :: p) with
    | none => []
    | some it => it.children

/-- Models `item->childCount ()`. -/
def childCount (w : TreeWidget) (item : Path) : Nat :=
  (childrenOf w item).length

/-- Models `item->child (i)`: null when the index is out of range. -/
def child (w : TreeWidget) (item : Path) (i : Int) : Option Path :=
  if 0 ≤ i ∧ i < (childCount w item : Int) then some (item ++ [i.toNat]) else none

/-- Models `item->parent ()`: null for a top-level item and for the invisible root. -/
def parent (item : Path) : Option Path :=
  if item.length ≤ 1 then none else some item.dropLast

/-- Applies `f` to the item a pointer designates; nothing happens for the invisible root
or a dangling pointer. -/
def modifyAt (f : Item → Item) : Path → TreeWidget → TreeWidget
  | [], w => w
  | i :: p, w => w.modify (Item.modifyAt f p) i

/-- Models `getFileIndexFromTreeItem`: null for a null pointer and for an item
without user data, which is the case of the invisible root. -/
def getFileIndexFromTreeItem (w : TreeWidget) (item : Option Path) : Option FileIndex :=
  match item with
  | none => none
  | some p => (getItem w p).map Item.index

/-! ## Filtering -/

/-- The result of a filter function: `(is_filter, same_as_file)`. -/
abbrev filterFuncReturn := Bool × Bool

/-- A filter function, evaluated on the `FileIndex` of an item. -/
abbrev filterFunc := FileIndex → filterFuncReturn

/-- The loop `while (parent) { parent->setHidden (false); parent = parent->parent (); }`. -/
def unhideParents : Nat → Option Path → TreeWidget → TreeWidget
  | _, none, w => w
  | 0, some _, w => w
  | n + 1, some p, w => unhideParents n (parent p) (modifyAt (Item.setHidden false) p w)

/-- Pushes the children of `item` on the stack, first child first, so that the last
child ends on top. -/
def pushChildren (w : TreeWidget) (item : Path) (item_stack : List Path) : List Path :=
  ((List.range (childCount w item)).map (fun i => item ++ [i])).reverse ++ item_stack

/-- The `while (!item_stack.empty ())` loop of `filterItemBy`; the head of the list is the
top of the stack.  The call `setItemChildrenFilter (item, is_filter)` is the same loop
started on the children of `item` with the constant filter function. -/
def filterLoop : Nat → filterFunc → List Path → TreeWidget → Option TreeWidget
  | _, _, [], w => some w
  | 0, _, _ :: _, _ => none
  | fuel + 1, filter_func, item :: item_stack, w =>
    match getFileIndexFromTreeItem w (some item) with
    | none => none
    | some index =>
      let is_filter := (filter_func index).1
      let same_as_file := (filter_func index).2
      let w1 :=
        if is_filter then
          unhideParents item.length (parent item) (modifyAt (Item.setHidden false) item w)
        else
          modifyAt (Item.setHidden true) item w
      if index.type = FileIndexType.FILE ∧ same_as_file = true then
        match filterLoop fuel (fun _ => (is_filter, false)) (pushChildren w1 item []) w1 with
        | none => none
        | some w2 => filterLoop fuel filter_func item_stack w2
      else
        filterLoop fuel filter_func (pushChildren w1 item item_stack) w1

/-- Models `ApvlvContent::filterItemBy (root, filter_func)`. -/
def filterItemBy (w : TreeWidget) (root : Path) (filter_func : filterFunc) :
    Option TreeWidget :=
  filterLoop (Item.sizeL w + 1) filter_func (pushChildren w root []) w

/-- Models `ApvlvContent::setItemChildrenFilter (root, is_filter)`. -/
def setItemChildrenFilter (w : TreeWidget) (root : Path) (is_filter : Bool) :
    Option TreeWidget :=
  filterItemBy w root (fun _ => (is_filter, false))

/-! ## Selection and navigation -/

mutual
/-- The first selected item of a subtree in pre-order, relative to its root. -/
def Item.firstSelected : Item → Option Path
  | Item.mk _ _ _ s cs => if s = true then some [] else firstSelectedL cs 0
/-- The first selected item of a list of siblings whose first element has index `i`. -/
def firstSelectedL : List Item → Nat → Option Path
  | [], _ => none
  | c :: cs, i =>
    match Item.firstSelected c with
    | some p => some (i :: p)
    | none => firstSelectedL cs (i + 1)
end

/-- Modelled from the spec: `selectedTreeItem ()` is declared in `ApvlvContent.h`, which is
not among the sources; it yields the selected item, and null when no item is selected.
Should several items be selected, this is the first of them in pre-order. -/
def selectedTreeItem (w : TreeWidget) : Option Path :=
  firstSelectedL w 0

mutual
/-- Clears the selected flag of the items of a subtree that are not hidden; a hidden item
keeps its flag. -/
def Item.clearSelected : Item → Item
  | Item.mk i h e s cs => Item.mk i h e (h && s) (clearSelectedL cs)
/-- The loop `for (auto selitem : selitems) selitem->setSelected (false);` over
`mTreeWidget.selectedItems ()`.  The call `QTreeWidget::selectedItems ()` returns the
selected items that are not hidden, so the loop does not reach a selected item whose own
hidden flag is set. -/
def clearSelectedL : List Item → List Item
  | [] => []
  | c :: cs => Item.clearSelected c :: clearSelectedL cs
end

/-- The loop `while (parent) { mTreeWidget.expandItem (parent); parent = parent->parent (); }`. -/
def expandParents : Nat → Option Path → TreeWidget → TreeWidget
  | _, none, w => w
  | 0, some _, w => w
  | n + 1, some p, w => expandParents n (parent p) (modifyAt (Item.setExpanded true) p w)

/-- Models `ApvlvContent::setItemSelected (item)`; there is no result for a null `item`,
which the function dereferences. -/
def setItemSelected (w : TreeWidget) (item : Option Path) : Option TreeWidget :=
  match item with
  | none => none
  | some item =>
    let w1 := clearSelectedL w
    let w2 := expandParents item.length (parent item) w1
    let w3 := modifyAt (Item.setSelected true) item w2
    match getItem w3 item with
    | none => some w3
    | some it =>
      if it.expanded = true then some (modifyAt (Item.setExpanded false) item w3) else some w3

/-- Models `parent->indexOfChild (item)`: `-1` when `item` is not a child of `parent`. -/
def indexOfChild (parent item : Path) : Int :=
  match item.getLast? with
  | none => -1
  | some i => if item.dropLast = parent then (i : Int) else -1

/-- The parent used by the scroll functions: `invisibleRootItem ()` for a top-level item. -/
def parentOrRoot (item : Path) : Path :=
  match parent item with
  | none => []
  | some p => p

/-- Models `ApvlvContent::scrollUp (times)`. -/
def scrollUp (w : TreeWidget) (times : Int) : Option TreeWidget :=
  match selectedTreeItem w with
  | none => some w
  | some item =>
    let index := indexOfChild (parentOrRoot item) item
    if index > 0 then
      let new_index := if index > times then index - times else 0
      setItemSelected w (child w (parentOrRoot item) new_index)
    else some w

/-- The value of type `int` that stands for the integer `x`: its residue in the range from
`-2^31` to `2^31 - 1`. -/
def wrapInt (x : Int) : Int :=
  (x + 2147483648) % 4294967296 - 2147483648

/-- Models `ApvlvContent::scrollDown (times)`.  The sum `index + times` is an `int`; it is
the one arithmetic expression of the scroll functions that can leave the range of `int`
for a positive `times`, and it is taken modulo `2^32`. -/
def scrollDown (w : TreeWidget) (times : Int) : Option TreeWidget :=
  match selectedTreeItem w with
  | none => some w
  | some item =>
    let index := indexOfChild (parentOrRoot item) item
    let count : Int := childCount w (parentOrRoot item)
    let new_index :=
      if wrapInt (index + times) < count then wrapInt (index + times) else count - 1
    setItemSelected w (child w (parentOrRoot item) new_index)

/-- The loop `while (--times > 0 && parent->parent ()) parent = parent->parent ();`,
with `k` the number of times `--times > 0` can still hold. -/
def scrollLeftLoop : Nat → Path → Path
  | 0, p => p
  | k + 1, p =>
    match parent p with
    | none => p
    | some q => scrollLeftLoop k q

/-- Models `ApvlvContent::scrollLeft (times)`. -/
def scrollLeft (w : TreeWidget) (times : Int) : Option TreeWidget :=
  match selectedTreeItem w with
  | none => some w
  | some item =>
    match parent item with
    | none => some w
    | some p => setItemSelected w (some (scrollLeftLoop (times - 1).toNat p))

/-- The loop `while (--times > 0 && item->childCount () > 0) item = item->child (0);`. -/
def scrollRightLoop (w : TreeWidget) : Nat → Path → Path
  | 0, p => p
  | k + 1, p => if childCount w p > 0 then scrollRightLoop w k (p ++ [0]) else p

/-- Models `ApvlvContent::scrollRight (times)`. -/
def scrollRight (w : TreeWidget) (times : Int) : Option TreeWidget :=
  match selectedTreeItem w with
  | none => some w
  | some item =>
    if childCount w item = 0 then some w
    else setItemSelected w (some (scrollRightLoop w (times - 1).toNat (item ++ [0])))

/-! ## Search -/

/-- Models `ApvlvContent::treeItemToFileIndex`: the `FileIndex` of the nearest item of kind
`FILE` on the way up from `item`, the item itself included. -/
def treeItemToFileIndex (w : TreeWidget) : Nat → Option Path → Option FileIndex
  | _, none => none
  | 0, some _ => none
  | n + 1, some item =>
    match getFileIndexFromTreeItem w (some item) with
    | none => none
    | some index =>
      if index.type = FileIndexType.FILE then some index
      else treeItemToFileIndex w n (parent item)

mutual
/-- The body of `findTreeWidgetItem` for an item `itr` that carries a `FileIndex`. -/
def findInItem (w : TreeWidget) (type : FileIndexType) (path : String) (pn : Int)
    (anchor : String) : Item → Path → Option Path
  | Item.mk index _ _ _ cs, itr =>
    if index.type ≠ type then findInChildren w type path pn anchor cs itr 0
    else
      match treeItemToFileIndex w (itr.length + 1) (some itr) with
      | none =>
        if index.page = pn ∧ (anchor = "" ∨ index.anchor = anchor) then some itr else none
      | some file_index =>
        if file_index.path = path ∧ index.page = pn ∧ (anchor = "" ∨ index.anchor = anchor)
        then some itr else none
/-- The loop over the children of `itr`, from the child with index `ind` on. -/
def findInChildren (w : TreeWidget) (type : FileIndexType) (path : String) (pn : Int)
    (anchor : String) : List Item → Path → Nat → Option Path
  | [], _, _ => none
  | c :: cs, itr, ind =>
    match findInItem w type path pn anchor c (itr ++ [ind]) with
    | some citr => some citr
    | none => findInChildren w type path pn anchor cs itr (ind + 1)
end

/-- Models `ApvlvContent::findTreeWidgetItem`.  The function returns null at once when
`itr` is null or carries no `FileIndex`, which is the case of the invisible root. -/
def findTreeWidgetItem (w : TreeWidget) (itr : Option Path) (type : FileIndexType)
    (path : String) (pn : Int) (anchor : String) : Option Path :=
  match getFileIndexFromTreeItem w itr with
  | none => none
  | some _ =>
    match itr with
    | none => none
    | some p =>
      match getItem w p with
      | none => none
      | some it => findInItem w type path pn anchor it p

/-- The search of `ApvlvContent::setCurrentIndex`: the value of `fitr` before the final test. -/
def setCurrentIndexFind (w : TreeWidget) (path : String) (pn : Int) (anchor : String) :
    Option Path :=
  match findTreeWidgetItem w (selectedTreeItem w) FileIndexType.PAGE path pn anchor with
  | some fitr => some fitr
  | none =>
    match findTreeWidgetItem w (some []) FileIndexType.PAGE path pn anchor with
    | some fitr => some fitr
    | none => findTreeWidgetItem w (some []) FileIndexType.FILE path pn anchor

/-- Models `ApvlvContent::setCurrentIndex`: the widget afterwards and the returned flag. -/
def setCurrentIndex (w : TreeWidget) (path : String) (pn : Int) (anchor : String) :
    Option (TreeWidget × Bool) :=
  match setCurrentIndexFind w path pn anchor with
  | some fitr => (setItemSelected w (some fitr)).map (fun w' => (w', true))
  | none => some (w, false)

/-- Models `ApvlvContent::selectFirstItem`, with `mFrame->filename ()` and
`mFrame->pageNumber ()` as arguments. -/
def selectFirstItem (w : TreeWidget) (filename : String) (pageNumber : Int) :
    Option TreeWidget :=
  match setCurrentIndex w filename pageNumber "" with
  | none => none
  | some (w', true) => some w'
  | some (_, false) =>
    if w.length > 0 then setItemSelected w (some [0]) else some w

/-! ## Sorting -/

/-- The columns of the tree, `ApvlvContent::Column`. -/
inductive Column where
  | Title
  | MTime
  | FileSize
  deriving DecidableEq, Repr

/-- The `itemState` of `sortItems`, a `pair<QTreeWidgetItem *, bool>`.  While the children
of one item are being sorted, a pointer to a child is the index the child had when the pass
began, together with the child it designates. -/
abbrev itemState := (Nat × Item) × Bool

/-- The type of `std::ranges::sort`, applied to a comparison between elements. -/
abbrev SortRoutine := (itemState → itemState → Bool) → List itemState → List itemState

/-- The comparison each branch of `sortItems` hands to `std::ranges::sort`:
`std::ranges::greater` on the projected key when `mSortAscending` is set, and
`std::ranges::less` otherwise. -/
def sortComp (mSortColumn : Column) (mSortAscending : Bool) (a b : itemState) : Bool :=
  if mSortAscending = true then
    match mSortColumn with
    | Column.Title => decide (a.1.2.index.title > b.1.2.index.title)
    | Column.MTime => decide (a.1.2.index.mtime > b.1.2.index.mtime)
    | Column.FileSize => decide (a.1.2.index.size > b.1.2.index.size)
  else
    match mSortColumn with
    | Column.Title => decide (a.1.2.index.title < b.1.2.index.title)
    | Column.MTime => decide (a.1.2.index.mtime < b.1.2.index.mtime)
    | Column.FileSize => decide (a.1.2.index.size < b.1.2.index.size)

/-- What the C++ standard promises of `std::ranges::sort`: the result is a permutation of
the input, and no element compares before an element that precedes it.  The order of
elements that compare equivalent is left open. -/
structure IsStdSort (srt : SortRoutine) : Prop where
  perm : ∀ (comp : itemState → itemState → Bool) (l : List itemState), (srt comp l).Perm l
  sorted : ∀ (col : Column) (asc : Bool) (l : List itemState),
    (srt (sortComp col asc) l).Pairwise (fun a b => sortComp col asc b a = false)

/-- A sort routine that keeps equivalent elements in their order: insertion sort. -/
def insertionSortRoutine : SortRoutine :=
  fun comp l => List.insertionSort (fun a b => comp b a = false) l

/-- A sort routine that reverses the order of equivalent elements. -/
def reversingSortRoutine : SortRoutine :=
  fun comp l => List.insertionSort (fun a b => comp b a = false) l.reverse

/-- The elements of `item_list`: the children that are not of kind `PAGE`, each with its
expanded flag. -/
def itemList (tagged : List (Nat × Item)) : List itemState :=
  (tagged.filter (fun c => decide (c.2.index.type ≠ FileIndexType.PAGE))).map
    (fun c => (c, c.2.expanded))

/-- The elements of `item_list` that the `for_each` pushes on `needSort`. -/
def needSortPushes (item_list : List itemState) : List itemState :=
  item_list.filter
    (fun p => decide (p.1.2.children.length > 1 ∧ p.1.2.index.type = FileIndexType.DIR))

/-- Models `root->indexOfChild (p.first)` on the current list of children. -/
def indexOfTag (cur : List (Nat × Item)) (tag : Nat) : Nat :=
  cur.findIdx (fun c => c.1 == tag)

/-- The reinsertion loop of `sortItems`, from position `i` on: a child that is not at its
position is taken out, inserted there, and gets its expanded flag back.  The calls
`takeChild` and `insertChild` are taken to move the item as it is, with the items below it. -/
def reinsert : Nat → List itemState → List (Nat × Item) → List (Nat × Item)
  | _, [], cur => cur
  | i, p :: ps, cur =>
    let oi := indexOfTag cur p.1.1
    if oi ≠ i then
      match cur[oi]? with
      | none => reinsert (i + 1) ps cur
      | some c => reinsert (i + 1) ps ((cur.eraseIdx oi).insertIdx i (c.1, c.2.setExpanded p.2))
    else reinsert (i + 1) ps cur

/-- Replaces the children of the item a pointer designates. -/
def setChildrenAt (root : Path) (cs : List Item) (w : TreeWidget) : TreeWidget :=
  match root with
  | [] => cs
  | _ :: _ => modifyAt (Item.setChildren cs) root w

/-- The `while (!needSort.empty ())` loop of `sortItems`; the head of the list is the top
of the stack.  A pointer pushed on `needSort` is resolved to the position its item has
after the reinsertion loop. -/
def sortLoop (srt : SortRoutine) (mSortColumn : Column) (mSortAscending : Bool) :
    Nat → List Path → TreeWidget → Option TreeWidget
  | _, [], w => some w
  | 0, _ :: _, _ => none
  | fuel + 1, root :: needSort, w =>
    let tagged := (childrenOf w root).enum
    let item_list := itemList tagged
    let pushed := needSortPushes item_list
    let sorted := srt (sortComp mSortColumn mSortAscending) item_list
    let final := reinsert 0 sorted tagged
    let w1 := setChildrenAt root (final.map Prod.snd) w
    let needSort1 :=
      (pushed.map (fun p => root ++ [indexOfTag final p.1.1])).reverse ++ needSort
    sortLoop srt mSortColumn mSortAscending fuel needSort1 w1

/-- Models `ApvlvContent::sortItems (tree_iter)`, with `std::ranges::sort` and the members
`mSortColumn` and `mSortAscending` as arguments. -/
def sortItems (srt : SortRoutine) (mSortColumn : Column) (mSortAscending : Bool)
    (w : TreeWidget) (tree_iter : Path) : Option TreeWidget :=
  sortLoop srt mSortColumn mSortAscending (Item.sizeL w + 1) [tree_iter] w

/-! ## Sequences of operations -/

/-- The operations on the tree that change or move the selection, with filtering and sorting. -/
inductive Op where
  | setItemSelected (item : Path)
  | scrollUp (times : Int)
  | scrollDown (times : Int)
  | scrollLeft (times : Int)
  | scrollRight (times : Int)
  | setCurrentIndex (path : String) (pn : Int) (anchor : String)
  | selectFirstItem (filename : String) (pageNumber : Int)
  | filterItemBy (filter_func : filterFunc)
  | sortItems (mSortColumn : Column) (mSortAscending : Bool)

/-- Runs one operation; filtering and sorting start at the invisible root. -/
def applyOp (srt : SortRoutine) : Op → TreeWidget → Option TreeWidget
  | Op.setItemSelected item, w => setItemSelected w (some item)
  | Op.scrollUp times, w => scrollUp w times
  | Op.scrollDown times, w => scrollDown w times
  | Op.scrollLeft times, w => scrollLeft w times
  | Op.scrollRight times, w => scrollRight w times
  | Op.setCurrentIndex path pn anchor, w => (setCurrentIndex w path pn anchor).map Prod.fst
  | Op.selectFirstItem filename pageNumber, w => selectFirstItem w filename pageNumber
  | Op.filterItemBy filter_func, w => filterItemBy w [] filter_func
  | Op.sortItems mSortColumn mSortAscending, w => sortItems srt mSortColumn mSortAscending w []

/-- Runs a sequence of operations, the head of the list first. -/
def runOps (srt : SortRoutine) : List Op → TreeWidget → Option TreeWidget
  | [], w => some w
  | op :: ops, w =>
    match applyOp srt op w with
    | none => none
    | some w1 => runOps srt ops w1

/-- Whether an operation is called with a count in its domain, for a tree of `n` items: a
scroll upwards or downwards moves by at least one position, and for a scroll downwards
`n + times` is in the range of `int`. -/
def opInDomain (n : Nat) : Op → Prop
  | Op.scrollUp times => 1 ≤ times
  | Op.scrollDown times => 1 ≤ times ∧ (n : Int) + times < 2147483648
  | _ => True

/-! ## Specification functions used in the proofs -/

mutual
/-- What filtering does to a subtree: an item ends up visible exactly when the filter
function in force holds for it or some item below it ends up visible; below a `FILE` item
with `same_as_file` the constant function takes over. -/
def filterSpec (f : filterFunc) : Item → Item
  | Item.mk idx _ e s cs =>
    let m := (f idx).1
    let cs' :=
      if idx.type = FileIndexType.FILE ∧ (f idx).2 = true then
        filterSpecL (fun _ => (m, false)) cs
      else filterSpecL f cs
    Item.mk idx (!(m || cs'.any (fun c => !c.hidden))) e s cs'
/-- The function `filterSpec` on a list of siblings. -/
def filterSpecL (f : filterFunc) : List Item → List Item
  | [] => []
  | c :: cs => filterSpec f c :: filterSpecL f cs
end

/-- Unhides the items on the way from `it` to the item at `p`, the latter excluded. -/
def Item.unhideSpine : Path → Item → Item
  | [], it => it
  | i :: p, it => (it.setChildren (it.children.modify (Item.unhideSpine p) i)).setHidden false

/-- Unhides the ancestors of the item at `p`. -/
def unhideSpine : Path → TreeWidget → TreeWidget
  | [], w => w
  | i :: p, w => w.modify (Item.unhideSpine p) i

/-- Normal form of the widget while the subtree at `px` is being filtered. -/
def nf (px : Path) (w : TreeWidget) (u : Bool) (Y : Item) : TreeWidget :=
  if u then unhideSpine px (modifyAt (fun _ => Y) px w) else modifyAt (fun _ => Y) px w

/-- The stack entries for the first `j` children of `px`, last child on top. -/
def stackOf (px : Path) (j : Nat) : List Path :=
  ((List.range j).map (fun i => px ++ [i])).reverse

/-- The widget after the subtree at `px` has been filtered. -/
def applied (f : filterFunc) (px : Path) (X : Item) (w : TreeWidget) : TreeWidget :=
  nf px w (!(filterSpec f X).hidden) (filterSpec f X)

/-- Whether some item of the list is visible. -/
def anyVisible (cs : List Item) : Bool := cs.any (fun c => !c.hidden)

mutual
/-- The number of selected items in a subtree. -/
def Item.countSelected : Item → Nat
  | Item.mk _ _ _ s cs => (if s = true then 1 else 0) + countSelectedL cs
/-- The number of selected items in a forest. -/
def countSelectedL : List Item → Nat
  | [] => 0
  | c :: cs => Item.countSelected c + countSelectedL cs
end

mutual
/-- A subtree with the three flags of every item cleared: what is left is the tree of
index entries. -/
def Item.eraseFlags : Item → Item
  | Item.mk i _ _ _ cs => Item.mk i false false false (eraseFlagsL cs)
/-- The function `Item.eraseFlags` on a forest. -/
def eraseFlagsL : List Item → List Item
  | [] => []
  | c :: cs => Item.eraseFlags c :: eraseFlagsL cs
end

/-- The children of an item after one pass of the loop body of `sortItems`: the children
that are not of kind `PAGE` in the order `std::ranges::sort` gives them, then the children
of kind `PAGE` in the order they had. -/
def levelSpec (srt : SortRoutine) (col : Column) (asc : Bool) (cs : List Item) : List Item :=
  (srt (sortComp col asc) (itemList cs.enum)).map (fun p => p.1.2)
    ++ cs.filter (fun c => decide (c.index.type = FileIndexType.PAGE))

/-- The test that puts a child on `needSort`. -/
def needsSort (c : Item) : Bool :=
  decide (c.children.length > 1 ∧ c.index.type = FileIndexType.DIR)

/-- What `sortItems` does to the children of an item, to depth `k`: one pass over the
children, then the same below every child that was put on `needSort`. -/
def sortSpecL (srt : SortRoutine) (col : Column) (asc : Bool) : Nat → List Item → List Item
  | 0, cs => cs
  | k + 1, cs =>
    (levelSpec srt col asc cs).map
      (fun c => if needsSort c = true then c.setChildren (sortSpecL srt col asc k c.children)
        else c)

/-- Applies `g` at each of the listed positions in turn. -/
def applyAt (g : Item → Item) : List Nat → List Item → List Item
  | [], ys => ys
  | pos :: poss, ys => applyAt g poss (ys.modify g pos)

/-- A pointer that can head a pass of `sortItems`: the invisible root or an item. -/
def ValidRoot (w : TreeWidget) (root : Path) : Prop :=
  root = [] ∨ ∃ X, getItem w root = some X

/-- The sizes of the subtrees at the listed positions, added up. -/
def costAt (poss : List Nat) (ys : List Item) : Nat :=
  (poss.map (fun pos => match ys[pos]? with
    | some c => c.size
    | none => 0)).sum

/-- What a pass below a child does to the child. -/
def sortBelow (srt : SortRoutine) (col : Column) (asc : Bool) (k : Nat) (c : Item) : Item :=
  c.setChildren (sortSpecL srt col asc k c.children)

/-- Whether two index entries have the same key in the given column. -/
def sameKey (col : Column) (a b : FileIndex) : Bool :=
  match col with
  | Column.Title => decide (a.title = b.title)
  | Column.MTime => decide (a.mtime = b.mtime)
  | Column.FileSize => decide (a.size = b.size)

mutual
/-- No two children of the item that are not of kind `PAGE` have the same key, and so on
below every child. -/
def Item.noTies (col : Column) : Item → Bool
  | Item.mk _ _ _ _ cs => noTiesL col cs
/-- No two items of the list that are not of kind `PAGE` have the same key, and the same
holds among the children of every item of the list, at every depth. -/
def noTiesL (col : Column) : List Item → Bool
  | [] => true
  | c :: cs =>
    (decide (c.index.type = FileIndexType.PAGE)
        || cs.all (fun d => decide (d.index.type = FileIndexType.PAGE)
            || !sameKey col c.index d.index))
      && Item.noTies col c && noTiesL col cs
end

/-- The comparison of `sortComp` on two items. -/
def compItems (col : Column) (asc : Bool) (a b : Item) : Bool :=
  sortComp col asc ((0, a), false) ((0, b), false)

/-! ## Hidden selected items, and the order of the items -/

mutual
/-- The number of items of a subtree that are selected and hidden: the selected items that
`mTreeWidget.selectedItems ()` does not list. -/
def Item.countHiddenSelected : Item → Nat
  | Item.mk _ h _ s cs => (if h = true ∧ s = true then 1 else 0) + countHiddenSelectedL cs
/-- The number of items of a forest that are selected and hidden. -/
def countHiddenSelectedL : List Item → Nat
  | [] => 0
  | c :: cs => Item.countHiddenSelected c + countHiddenSelectedL cs
end

/-- The order of the items in pre-order, on pointers: whether the item at the first
pointer is the item at the second or comes before it.  An item comes before the items
below it and before its later siblings with all that is below them. -/
def precedes : Path → Path → Bool
  | [], _ => true
  | _ :: _, [] => false
  | i :: p, j :: q => decide (i < j) || (decide (i = j) && precedes p q)

/-- What a filter on files leaves visible: in `w'`, the items at and below an item of kind
`FILE` of `w` that has no item of kind `FILE` above it are visible exactly when `shown`
holds for the index entry of that item. -/
def FilesShownBy (w w' : TreeWidget) (shown : FileIndex → Prop) : Prop :=
  ∀ (p : Path) (F : Item), getItem w p = some F → F.index.type = FileIndexType.FILE →
    (∀ q ∈ p.inits, q ≠ p →
      (getItem w q).map (fun A => A.index.type) ≠ some FileIndexType.FILE) →
    ∀ (r : Path) (D : Item), getItem w' (p ++ r) = some D → (D.hidden = false ↔ shown F.index)

/-! ## Concrete trees -/

/-- An index entry with the given kind, title (also used as path), modification time and
page number. -/
def mkIndex (type : FileIndexType) (title : String) (mtime : Int) (page : Int) : FileIndex :=
  { type := type, title := title, path := title, mtime := mtime, size := 0, page := page,
    anchor := "" }

/-- A visible, collapsed, unselected item. -/
def mkItem (index : FileIndex) (children : List Item) : Item :=
  Item.mk index false false false children

/-- Two directories at top level: `A` modified at 100 and `B` modified at 200. -/
def treeAB : TreeWidget :=
  [mkItem (mkIndex FileIndexType.DIR "A" 100 0) [],
   mkItem (mkIndex FileIndexType.DIR "B" 200 0) []]

/-- A directory `D0` whose only child is the directory `D1`, which holds three files
modified at 2, 1 and 3. -/
def treeChain : TreeWidget :=
  [mkItem (mkIndex FileIndexType.DIR "D0" 0 0)
    [mkItem (mkIndex FileIndexType.DIR "D1" 0 0)
      [mkItem (mkIndex FileIndexType.FILE "b" 2 0) [],
       mkItem (mkIndex FileIndexType.FILE "a" 1 0) [],
       mkItem (mkIndex FileIndexType.FILE "c" 3 0) []]]]

/-- The file `report.pdf` with one page entry for page 3; nothing is selected. -/
def treeReport : TreeWidget :=
  [mkItem (mkIndex FileIndexType.FILE "report.pdf" 0 0)
    [mkItem (mkIndex FileIndexType.PAGE "Results" 0 3) []]]

/-- Two top-level directories; the last one, `B`, is selected and expanded. -/
def treeLastExpanded : TreeWidget :=
  [mkItem (mkIndex FileIndexType.DIR "A" 0 0) [],
   Item.mk (mkIndex FileIndexType.DIR "B" 0 0) false true true
    [mkItem (mkIndex FileIndexType.FILE "f" 0 0) []]]

/-- A file with two page entries. -/
def itemPaper : Item :=
  mkItem (mkIndex FileIndexType.FILE "paper.pdf" 0 0)
    [mkItem (mkIndex FileIndexType.PAGE "Introduction" 0 1) [],
     mkItem (mkIndex FileIndexType.PAGE "Results" 0 5) []]

/-- A directory that holds the file `paper.pdf`. -/
def treePaper : TreeWidget :=
  [mkItem (mkIndex FileIndexType.DIR "docs" 0 0) [itemPaper]]

/-- The filter function of `FilterType::FileName` for a text every title contains: files
match, other items do not, and `same_as_file` is set. -/
def filterFiles : filterFunc :=
  fun a => (decide (a.type = FileIndexType.FILE), true)

/-- The directory `docs` with the files `a`, `b` and `c`; `b` is selected. -/
def treeThreeFiles : TreeWidget :=
  [Item.mk (mkIndex FileIndexType.DIR "docs" 0 0) false true false
    [mkItem (mkIndex FileIndexType.FILE "a" 10 0) [],
     Item.mk (mkIndex FileIndexType.FILE "b" 30 0) false false true [],
     mkItem (mkIndex FileIndexType.FILE "c" 20 0) []]]

/-- The directory `docs` with the file `paper.pdf`, whose second page entry is selected. -/
def treeSelectedPage : TreeWidget :=
  [Item.mk (mkIndex FileIndexType.DIR "docs" 0 0) false true false
    [Item.mk (mkIndex FileIndexType.FILE "paper.pdf" 0 0) false true false
      [mkItem (mkIndex FileIndexType.PAGE "Introduction" 0 1) [],
       Item.mk (mkIndex FileIndexType.PAGE "Results" 0 5) false false true []]]]

/-- A sequence with every kind of operation. -/
def opsAll : List Op :=
  [Op.scrollUp 1, Op.sortItems Column.MTime true, Op.filterItemBy filterFiles,
   Op.scrollDown 3, Op.scrollLeft 1, Op.scrollRight 2, Op.setItemSelected [0, 2],
   Op.setCurrentIndex "a" 0 "", Op.selectFirstItem "none" 7]

/-- Two directories at top level with the same modification time. -/
def treeTies : TreeWidget :=
  [mkItem (mkIndex FileIndexType.DIR "A" 0 0) [],
   mkItem (mkIndex FileIndexType.DIR "B" 0 0) []]

/-- The directory `D0` holds the directory `D1` and the file `z`, and `D1` holds three
files modified at 2, 1 and 3; beside `D0` there is the directory `E`. -/
def treeDeep : TreeWidget :=
  [mkItem (mkIndex FileIndexType.DIR "D0" 10 0)
    [mkItem (mkIndex FileIndexType.DIR "D1" 5 0)
      [mkItem (mkIndex FileIndexType.FILE "b" 2 0) [],
       mkItem (mkIndex FileIndexType.FILE "a" 1 0) [],
       mkItem (mkIndex FileIndexType.FILE "c" 3 0) []],
     mkItem (mkIndex FileIndexType.FILE "z" 9 0) []],
   mkItem (mkIndex FileIndexType.DIR "E" 20 0) []]

/-! ## The filter box -/

/-- The kinds of filter, `ApvlvContent::FilterType`, in the order of `FilterTypeString`. -/
inductive FilterType where
  | Title
  | FileName
  | MTimeBe
  | MTimeLe
  | FileSizeBe
  | FileSizeLe
  deriving DecidableEq, Repr

/-- What `onFilter` takes from outside `ApvlvContent.cc`. -/
structure FilterEnv where
  /-- The function `QDateTime::fromString`, as milliseconds since the epoch; `none` stands
  for the invalid `QDateTime` that a text which is not a date yields. -/
  fromString : String → Option Int
  /-- The value of `toMSecsSinceEpoch ()` on an invalid `QDateTime`. -/
  invalidMSecs : Int
  /-- The function `parseFormattedDataSize` of `ApvlvUtil`, with a `qint64` result. -/
  parseFormattedDataSize : String → Int
  /-- The conversion `static_cast<decltype (size)>` of a `qint64` to the type of
  `FileIndex::size`, which is declared outside `ApvlvContent.cc`. -/
  castSize : Int → Int

/-- Models `datetime.toMSecsSinceEpoch ()`. -/
def toMSecsSinceEpoch (env : FilterEnv) (datetime : Option Int) : Int :=
  match datetime with
  | some t => t
  | none => env.invalidMSecs

/-- Models `a->title.find (text.toStdString ()) != string::npos`. -/
def titleFind (title text : String) : Bool :=
  decide (text.toList <:+: title.toList)

mutual
/-- Expands an item and every item below it. -/
def Item.expandAll : Item → Item
  | Item.mk i h _ s cs => Item.mk i h true s (expandAllL cs)
/-- Models `mTreeWidget.expandAll ()`. -/
def expandAllL : List Item → List Item
  | [] => []
  | c :: cs => Item.expandAll c :: expandAllL cs
end

/-- The filter function `onFilter` builds for a filter type and a text that is not empty. -/
def filterFuncOf (env : FilterEnv) (type : FilterType) (text : String) : filterFunc :=
  match type with
  | FilterType.Title => fun a => (titleFind a.title text, false)
  | FilterType.FileName =>
    fun a => (decide (a.type = FileIndexType.FILE) && titleFind a.title text, true)
  | FilterType.MTimeBe =>
    let datetime := env.fromString text
    fun a => (decide (a.type = FileIndexType.FILE)
      && decide (a.mtime ≥ toMSecsSinceEpoch env datetime), true)
  | FilterType.MTimeLe =>
    let datetime := env.fromString text
    fun a => (decide (a.type = FileIndexType.FILE)
      && decide (a.mtime ≤ toMSecsSinceEpoch env datetime), true)
  | FilterType.FileSizeBe =>
    let qsize := env.parseFormattedDataSize text
    let size := env.castSize qsize
    fun a => (decide (a.type = FileIndexType.FILE) && decide ((a.size : Int) ≥ size), true)
  | FilterType.FileSizeLe =>
    let qsize := env.parseFormattedDataSize text
    let size := env.castSize qsize
    fun a => (decide (a.type = FileIndexType.FILE) && decide ((a.size : Int) ≤ size), true)

/-- Models `ApvlvContent::onFilter`, with `mFilterType.currentIndex ()` cast to `FilterType`
(`none` for a value outside the enumeration) and `mFilterText.text ().trimmed ()` as
arguments. -/
def onFilter (env : FilterEnv) (w : TreeWidget) (type : Option FilterType) (text : String) :
    Option TreeWidget :=
  if text = "" then setItemChildrenFilter w [] true
  else
    match type with
    | some t =>
      match filterItemBy w [] (filterFuncOf env t text) with
      | none => none
      | some w1 => some (expandAllL w1)
    | none => some (expandAllL w)

mutual
/-- An item with the hidden flag cleared on it and on every item below it. -/
def Item.unhideAll : Item → Item
  | Item.mk i _ e s cs => Item.mk i false e s (unhideAllL cs)
/-- The function `Item.unhideAll` on a list of siblings. -/
def unhideAllL : List Item → List Item
  | [] => []
  | c :: cs => Item.unhideAll c :: unhideAllL cs
end

/-- Models `QDateTime::fromSecsSinceEpoch (index->mtime, ...)` of `setFileIndexToTreeItem`,
as milliseconds since the epoch: `mtime` counts seconds. -/
def fromSecsSinceEpoch (mtime : Int) : Int :=
  1000 * mtime

/-! ## The index tree and the members of `ApvlvContent` -/

/-- A `FileIndex` object with its children: the scalar fields and `mChildrenIndex`. -/
inductive IndexNode where
  | mk (entry : FileIndex) (mChildrenIndex : List IndexNode)
  deriving Repr

namespace IndexNode

/-- The scalar fields of the object. -/
def entry : IndexNode → FileIndex
  | mk e _ => e

/-- The member `mChildrenIndex`. -/
def mChildrenIndex : IndexNode → List IndexNode
  | mk _ cs => cs

/-- Replaces `mChildrenIndex`. -/
def setChildren (cs : List IndexNode) : IndexNode → IndexNode
  | mk e _ => mk e cs

/-- The object reached from `n` by following child positions. -/
def get : IndexNode → List Nat → Option IndexNode
  | n, [] => some n
  | n, k :: ks =>
    match n.mChildrenIndex[k]? with
    | none => none
    | some c => get c ks

/-- Applies `f` to the object reached from `n` by following child positions. -/
def modifyAt (f : IndexNode → IndexNode) : List Nat → IndexNode → IndexNode
  | [], n => f n
  | k :: ks, n => n.setChildren (n.mChildrenIndex.modify (modifyAt f ks) k)

end IndexNode

/-- The members of `ApvlvContent` that the functions below read and write. -/
structure Content where
  mIndex : IndexNode
  mTreeWidget : TreeWidget
  mSortColumn : Column
  mSortAscending : Bool

/-- The position in `cs` of the first object with entry `e`. -/
def childPos (cs : List IndexNode) (e : FileIndex) : Option Nat :=
  let k := cs.findIdx (fun c => decide (c.entry = e))
  if k < cs.length then some k else none

/-- The object in the index tree that the user data of the item at `p` points to, as the
child positions that lead to it from `mIndex`.  An item of the embedding carries the entry
its pointer leads to; the pointee is found again by going down the index tree along the
ancestors of the item, at each level to the first child that has the entry of the item. -/
def indexPathOf : List IndexNode → List Item → Path → Option (List Nat)
  | _, _, [] => some []
  | ns, w, i :: p =>
    match w[i]? with
    | none => none
    | some c =>
      match childPos ns c.index with
      | none => none
      | some k =>
        match ns[k]? with
        | none => none
        | some n =>
          match indexPathOf n.mChildrenIndex c.children p with
          | none => none
          | some ks => some (k :: ks)

mutual
/-- Models `ApvlvContent::setIndex (index, root_itr)`: the new item that is added to
`root_itr`, with an item below it for every child of `index`.  A new item is neither
hidden nor expanded nor selected. -/
def setIndexUnder : IndexNode → Item
  | IndexNode.mk entry cs => Item.mk entry false false false (setIndexUnderL cs)
/-- The loop `for (auto &child : index.mChildrenIndex) setIndex (child, itr);`. -/
def setIndexUnderL : List IndexNode → List Item
  | [] => []
  | c :: cs => setIndexUnder c :: setIndexUnderL cs
end

/-- The function `ApvlvContent::sortItems (tree_iter)` on the members: it reads `mSortColumn`
and `mSortAscending` and writes the widget only. -/
def sortItemsOn (srt : SortRoutine) (s : Content) (tree_iter : Path) : Option Content :=
  match sortItems srt s.mSortColumn s.mSortAscending s.mTreeWidget tree_iter with
  | none => none
  | some w => some { s with mTreeWidget := w }

/-- Models `ApvlvContent::refreshIndex (index)`: the widget is cleared, `mIndex` becomes
`index`, an item is made for every object below `mIndex`, and the items are sorted.  The
call of `selectFirstItem` that the timer makes later is not part of it. -/
def refreshIndex (srt : SortRoutine) (s : Content) (index : IndexNode) : Option Content :=
  sortItemsOn srt
    { s with mIndex := index, mTreeWidget := setIndexUnderL index.mChildrenIndex } []

/-- Models `ApvlvContent::currentItemFileIndex ()`: the entry of the selected item, null
when no item is selected. -/
def currentItemFileIndex (s : Content) : Option FileIndex :=
  getFileIndexFromTreeItem s.mTreeWidget (selectedTreeItem s.mTreeWidget)

/-- Models `ApvlvContent::setIndex (index)`.  The method `FileIndex::moveChildChildren` is
declared outside `ApvlvContent.cc` and is an argument: it gives the object `cur_index`
after the call.  There is no result when `cur_index` is null and is dereferenced, and none
when the pointer of the selected item leads nowhere. -/
def setIndex (srt : SortRoutine) (moveChildChildren : IndexNode → IndexNode → IndexNode)
    (s : Content) (index : IndexNode) : Option Content :=
  if s.mTreeWidget.length = 0 ∨ index.entry.type = FileIndexType.DIR then
    refreshIndex srt s index
  else if s.mIndex.entry.type = FileIndexType.DIR then
    match currentItemFileIndex s, selectedTreeItem s.mTreeWidget with
    | some cur, some cur_item =>
      if cur.type = FileIndexType.FILE ∧ index.entry.type = FileIndexType.FILE then
        match indexPathOf s.mIndex.mChildrenIndex s.mTreeWidget cur_item with
        | none => none
        | some ks =>
          match s.mIndex.get ks with
          | none => none
          | some cur_index =>
            if cur_index.mChildrenIndex.isEmpty then
              let cur_index1 := moveChildChildren cur_index index
              some { s with
                mIndex := s.mIndex.modifyAt (fun _ => cur_index1) ks
                mTreeWidget := modifyAt
                  (fun it => it.setChildren
                    (it.children ++ setIndexUnderL cur_index1.mChildrenIndex))
                  cur_item s.mTreeWidget }
            else some s
      else some s
    | _, _ => none
  else some s

/-! ## Deleting files -/

/-- The buttons of the confirmation dialog that `onFileDelete` tells apart. -/
inductive StandardButton where
  | Yes
  | No
  | YesToAll
  | NoToAll
  deriving DecidableEq, Repr

mutual
/-- The selected items of a subtree that are not hidden, in pre-order; `p` is the pointer
of its root. -/
def Item.selectedItems : Item → Path → List Path
  | Item.mk _ h _ s cs, p =>
    (if s = true ∧ h = false then [p] else []) ++ selectedItemsL cs p 0
/-- The selected items below `p` that are not hidden, from the child with index `i` on. -/
def selectedItemsL : List Item → Path → Nat → List Path
  | [], _, _ => []
  | c :: cs, p, i => Item.selectedItems c (p ++ [i]) ++ selectedItemsL cs p (i + 1)
end

/-- Models `mTreeWidget.selectedItems ()`: the selected items that are not hidden, in
pre-order. -/
def selectedItems (w : TreeWidget) : List Path :=
  selectedItemsL w [] 0

/-- The pointer `r` after the item at `p` was taken out of the tree: the indexes of the
later siblings of `p` go down by one; there is none for `p` and the items below it. -/
def shiftPath : Path → Path → Option Path
  | [], _ => none
  | _ :: _, [] => some []
  | [i], j :: rest =>
    if j = i then none else if j > i then some ((j - 1) :: rest) else some (j :: rest)
  | i :: p, j :: rest =>
    if j = i then (shiftPath p rest).map (fun r => j :: r) else some (j :: rest)

/-- The pointer of an item of the start after the items at `removed` were taken out one
after the other. -/
def shiftPaths (removed : List Path) (r : Path) : Option Path :=
  removed.foldl (fun acc p => acc.bind (shiftPath p)) (some r)

/-- Takes the item at `item` out of the tree: `takeTopLevelItem` for a top-level item and
`parent->removeChild (item)` otherwise. -/
def removeItem (item : Path) (w : TreeWidget) : TreeWidget :=
  match item.getLast? with
  | none => w
  | some i => setChildrenAt item.dropLast ((childrenOf w item.dropLast).eraseIdx i) w

/-- A version of `FileIndex::removeChild`, which is declared outside `ApvlvContent.cc`:
the first child with the given entry is removed. -/
def removeChildByEntry (n : IndexNode) (e : FileIndex) : IndexNode :=
  n.setChildren (n.mChildrenIndex.eraseP (fun c => decide (c.entry = e)))

/-- The loop of `onFileDelete` over the selected items.  `items` are the pointers the loop
has still to visit, as they were at the start, and `removed` the items taken out so far;
`log` lists the calls of `QFile::remove` with their results.  The entries that the other
items carry are taken to stay as they are when an object is removed from the index tree.
There is no result when the loop comes to an item below an item it has removed. -/
def onFileDeleteLoop (removeChild : IndexNode → FileIndex → IndexNode)
    (question : String → Bool → StandardButton) (remove : String → Bool) (several : Bool) :
    List Path → List Path → StandardButton → Content → List (String × Bool) →
      Option (Content × List (String × Bool))
  | [], _, _, s, log => some (s, log)
  | item0 :: items, removed, msg_res, s, log =>
    match shiftPaths removed item0 with
    | none => none
    | some item =>
      match getFileIndexFromTreeItem s.mTreeWidget (some item) with
      | none => none
      | some index =>
        if index.type ≠ FileIndexType.FILE then
          onFileDeleteLoop removeChild question remove several items removed msg_res s log
        else
          let qpath := index.path
          let msg_res1 :=
            if msg_res = StandardButton.No ∨ msg_res = StandardButton.Yes then
              question qpath several
            else msg_res
          if msg_res1 = StandardButton.NoToAll then some (s, log)
          else if msg_res1 = StandardButton.No then
            onFileDeleteLoop removeChild question remove several items removed msg_res1 s log
          else
            let mIndex1 : Option IndexNode :=
              match parent item with
              | none => some (removeChild s.mIndex index)
              | some parent =>
                (indexPathOf s.mIndex.mChildrenIndex s.mTreeWidget parent).map
                  (fun ks => s.mIndex.modifyAt (fun pindex => removeChild pindex index) ks)
            match mIndex1 with
            | none => none
            | some mIndex1 =>
              onFileDeleteLoop removeChild question remove several items (removed ++ [item])
                msg_res1
                { s with mIndex := mIndex1, mTreeWidget := removeItem item s.mTreeWidget }
                (log ++ [(qpath, remove qpath)])

/-- Models `ApvlvContent::onFileDelete`.  The answers of `QMessageBox::question`, for a path
and for whether several items are selected, and the results of `QFile::remove` are
arguments, as is `FileIndex::removeChild`. -/
def onFileDelete (removeChild : IndexNode → FileIndex → IndexNode)
    (question : String → Bool → StandardButton) (remove : String → Bool) (s : Content) :
    Option (Content × List (String × Bool)) :=
  let items := selectedItems s.mTreeWidget
  if items.isEmpty then some (s, [])
  else
    onFileDeleteLoop removeChild question remove (decide (items.length > 1)) items []
      StandardButton.No s []

/-! ## Trees that differ in the order of siblings -/

/-- The item `b` is the item `a` with the children reordered, at any depth: both have the
same index entry and the same three flags, and the children of `b` are, in some order,
the children of `a`, each reordered in this way. -/
inductive Reordered : Item → Item → Prop
  | node (i : FileIndex) (h e s : Bool) (cs l ds : List Item) :
      List.Forall₂ Reordered cs l → l.Perm ds →
      Reordered (Item.mk i h e s cs) (Item.mk i h e s ds)

/-- The item `b` is the item `a` with the children reordered, at any depth, in such a way
that the children of kind `PAGE` of every item are the same sequence as before; where all
children of an item are of kind `PAGE`, the list of its children is the same as before. -/
inductive PagesKept : Item → Item → Prop
  | node (i : FileIndex) (h e s : Bool) (cs l ds : List Item) :
      List.Forall₂ PagesKept cs l → l.Perm ds →
      ds.filter (fun c => decide (c.index.type = FileIndexType.PAGE))
        = cs.filter (fun c => decide (c.index.type = FileIndexType.PAGE)) →
      ((∀ c ∈ cs, c.index.type = FileIndexType.PAGE) → ds = cs) →
      PagesKept (Item.mk i h e s cs) (Item.mk i h e s ds)

/-- The item `it` is a new item for the object `n` of the index tree: it carries the entry
of `n`, is neither hidden nor expanded nor selected, and its children are, in some order,
new items for the children of `n`, one for each. -/
inductive FreshMirror : IndexNode → Item → Prop
  | node (entry : FileIndex) (ns : List IndexNode) (l ds : List Item) :
      List.Forall₂ FreshMirror ns l → l.Perm ds →
      FreshMirror (IndexNode.mk entry ns) (Item.mk entry false false false ds)

/-! ## Matches below an item, well-formed trees, pre-order -/

mutual
/-- Whether `is_filter` holds for the item or for an item below it. -/
def Item.anyMatch (f : filterFunc) : Item → Bool
  | Item.mk idx _ _ _ cs => (f idx).1 || anyMatchL f cs
/-- Whether `is_filter` holds for an item of the list or for an item below one. -/
def anyMatchL (f : filterFunc) : List Item → Bool
  | [] => false
  | c :: cs => Item.anyMatch f c || anyMatchL f cs
end

mutual
/-- The kinds of the data model: below a directory there are directories and files, below a
file there are pages, and a page has no children. -/
def Item.wellFormed : Item → Bool
  | Item.mk idx _ _ _ cs =>
    (match idx.type with
      | FileIndexType.DIR => cs.all (fun c => decide (c.index.type ≠ FileIndexType.PAGE))
      | FileIndexType.FILE => cs.all (fun c => decide (c.index.type = FileIndexType.PAGE))
      | FileIndexType.PAGE => cs.isEmpty) && wellFormedL cs
/-- Every item of the list is well-formed. -/
def wellFormedL : List Item → Bool
  | [] => true
  | c :: cs => Item.wellFormed c && wellFormedL cs
end

mutual
/-- The pointers of the items of a subtree in pre-order; `p` is the pointer of its root. -/
def Item.preorder : Item → Path → List Path
  | Item.mk _ _ _ _ cs, p => p :: preorderL cs p 0
/-- The pointers of the items below `p` in pre-order, from the child with index `i` on. -/
def preorderL : List Item → Path → Nat → List Path
  | [], _, _ => []
  | c :: cs, p, i => Item.preorder c (p ++ [i]) ++ preorderL cs p (i + 1)
end

/-- Whether the item at `p` is what `findTreeWidgetItem` looks for: it has the kind `type`,
its page is `pn`, its anchor is `anchor` unless `anchor` is empty, and the nearest item of
kind `FILE` at or above it, if there is one, has the path `path`. -/
def qualifies (w : TreeWidget) (type : FileIndexType) (path : String) (pn : Int)
    (anchor : String) (p : Path) : Bool :=
  match getItem w p with
  | none => false
  | some X =>
    decide (X.index.type = type) && decide (X.index.page = pn)
      && (decide (anchor = "") || decide (X.index.anchor = anchor))
      && (match treeItemToFileIndex w (p.length + 1) (some p) with
          | none => true
          | some file_index => decide (file_index.path = path))

mutual
/-- Neither the item nor an item below it has the kind `type`. -/
def Item.kindFree (type : FileIndexType) : Item → Bool
  | Item.mk idx _ _ _ cs => decide (idx.type ≠ type) && kindFreeL type cs
/-- No item of the list and no item below one has the kind `type`. -/
def kindFreeL (type : FileIndexType) : List Item → Bool
  | [] => true
  | c :: cs => Item.kindFree type c && kindFreeL type cs
end

/-! ## Concrete states -/

/-- A version of `FileIndex::moveChildChildren`: the object takes over the children of the
argument. -/
def takeChildren (cur_index index : IndexNode) : IndexNode :=
  cur_index.setChildren index.mChildrenIndex

/-- The index of the directory `docs` with the files `a.pdf` and `b.pdf`. -/
def indexDocs : IndexNode :=
  IndexNode.mk (mkIndex FileIndexType.DIR "docs" 0 0)
    [IndexNode.mk (mkIndex FileIndexType.FILE "a.pdf" 10 0) [],
     IndexNode.mk (mkIndex FileIndexType.FILE "b.pdf" 20 0) []]

/-- The index of the file `a.pdf` with two pages. -/
def indexFileA : IndexNode :=
  IndexNode.mk (mkIndex FileIndexType.FILE "a.pdf" 10 0)
    [IndexNode.mk (mkIndex FileIndexType.PAGE "Introduction" 0 1) [],
     IndexNode.mk (mkIndex FileIndexType.PAGE "Results" 0 5) []]

/-- The members before the first index arrives: an empty widget. -/
def contentEmpty : Content :=
  { mIndex := IndexNode.mk (mkIndex FileIndexType.DIR "" 0 0) []
    mTreeWidget := []
    mSortColumn := Column.MTime
    mSortAscending := true }

/-- The members after `setIndex (indexDocs)` and the `selectFirstItem` that follows it:
`b.pdf` is the first item and is selected. -/
def contentDocs : Option Content :=
  match setIndex insertionSortRoutine takeChildren contentEmpty indexDocs with
  | none => none
  | some s =>
    match selectFirstItem s.mTreeWidget "a.pdf" 0 with
    | none => none
    | some w => some { s with mTreeWidget := w }

/-- The members after the selected file of `contentDocs` was deleted with the answer `Yes`,
while `QFile::remove` failed. -/
def contentDeleted : Option (Content × List (String × Bool)) :=
  match contentDocs with
  | none => none
  | some s => onFileDelete removeChildByEntry (fun _ _ => StandardButton.Yes) (fun _ => false) s

/-- What is looked at in a state: the entries of the children of `mIndex`, the titles of
the top-level items and the selected item. -/
def Content.view (s : Content) : List String × List String × Option Path :=
  (s.mIndex.mChildrenIndex.map (fun n => n.entry.title),
    s.mTreeWidget.map (fun c => c.index.title), selectedTreeItem s.mTreeWidget)

/-- An environment in which no text is a date, `toMSecsSinceEpoch ()` of the invalid date is
0, `parseFormattedDataSize` yields 0 and sizes are unsigned 64-bit integers. -/
def envNoDates : FilterEnv :=
  { fromString := fun _ => none
    invalidMSecs := 0
    parseFormattedDataSize := fun _ => 0
    castSize := fun qsize => qsize % 18446744073709551616 }

/-- The members with the widget `treeThreeFiles`, sorted by modification time. -/
def contentThreeFiles : Content :=
  { mIndex := IndexNode.mk (mkIndex FileIndexType.DIR "" 0 0)
      [IndexNode.mk (mkIndex FileIndexType.DIR "docs" 0 0)
        [IndexNode.mk (mkIndex FileIndexType.FILE "a" 10 0) [],
         IndexNode.mk (mkIndex FileIndexType.FILE "b" 30 0) [],
         IndexNode.mk (mkIndex FileIndexType.FILE "c" 20 0) []]]
    mTreeWidget := treeThreeFiles
    mSortColumn := Column.MTime
    mSortAscending := false }

/-- The widget after the selected file of `contentDocs` was deleted. -/
def treeAfterDelete : TreeWidget :=
  match contentDeleted with
  | none => []
  | some r => r.1.mTreeWidget

/-- An environment in which every text is the date 1000 seconds after the epoch. -/
def envSecs1000 : FilterEnv :=
  { fromString := fun _ => some 1000000
    invalidMSecs := 0
    parseFormattedDataSize := fun _ => 0
    castSize := fun qsize => qsize % 18446744073709551616 }

/-- The directory `books` holds the directory `novels`, which holds the directory `long`
with the file `chapter one`, and the file `notes`. -/
def treeChapter : TreeWidget :=
  [mkItem (mkIndex FileIndexType.DIR "books" 0 0)
    [mkItem (mkIndex FileIndexType.DIR "novels" 0 0)
      [mkItem (mkIndex FileIndexType.DIR "long" 0 0)
        [mkItem (mkIndex FileIndexType.FILE "chapter one" 0 0) []]],
     mkItem (mkIndex FileIndexType.FILE "notes" 0 0) []]]

/-- The top-level item of `treeSelectedPage`: the directory `docs`. -/
def itemDocs : Item :=
  Item.mk (mkIndex FileIndexType.DIR "docs" 0 0) false true false
    [Item.mk (mkIndex FileIndexType.FILE "paper.pdf" 0 0) false true false
      [mkItem (mkIndex FileIndexType.PAGE "Introduction" 0 1) [],
       Item.mk (mkIndex FileIndexType.PAGE "Results" 0 5) false false true []]]

/-- Two files at top level; nothing is selected and nothing is hidden. -/
def treeTwoFiles : TreeWidget :=
  [mkItem (mkIndex FileIndexType.FILE "a" 10 0) [],
   mkItem (mkIndex FileIndexType.FILE "b" 20 0) []]

/-- The first top-level item is selected, then the title filter is set to the text `b`. -/
def opsHideSelected : List Op :=
  [Op.setItemSelected [0], Op.filterItemBy (filterFuncOf envNoDates FilterType.Title "b")]

/-- The tree that `opsHideSelected` leaves of `treeTwoFiles`: the file `a` is selected and
hidden, the file `b` is visible and not selected. -/
def treeHiddenSelected : TreeWidget :=
  [Item.mk (mkIndex FileIndexType.FILE "a" 10 0) true false true [],
   mkItem (mkIndex FileIndexType.FILE "b" 20 0) []]

/-- The first top-level item is selected, then the title filter is set to a text that no
title contains. -/
def opsHideAll : List Op :=
  [Op.setItemSelected [0], Op.filterItemBy (filterFuncOf envNoDates FilterType.Title "zzz")]

/-! ## Filtering: the loop computes `filterSpecL` -/

namespace Item

@[simp] theorem mk_eta (it : Item) :
    mk it.index it.hidden it.expanded it.selected it.children = it := by
  cases it; rfl

@[simp] theorem index_mk (i h e s cs) : (mk i h e s cs).index = i := rfl
@[simp] theorem hidden_mk (i h e s cs) : (mk i h e s cs).hidden = h := rfl
@[simp] theorem expanded_mk (i h e s cs) : (mk i h e s cs).expanded = e := rfl
@[simp] theorem selected_mk (i h e s cs) : (mk i h e s cs).selected = s := rfl
@[simp] theorem children_mk (i h e s cs) : (mk i h e s cs).children = cs := rfl
@[simp] theorem setHidden_mk (b i h e s cs) : (mk i h e s cs).setHidden b = mk i b e s cs := rfl
@[simp] theorem setExpanded_mk (b i h e s cs) :
    (mk i h e s cs).setExpanded b = mk i h b s cs := rfl
@[simp] theorem setSelected_mk (b i h e s cs) :
    (mk i h e s cs).setSelected b = mk i h e b cs := rfl
@[simp] theorem setChildren_mk (cs' i h e s cs) :
    (mk i h e s cs).setChildren cs' = mk i h e s cs' := rfl

theorem item_modify_self {α : Type} (j : Nat) : ∀ (l : List α), List.modify (fun x => x) j l = l := by
  intro l
  apply List.ext_getElem?
  intro n
  rw [List.getElem?_modify]
  split <;> simp

theorem item_modifyAt_comp (f g : Item → Item) :
    ∀ (p : Path) (it : Item), modifyAt f p (modifyAt g p it) = modifyAt (f ∘ g) p it
  | [], it => rfl
  | i :: p, mk idx h e s cs => by
    simp only [modifyAt, setChildren_mk, children_mk, List.modify_modify_eq]
    congr 2
    funext c
    exact item_modifyAt_comp f g p c

theorem item_modifyAt_snoc (f : Item → Item) (j : Nat) :
    ∀ (p : Path) (it : Item),
      modifyAt f (p ++ [j]) it = modifyAt (fun c => c.setChildren (c.children.modify f j)) p it
  | [], mk idx h e s cs => by
    simp only [List.nil_append, modifyAt, children_mk, setChildren_mk]
  | i :: p, mk idx h e s cs => by
    simp only [List.cons_append, modifyAt, children_mk, setChildren_mk]
    congr 2
    funext c
    exact item_modifyAt_snoc f j p c

theorem item_unhideSpine_snoc (j : Nat) :
    ∀ (p : Path) (it : Item),
      unhideSpine (p ++ [j]) it = unhideSpine p (modifyAt (setHidden false) p it)
  | [], mk idx h e s cs => by
    simp [unhideSpine, modifyAt, item_modify_self]
  | i :: p, mk idx h e s cs => by
    simp only [List.cons_append, unhideSpine, modifyAt, children_mk, setChildren_mk,
      setHidden_mk, List.modify_modify_eq]
    congr 2
    funext c
    exact item_unhideSpine_snoc j p c


theorem item_modifyAt_unhideSpine (f : Item → Item) :
    ∀ (p : Path) (it : Item),
      modifyAt f p (unhideSpine p it) = unhideSpine p (modifyAt f p it)
  | [], it => rfl
  | i :: p, mk idx h e s cs => by
    simp only [unhideSpine, modifyAt, children_mk, setChildren_mk, setHidden_mk,
      List.modify_modify_eq]
    congr 2
    funext c
    exact item_modifyAt_unhideSpine f p c

theorem item_unhideSpine_idem :
    ∀ (p : Path) (it : Item), unhideSpine p (unhideSpine p it) = unhideSpine p it
  | [], it => rfl
  | i :: p, mk idx h e s cs => by
    simp only [unhideSpine, children_mk, setChildren_mk, setHidden_mk, List.modify_modify_eq]
    congr 2
    funext c
    exact item_unhideSpine_idem p c

theorem item_get_modifyAt (f : Item → Item) :
    ∀ (p : Path) (it : Item), (modifyAt f p it).get p = (it.get p).map f
  | [], it => rfl
  | i :: p, mk idx h e s cs => by
    simp only [modifyAt, get, children_mk, setChildren_mk, List.getElem?_modify_eq]
    cases hc : cs[i]? with
    | none => simp
    | some c => simp [item_get_modifyAt f p c]

theorem item_get_unhideSpine :
    ∀ (p : Path) (it : Item), (unhideSpine p it).get p = it.get p
  | [], it => rfl
  | i :: p, mk idx h e s cs => by
    simp only [unhideSpine, get, children_mk, setChildren_mk, setHidden_mk,
      List.getElem?_modify_eq]
    cases hc : cs[i]? with
    | none => simp
    | some c => simp [item_get_unhideSpine p c]

theorem item_get_snoc (j : Nat) :
    ∀ (p : Path) (it : Item), it.get (p ++ [j]) = (it.get p).bind (fun c => c.children[j]?)
  | [], it => by
    simp only [List.nil_append, get, Option.some_bind]
    cases it.children[j]? <;> rfl
  | i :: p, mk idx h e s cs => by
    simp only [List.cons_append, get, children_mk]
    cases hc : cs[i]? with
    | none => rfl
    | some c => simp [item_get_snoc j p c]

theorem item_modifyAt_congr_get (f : Item → Item) :
    ∀ (p : Path) (it X : Item), it.get p = some X →
      modifyAt f p it = modifyAt (fun _ => f X) p it
  | [], it, X, h => by
    simp only [get, Option.some.injEq] at h
    simp [modifyAt, h]
  | i :: p, mk idx hh e s cs, X, h => by
    simp only [get, children_mk] at h
    simp only [modifyAt, children_mk, setChildren_mk]
    congr 1
    cases hc : cs[i]? with
    | none => simp [hc] at h
    | some c =>
      simp only [hc] at h
      apply List.ext_getElem?
      intro n
      by_cases hn : i = n
      · subst hn
        simp [hc, item_modifyAt_congr_get f p c X h]
      · simp [List.getElem?_modify_ne _ _ hn]

end Item

/-! forest level -/

theorem modifyAt_comp (f g : Item → Item) (p : Path) (w : TreeWidget) :
    modifyAt f p (modifyAt g p w) = modifyAt (f ∘ g) p w := by
  cases p with
  | nil => rfl
  | cons i p =>
    simp only [modifyAt, List.modify_modify_eq]
    congr 1
    funext c
    exact Item.item_modifyAt_comp f g p c

theorem modifyAt_snoc (f : Item → Item) (j : Nat) (p : Path) (hp : p ≠ []) (w : TreeWidget) :
    modifyAt f (p ++ [j]) w = modifyAt (fun c => c.setChildren (c.children.modify f j)) p w := by
  cases p with
  | nil => exact absurd rfl hp
  | cons i p =>
    simp only [List.cons_append, modifyAt]
    congr 1
    funext c
    exact Item.item_modifyAt_snoc f j p c

theorem unhideSpine_snoc (j : Nat) (p : Path) (hp : p ≠ []) (w : TreeWidget) :
    unhideSpine (p ++ [j]) w = unhideSpine p (modifyAt (Item.setHidden false) p w) := by
  cases p with
  | nil => exact absurd rfl hp
  | cons i p =>
    simp only [List.cons_append, modifyAt, unhideSpine, List.modify_modify_eq]
    congr 1
    funext c
    exact Item.item_unhideSpine_snoc j p c

theorem modifyAt_unhideSpine (f : Item → Item) (p : Path) (w : TreeWidget) :
    modifyAt f p (unhideSpine p w) = unhideSpine p (modifyAt f p w) := by
  cases p with
  | nil => rfl
  | cons i p =>
    simp only [modifyAt, unhideSpine, List.modify_modify_eq]
    congr 1
    funext c
    exact Item.item_modifyAt_unhideSpine f p c

theorem unhideSpine_idem (p : Path) (w : TreeWidget) :
    unhideSpine p (unhideSpine p w) = unhideSpine p w := by
  cases p with
  | nil => rfl
  | cons i p =>
    simp only [unhideSpine, List.modify_modify_eq]
    congr 1
    funext c
    exact Item.item_unhideSpine_idem p c

theorem getItem_modifyAt (f : Item → Item) (p : Path) (w : TreeWidget) :
    getItem (modifyAt f p w) p = (getItem w p).map f := by
  cases p with
  | nil => rfl
  | cons i p =>
    simp only [getItem, modifyAt, List.getElem?_modify_eq]
    cases hc : w[i]? with
    | none => simp
    | some c => simp [Item.item_get_modifyAt f p c]

theorem getItem_unhideSpine (p : Path) (w : TreeWidget) :
    getItem (unhideSpine p w) p = getItem w p := by
  cases p with
  | nil => rfl
  | cons i p =>
    simp only [getItem, unhideSpine, List.getElem?_modify_eq]
    cases hc : w[i]? with
    | none => simp
    | some c => simp [Item.item_get_unhideSpine p c]

theorem getItem_snoc (j : Nat) (p : Path) (hp : p ≠ []) (w : TreeWidget) :
    getItem w (p ++ [j]) = (getItem w p).bind (fun c => c.children[j]?) := by
  cases p with
  | nil => exact absurd rfl hp
  | cons i p =>
    simp only [List.cons_append, getItem]
    cases hc : w[i]? with
    | none => rfl
    | some c => simp [Item.item_get_snoc j p c]

theorem modifyAt_congr_get (f : Item → Item) (p : Path) (w : TreeWidget) (X : Item)
    (h : getItem w p = some X) : modifyAt f p w = modifyAt (fun _ => f X) p w := by
  cases p with
  | nil => rfl
  | cons i p =>
    simp only [getItem] at h
    simp only [modifyAt]
    cases hc : w[i]? with
    | none => simp [hc] at h
    | some c =>
      simp only [hc] at h
      apply List.ext_getElem?
      intro n
      by_cases hn : i = n
      · subst hn
        simp [hc, Item.item_modifyAt_congr_get f p c X h]
      · simp [List.getElem?_modify_ne _ _ hn]

theorem parent_snoc (p : Path) (j : Nat) :
    parent (p ++ [j]) = if p = [] then none else some p := by
  cases p with
  | nil => rfl
  | cons i p =>
    have h : (i :: (p ++ [j])).dropLast = i :: p := by
      rw [← List.cons_append, List.dropLast_concat]
    simp [parent, h]

theorem unhideParents_eq :
    ∀ (n : Nat) (p : Path) (j : Nat) (w : TreeWidget), p.length ≤ n →
      unhideParents n (parent (p ++ [j])) w = unhideSpine (p ++ [j]) w := by
  intro n
  induction n with
  | zero =>
    intro p j w h
    have : p = [] := List.length_eq_zero.mp (Nat.le_zero.mp h)
    subst this
    simp [parent, unhideParents, unhideSpine, Item.unhideSpine, Item.item_modify_self]
  | succ n ih =>
    intro p j w h
    rcases List.eq_nil_or_concat p with hp | ⟨q, i, hq⟩
    · subst hp
      simp [parent, unhideParents, unhideSpine, Item.unhideSpine, Item.item_modify_self]
    · subst hq
      simp only [List.concat_eq_append] at h ⊢
      have hne : q ++ [i] ≠ [] := by simp
      rw [parent_snoc, if_neg hne, unhideParents, unhideSpine_snoc j _ hne]
      have hl : q.length ≤ n := by simpa using h
      rw [ih q i _ hl]

theorem unhideParents_length (px : Path) (hp : px ≠ []) (w : TreeWidget) :
    unhideParents px.length (parent px) w = unhideSpine px w := by
  rcases List.eq_nil_or_concat px with h | ⟨q, i, hq⟩
  · exact absurd h hp
  · subst hq
    simp only [List.concat_eq_append]
    exact unhideParents_eq _ q i w (by simp)

theorem getItem_nf (px : Path) (w : TreeWidget) (u : Bool) (X Y : Item)
    (h : getItem w px = some X) : getItem (nf px w u Y) px = some Y := by
  unfold nf
  split
  · rw [getItem_unhideSpine, getItem_modifyAt, h]; rfl
  · rw [getItem_modifyAt, h]; rfl

theorem modifyAt_nf (g : Item → Item) (px : Path) (w : TreeWidget) (u : Bool) (Y : Item) :
    modifyAt g px (nf px w u Y) = nf px w u (g Y) := by
  unfold nf
  split
  · rw [modifyAt_unhideSpine, modifyAt_comp]; rfl
  · rw [modifyAt_comp]; rfl

theorem unhideSpine_nf (px : Path) (w : TreeWidget) (u : Bool) (Y : Item) :
    unhideSpine px (nf px w u Y) = nf px w true Y := by
  unfold nf
  split
  · rw [unhideSpine_idem]; rfl
  · rfl

theorem nf_child (px : Path) (hp : px ≠ []) (w : TreeWidget) (u v : Bool) (j : Nat)
    (idx : FileIndex) (hh e s : Bool) (ys : List Item) (C' : Item) :
    (if v = true then unhideSpine (px ++ [j])
          (modifyAt (fun _ => C') (px ++ [j]) (nf px w u (Item.mk idx hh e s ys)))
      else modifyAt (fun _ => C') (px ++ [j]) (nf px w u (Item.mk idx hh e s ys)))
      = nf px w (u || v) (Item.mk idx (hh && !v) e s (ys.modify (fun _ => C') j)) := by
  rw [modifyAt_snoc _ _ _ hp, modifyAt_nf]
  cases v with
  | false => simp
  | true =>
    simp only [if_true]
    rw [unhideSpine_snoc _ _ hp, modifyAt_nf, unhideSpine_nf]
    simp

theorem stackOf_succ (px : Path) (j : Nat) :
    stackOf px (j + 1) = (px ++ [j]) :: stackOf px j := by
  simp [stackOf, List.range_succ]

theorem pushChildren_eq (w : TreeWidget) (item : Path) (st : List Path) :
    pushChildren w item st = stackOf item (childCount w item) ++ st := rfl

namespace Item

theorem size_pos (it : Item) : 1 ≤ it.size := by
  cases it; simp [size]

theorem sizeL_append : ∀ (a b : List Item), sizeL (a ++ b) = sizeL a + sizeL b
  | [], b => by simp [sizeL]
  | c :: a, b => by simp [sizeL, sizeL_append a b, Nat.add_assoc]

end Item

theorem filterSpecL_append (f : filterFunc) :
    ∀ (a b : List Item), filterSpecL f (a ++ b) = filterSpecL f a ++ filterSpecL f b
  | [], b => by simp [filterSpecL]
  | c :: a, b => by simp [filterSpecL, filterSpecL_append f a b]

theorem modify_middle {α : Type} (f : α → α) :
    ∀ (pre : List α) (c : α) (post : List α),
      (pre ++ [c] ++ post).modify f pre.length = pre ++ f c :: post
  | [], c, post => by simp
  | a :: pre, c, post => by
    simpa using modify_middle f pre c post

theorem filterLoop_children (n : Nat)
    (IH : ∀ X : Item, X.size ≤ n → ∀ (fuel : Nat) (f : filterFunc) (px : Path)
      (rest : List Path) (w : TreeWidget), px ≠ [] → getItem w px = some X → X.size ≤ fuel →
      ∃ fuel', fuel ≤ fuel' + X.size ∧
        filterLoop fuel f (px :: rest) w = filterLoop fuel' f rest (applied f px X w))
    (g : filterFunc) (px : Path) (hp : px ≠ []) (w : TreeWidget) (X0 : Item)
    (hX0 : getItem w px = some X0) (idx : FileIndex) (e s : Bool) (rest : List Path) :
    ∀ (pre post : List Item) (u hh : Bool) (fuel : Nat),
      Item.sizeL pre ≤ n → Item.sizeL pre ≤ fuel →
      ∃ fuel', fuel ≤ fuel' + Item.sizeL pre ∧
        filterLoop fuel g (stackOf px pre.length ++ rest)
            (nf px w u (Item.mk idx hh e s (pre ++ post)))
          = filterLoop fuel' g rest
              (nf px w (u || anyVisible (filterSpecL g pre))
                (Item.mk idx (hh && !anyVisible (filterSpecL g pre)) e s
                  (filterSpecL g pre ++ post))) := by
  intro pre
  induction pre using List.reverseRecOn with
  | nil =>
    intro post u hh fuel _ _
    refine ⟨fuel, by simp, ?_⟩
    simp [stackOf, filterSpecL, anyVisible]
  | append_singleton pre C ih =>
    intro post u hh fuel hn hfuel
    rw [Item.sizeL_append] at hn hfuel
    have hC : Item.sizeL [C] = C.size := by simp [Item.sizeL]
    rw [hC] at hn hfuel
    have hlen : (pre ++ [C]).length = pre.length + 1 := by simp
    rw [hlen, stackOf_succ, List.cons_append]
    have hget : getItem (nf px w u (Item.mk idx hh e s (pre ++ [C] ++ post)))
        (px ++ [pre.length]) = some C := by
      rw [getItem_snoc _ _ hp, getItem_nf px w u X0 _ hX0]
      simp only [Option.some_bind, Item.children_mk, List.append_assoc]
      rw [List.getElem?_append_right (Nat.le_refl _)]
      simp
    obtain ⟨fuel1, hf1, hstep⟩ := IH C (by omega) fuel g (px ++ [pre.length])
      (stackOf px pre.length ++ rest) _ (by simp) hget (by omega)
    rw [hstep]
    have happ : applied g (px ++ [pre.length]) C
        (nf px w u (Item.mk idx hh e s (pre ++ [C] ++ post)))
        = nf px w (u || !(filterSpec g C).hidden)
            (Item.mk idx (hh && !(!(filterSpec g C).hidden)) e s
              (pre ++ (filterSpec g C :: post))) := by
      have := nf_child px hp w u (!(filterSpec g C).hidden) pre.length idx hh e s
        (pre ++ [C] ++ post) (filterSpec g C)
      rw [modify_middle] at this
      rw [← this]
      unfold applied
      generalize nf px w u (Item.mk idx hh e s (pre ++ [C] ++ post)) = W
      unfold nf
      cases (filterSpec g C).hidden <;> simp
    rw [happ]
    obtain ⟨fuel2, hf2, hrest⟩ := ih (filterSpec g C :: post) (u || !(filterSpec g C).hidden)
      (hh && !(!(filterSpec g C).hidden)) fuel1 (by omega) (by omega)
    refine ⟨fuel2, by rw [Item.sizeL_append, hC]; omega, ?_⟩
    rw [hrest, filterSpecL_append]
    have h1 : filterSpecL g [C] = [filterSpec g C] := by simp [filterSpecL]
    rw [h1]
    have h2 : anyVisible (filterSpecL g pre ++ [filterSpec g C])
        = (anyVisible (filterSpecL g pre) || !(filterSpec g C).hidden) := by
      simp [anyVisible]
    rw [h2]
    congr 2
    · cases u <;> cases (filterSpec g C).hidden <;> cases anyVisible (filterSpecL g pre) <;> rfl
    · congr 1
      · cases hh <;> cases (filterSpec g C).hidden <;>
          cases anyVisible (filterSpecL g pre) <;> rfl
      · simp

theorem childCount_nf (px : Path) (hp : px ≠ []) (w : TreeWidget) (u : Bool) (X Y : Item)
    (h : getItem w px = some X) : childCount (nf px w u Y) px = Y.children.length := by
  cases px with
  | nil => exact absurd rfl hp
  | cons i p =>
    simp only [childCount, childrenOf]
    rw [getItem_nf (i :: p) w u X Y h]

theorem filterSpec_mk (f : filterFunc) (idx : FileIndex) (h e s : Bool) (cs : List Item) :
    filterSpec f (Item.mk idx h e s cs)
      = Item.mk idx
          (!((f idx).1 || anyVisible (filterSpecL
              (if idx.type = FileIndexType.FILE ∧ (f idx).2 = true
                then (fun _ => ((f idx).1, false)) else f) cs)))
          e s
          (filterSpecL
            (if idx.type = FileIndexType.FILE ∧ (f idx).2 = true
              then (fun _ => ((f idx).1, false)) else f) cs) := by
  simp only [filterSpec, anyVisible]
  split <;> rfl

theorem filterLoop_nil (k : Nat) (g : filterFunc) (W : TreeWidget) :
    filterLoop k g [] W = some W := by
  cases k <;> rfl

theorem filterLoop_step (fuel : Nat) (f : filterFunc) (item : Path) (st : List Path)
    (w : TreeWidget) (index : FileIndex)
    (h : getFileIndexFromTreeItem w (some item) = some index) :
    filterLoop (fuel + 1) f (item :: st) w =
      if index.type = FileIndexType.FILE ∧ (f index).2 = true then
        match filterLoop fuel (fun _ => ((f index).1, false))
          (pushChildren (if (f index).1 = true then
              unhideParents item.length (parent item) (modifyAt (Item.setHidden false) item w)
            else modifyAt (Item.setHidden true) item w) item [])
          (if (f index).1 = true then
              unhideParents item.length (parent item) (modifyAt (Item.setHidden false) item w)
            else modifyAt (Item.setHidden true) item w) with
        | none => none
        | some w2 => filterLoop fuel f st w2
      else
        filterLoop fuel f
          (pushChildren (if (f index).1 = true then
              unhideParents item.length (parent item) (modifyAt (Item.setHidden false) item w)
            else modifyAt (Item.setHidden true) item w) item st)
          (if (f index).1 = true then
              unhideParents item.length (parent item) (modifyAt (Item.setHidden false) item w)
            else modifyAt (Item.setHidden true) item w) := by
  rw [filterLoop]
  simp only [h]

theorem filterLoop_item : ∀ (n : Nat) (X : Item), X.size ≤ n →
    ∀ (fuel : Nat) (f : filterFunc) (px : Path) (rest : List Path) (w : TreeWidget),
      px ≠ [] → getItem w px = some X → X.size ≤ fuel →
      ∃ fuel', fuel ≤ fuel' + X.size ∧
        filterLoop fuel f (px :: rest) w = filterLoop fuel' f rest (applied f px X w) := by
  intro n
  induction n with
  | zero =>
    intro X hX
    have := X.size_pos
    omega
  | succ n IH =>
    intro X hX fuel f px rest w hp hget hfuel
    cases X with
    | mk idx h e s cs =>
    simp only [Item.size] at hX hfuel
    cases fuel with
    | zero => omega
    | succ fuel =>
    have hidx : getFileIndexFromTreeItem w (some px) = some idx := by
      simp [getFileIndexFromTreeItem, hget]
    -- the widget after the item itself has been handled
    have hw1 : (if (f idx).1 = true then
          unhideParents px.length (parent px) (modifyAt (Item.setHidden false) px w)
        else modifyAt (Item.setHidden true) px w)
        = nf px w (f idx).1 (Item.mk idx (!(f idx).1) e s cs) := by
      cases hm : (f idx).1 with
      | true =>
        simp only [if_true]
        rw [unhideParents_length px hp, modifyAt_congr_get _ px w _ hget]
        simp [nf]
      | false =>
        simp only [Bool.false_eq_true, if_false]
        rw [modifyAt_congr_get _ px w _ hget]
        simp [nf]
    have hcc : childCount (nf px w (f idx).1 (Item.mk idx (!(f idx).1) e s cs)) px
        = cs.length := by
      rw [childCount_nf px hp w _ _ _ hget]; rfl
    have hfinal : ∀ g : filterFunc,
        (if idx.type = FileIndexType.FILE ∧ (f idx).2 = true
              then (fun _ => ((f idx).1, false)) else f) = g →
        nf px w ((f idx).1 || anyVisible (filterSpecL g cs))
          (Item.mk idx (!(f idx).1 && !anyVisible (filterSpecL g cs)) e s
            (filterSpecL g cs))
        = applied f px (Item.mk idx h e s cs) w := by
      intro g hg
      unfold applied
      rw [filterSpec_mk, hg]
      simp
    rw [filterLoop_step fuel f px rest w idx hidx, hw1]
    by_cases hb : idx.type = FileIndexType.FILE ∧ (f idx).2 = true
    · simp only [hb, and_self, if_true]
      rw [pushChildren_eq, hcc]
      obtain ⟨fuel1, _, h1⟩ := filterLoop_children n IH (fun _ => ((f idx).1, false)) px hp w _
        hget idx e s [] cs [] (f idx).1 (!(f idx).1) fuel (by omega) (by omega)
      simp only [List.append_nil] at h1 ⊢
      rw [h1, filterLoop_nil]
      simp only []
      refine ⟨fuel, by simp only [Item.size]; omega, ?_⟩
      rw [hfinal _ (by simp [hb])]
    · simp only [hb, if_false]
      rw [pushChildren_eq, hcc]
      obtain ⟨fuel1, hf1, h1⟩ := filterLoop_children n IH f px hp w _
        hget idx e s rest cs [] (f idx).1 (!(f idx).1) fuel (by omega) (by omega)
      simp only [List.append_nil] at h1 ⊢
      rw [h1]
      refine ⟨fuel1, by simp only [Item.size]; omega, ?_⟩
      rw [hfinal _ (by simp [hb])]

theorem applied_top (f : filterFunc) (j : Nat) (X : Item) (w : TreeWidget) :
    applied f [j] X w = w.modify (fun _ => filterSpec f X) j := by
  unfold applied nf
  split
  · simp only [unhideSpine, modifyAt, Item.modifyAt, Item.unhideSpine, List.modify_modify_eq]
    rfl
  · simp [modifyAt, Item.modifyAt]

theorem filterLoop_top (f : filterFunc) (rest : List Path) :
    ∀ (pre post : List Item) (fuel : Nat), Item.sizeL pre ≤ fuel →
      ∃ fuel', fuel ≤ fuel' + Item.sizeL pre ∧
        filterLoop fuel f (stackOf [] pre.length ++ rest) (pre ++ post)
          = filterLoop fuel' f rest (filterSpecL f pre ++ post) := by
  intro pre
  induction pre using List.reverseRecOn with
  | nil =>
    intro post fuel _
    exact ⟨fuel, by simp, by simp [stackOf, filterSpecL]⟩
  | append_singleton pre C ih =>
    intro post fuel hfuel
    rw [Item.sizeL_append] at hfuel
    have hC : Item.sizeL [C] = C.size := by simp [Item.sizeL]
    rw [hC] at hfuel
    have hlen : (pre ++ [C]).length = pre.length + 1 := by simp
    rw [hlen, stackOf_succ, List.cons_append]
    have hget : getItem (pre ++ [C] ++ post) ([] ++ [pre.length]) = some C := by
      simp only [List.nil_append, getItem, List.append_assoc]
      rw [List.getElem?_append_right (Nat.le_refl _)]
      simp [Item.get]
    obtain ⟨fuel1, hf1, hstep⟩ := filterLoop_item C.size C (Nat.le_refl _) fuel f
      ([] ++ [pre.length]) (stackOf [] pre.length ++ rest) _ (by simp) hget (by omega)
    rw [hstep]
    simp only [List.nil_append]
    rw [applied_top, modify_middle]
    obtain ⟨fuel2, hf2, hrest⟩ := ih (filterSpec f C :: post) fuel1 (by omega)
    refine ⟨fuel2, by rw [Item.sizeL_append, hC]; omega, ?_⟩
    rw [hrest, filterSpecL_append]
    simp [filterSpecL]

/-- The filter started at the invisible root computes `filterSpecL`. -/
theorem filterItemBy_root (w : TreeWidget) (f : filterFunc) :
    filterItemBy w [] f = some (filterSpecL f w) := by
  unfold filterItemBy
  rw [pushChildren_eq]
  have h := filterLoop_top f [] w [] (Item.sizeL w + 1) (by omega)
  obtain ⟨fuel', _, h⟩ := h
  simp only [List.append_nil] at h
  have hc : childCount w [] = w.length := rfl
  rw [hc, List.append_nil, h, filterLoop_nil]

theorem getElem?_filterSpecL (f : filterFunc) :
    ∀ (cs : List Item) (i : Nat), (filterSpecL f cs)[i]? = (cs[i]?).map (filterSpec f)
  | [], i => by simp [filterSpecL]
  | c :: cs, 0 => by simp [filterSpecL]
  | c :: cs, i + 1 => by simpa [filterSpecL] using getElem?_filterSpecL f cs i

theorem anyVisible_of_getElem? (cs : List Item) (i : Nat) (c : Item) (h : cs[i]? = some c)
    (hc : c.hidden = false) : anyVisible cs = true := by
  simp only [anyVisible, List.any_eq_true]
  exact ⟨c, List.getElem?_mem h, by simp [hc]⟩

/-- In a filtered subtree a visible item keeps the root of the subtree visible. -/
theorem filterSpec_visible_up :
    ∀ (r : Path) (f : filterFunc) (X Y : Item),
      (filterSpec f X).get r = some Y → Y.hidden = false → (filterSpec f X).hidden = false
  | [], f, X, Y, h, hY => by
    simp only [Item.get, Option.some.injEq] at h
    rw [h]; exact hY
  | i :: r, f, Item.mk idx hh e s cs, Y, h, hY => by
    rw [filterSpec_mk] at h ⊢
    simp only [Item.get, Item.children_mk, getElem?_filterSpecL] at h
    cases hc : cs[i]? with
    | none => simp [hc] at h
    | some c =>
      simp only [hc, Option.map_some'] at h
      have hv := filterSpec_visible_up r _ c Y h hY
      have := anyVisible_of_getElem? (filterSpecL _ cs) i _
        (by rw [getElem?_filterSpecL, hc]; rfl) hv
      simp [this]

/-- Every item of a filtered subtree is itself a filtered subtree. -/
theorem filterSpec_get_image :
    ∀ (r : Path) (f : filterFunc) (X A : Item),
      (filterSpec f X).get r = some A → ∃ g A0, A = filterSpec g A0
  | [], f, X, A, h => by
    simp only [Item.get, Option.some.injEq] at h
    exact ⟨f, X, h.symm⟩
  | i :: r, f, Item.mk idx hh e s cs, A, h => by
    rw [filterSpec_mk] at h
    simp only [Item.get, Item.children_mk, getElem?_filterSpecL] at h
    cases hc : cs[i]? with
    | none => simp [hc] at h
    | some c =>
      simp only [hc, Option.map_some'] at h
      exact filterSpec_get_image r _ c A h

theorem Item.get_append :
    ∀ (q r : Path) (it : Item), it.get (q ++ r) = (it.get q).bind (fun c => c.get r)
  | [], r, it => rfl
  | i :: q, r, it => by
    simp only [List.cons_append, Item.get]
    cases it.children[i]? with
    | none => rfl
    | some c => exact Item.get_append q r c

theorem getItem_append (q r : Path) (hq : q ≠ []) (w : TreeWidget) :
    getItem w (q ++ r) = (getItem w q).bind (fun c => c.get r) := by
  cases q with
  | nil => exact absurd rfl hq
  | cons i q =>
    simp only [List.cons_append, getItem]
    cases w[i]? with
    | none => rfl
    | some c => exact Item.get_append q r c

theorem getItem_filterSpecL_image (f : filterFunc) (w : TreeWidget) (q : Path) (A : Item)
    (h : getItem (filterSpecL f w) q = some A) : ∃ g A0, A = filterSpec g A0 := by
  cases q with
  | nil => simp [getItem] at h
  | cons i q =>
    simp only [getItem, getElem?_filterSpecL] at h
    cases hc : w[i]? with
    | none => simp [hc] at h
    | some c =>
      simp only [hc, Option.map_some'] at h
      exact filterSpec_get_image q f c A h

/-- C1. After `filterItemBy` from the invisible root, with any filter function, the call
returns and no visible item lies under a hidden ancestor: whenever the item at `q ++ r` is
not hidden, the item at `q` is not hidden either. -/
theorem filterItemBy_visible_ancestors (w : TreeWidget) (f : filterFunc) :
    ∃ w', filterItemBy w [] f = some w' ∧
      ∀ (q r : Path) (A X : Item), getItem w' q = some A → getItem w' (q ++ r) = some X →
        X.hidden = false → A.hidden = false := by
  refine ⟨filterSpecL f w, filterItemBy_root w f, ?_⟩
  intro q r A X hA hX hvis
  have hq : q ≠ [] := by
    rintro rfl
    simp [getItem] at hA
  obtain ⟨g, A0, rfl⟩ := getItem_filterSpecL_image f w q A hA
  rw [getItem_append q r hq, hA] at hX
  exact filterSpec_visible_up r g A0 X hX hvis

mutual
theorem filterSpec_const_hidden (m : Bool) :
    ∀ X : Item, (filterSpec (fun _ => (m, false)) X).hidden = !m
  | Item.mk idx h e s cs => by
    rw [filterSpec_mk]
    simp only [Bool.false_eq_true, and_false, if_false, Item.hidden_mk]
    cases m with
    | true => rfl
    | false =>
      have := filterSpecL_const_any false cs
      simp only [Bool.false_eq_true, or_false] at this
      simp [this]
theorem filterSpecL_const_any (m : Bool) :
    ∀ cs : List Item, anyVisible (filterSpecL (fun _ => (m, false)) cs) = false ∨ m = true
  | [] => by simp [filterSpecL, anyVisible]
  | c :: cs => by
    cases m with
    | true => right; rfl
    | false =>
      left
      have h1 := filterSpec_const_hidden false c
      have h2 := filterSpecL_const_any false cs
      simp only [Bool.false_eq_true, or_false] at h2
      simp only [anyVisible] at h2 ⊢
      simp [filterSpecL, h1, h2]
end

theorem filterSpec_const_get (m : Bool) :
    ∀ (r : Path) (X D : Item),
      (filterSpec (fun _ => (m, false)) X).get r = some D → D.hidden = !m
  | [], X, D, h => by
    simp only [Item.get, Option.some.injEq] at h
    rw [← h]; exact filterSpec_const_hidden m X
  | i :: r, Item.mk idx hh e s cs, D, h => by
    rw [filterSpec_mk] at h
    simp only [Bool.false_eq_true, and_false, if_false, Item.get, Item.children_mk,
      getElem?_filterSpecL] at h
    cases hc : cs[i]? with
    | none => simp [hc] at h
    | some c =>
      simp only [hc, Option.map_some'] at h
      exact filterSpec_const_get m r c D h

/-- Below items that are not of kind `FILE` the filter function itself is in force. -/
theorem filterSpec_get_noFile :
    ∀ (r : Path) (f : filterFunc) (X F : Item), X.get r = some F →
      (∀ q ∈ r.inits, q ≠ r →
        (X.get q).map (fun A => A.index.type) ≠ some FileIndexType.FILE) →
      (filterSpec f X).get r = some (filterSpec f F)
  | [], f, X, F, h, _ => by
    simp only [Item.get, Option.some.injEq] at h
    rw [h]; rfl
  | i :: r, f, Item.mk idx hh e s cs, F, h, hanc => by
    have h0 := hanc [] (by simp) (by simp)
    simp only [Item.get, Option.map_some', Item.index_mk, ne_eq, Option.some.injEq] at h0
    rw [filterSpec_mk]
    simp only [h0, false_and, if_false, Item.get, Item.children_mk, getElem?_filterSpecL]
    simp only [Item.get, Item.children_mk] at h
    cases hc : cs[i]? with
    | none => simp [hc] at h
    | some c =>
      simp only [hc, Option.map_some'] at h ⊢
      apply filterSpec_get_noFile r f c F h
      intro q hq hne
      have := hanc (i :: q) (by
        rw [List.mem_inits] at hq ⊢
        exact (List.cons_prefix_cons).mpr ⟨rfl, hq⟩) (by simpa using hne)
      simpa [Item.get, hc] using this

theorem getItem_filterSpecL_noFile (f : filterFunc) (w : TreeWidget) (p : Path) (F : Item)
    (h : getItem w p = some F)
    (hanc : ∀ q ∈ p.inits, q ≠ p →
      (getItem w q).map (fun A => A.index.type) ≠ some FileIndexType.FILE) :
    getItem (filterSpecL f w) p = some (filterSpec f F) := by
  cases p with
  | nil => simp [getItem] at h
  | cons i r =>
    simp only [getItem, getElem?_filterSpecL] at h ⊢
    cases hc : w[i]? with
    | none => simp [hc] at h
    | some c =>
      simp only [hc, Option.map_some'] at h ⊢
      apply filterSpec_get_noFile r f c F h
      intro q hq hne
      have := hanc (i :: q) (by
        rw [List.mem_inits] at hq ⊢
        exact (List.cons_prefix_cons).mpr ⟨rfl, hq⟩) (by simpa using hne)
      simpa [getItem, hc] using this

/-- C10. Blanket filtering: let `F` be a `FILE` item none of whose ancestors is a `FILE`
and for which the filter function returns `same_as_file = true`.  After `filterItemBy`
from the invisible root every item below `F` is visible exactly when the filter function
returned `is_filter = true` for `F`, whatever it would return for the item itself. -/
theorem filterItemBy_blanket (w : TreeWidget) (f : filterFunc) (p : Path) (F : Item)
    (hF : getItem w p = some F) (hfile : F.index.type = FileIndexType.FILE)
    (hblanket : (f F.index).2 = true)
    (hanc : ∀ q ∈ p.inits, q ≠ p →
      (getItem w q).map (fun A => A.index.type) ≠ some FileIndexType.FILE) :
    ∃ w', filterItemBy w [] f = some w' ∧
      ∀ (r : Path) (D : Item), r ≠ [] → getItem w' (p ++ r) = some D →
        (D.hidden = false ↔ (f F.index).1 = true) := by
  refine ⟨filterSpecL f w, filterItemBy_root w f, ?_⟩
  intro r D hr hD
  have hp : p ≠ [] := by
    rintro rfl
    simp [getItem] at hF
  rw [getItem_append p r hp, getItem_filterSpecL_noFile f w p F hF hanc] at hD
  simp only [Option.some_bind] at hD
  cases F with
  | mk idx hh e s cs =>
  simp only [Item.index_mk] at hfile hblanket ⊢
  rw [filterSpec_mk] at hD
  simp only [hfile, hblanket, and_self, if_true] at hD
  cases r with
  | nil => exact absurd rfl hr
  | cons i r =>
    simp only [Item.get, Item.children_mk, getElem?_filterSpecL] at hD
    cases hc : cs[i]? with
    | none => simp [hc] at hD
    | some c =>
      simp only [hc, Option.map_some'] at hD
      have := filterSpec_const_get (f idx).1 r c D hD
      rw [this]
      cases (f idx).1 <;> simp

/-! ## Selection: counting, erasing flags, the first selected item -/

theorem countSelectedL_append : ∀ (a b : List Item),
    countSelectedL (a ++ b) = countSelectedL a + countSelectedL b
  | [], b => by simp [countSelectedL]
  | c :: a, b => by simp [countSelectedL, countSelectedL_append a b, Nat.add_assoc]

theorem countSelectedL_modify (g : Item → Item) (k : Nat) :
    ∀ (cs : List Item) (j : Nat),
      (∀ c, cs[j]? = some c → (g c).countSelected ≤ c.countSelected + k) →
      countSelectedL (cs.modify g j) ≤ countSelectedL cs + k
  | [], j, _ => by simp [countSelectedL]
  | c :: cs, 0, h => by
    have := h c (by simp)
    rw [List.modify_zero_cons]
    simp only [countSelectedL]
    omega
  | c :: cs, j + 1, h => by
    have := countSelectedL_modify g k cs j (fun c hc => h c (by simpa using hc))
    rw [List.modify_succ_cons]
    simp only [countSelectedL]
    omega

theorem item_countSelected_modifyAt (f : Item → Item) (k : Nat) :
    ∀ (p : Path) (it : Item),
      (∀ X, it.get p = some X → (f X).countSelected ≤ X.countSelected + k) →
      (Item.modifyAt f p it).countSelected ≤ it.countSelected + k
  | [], it, h => h it rfl
  | i :: p, Item.mk idx hh e s cs, h => by
    simp only [Item.modifyAt, Item.children_mk, Item.setChildren_mk, Item.countSelected]
    have := countSelectedL_modify (Item.modifyAt f p) k cs i (fun c hc =>
      item_countSelected_modifyAt f k p c (fun X hX => h X (by
        simp only [Item.get, Item.children_mk, hc]; exact hX)))
    omega

/-- Changing one item changes the number of selected items by at most what it changes in
that item. -/
theorem countSelectedL_modifyAt (f : Item → Item) (k : Nat) (p : Path) (w : TreeWidget)
    (h : ∀ X, getItem w p = some X → (f X).countSelected ≤ X.countSelected + k) :
    countSelectedL (modifyAt f p w) ≤ countSelectedL w + k := by
  cases p with
  | nil => simp [modifyAt]
  | cons i p =>
    simp only [modifyAt]
    exact countSelectedL_modify _ k w i (fun c hc =>
      item_countSelected_modifyAt f k p c (fun X hX => h X (by
        simp only [getItem, hc]; exact hX)))

theorem countSelected_setExpanded (b : Bool) (c : Item) :
    (c.setExpanded b).countSelected = c.countSelected := by
  cases c; simp [Item.countSelected]

theorem countSelected_setSelected_true (c : Item) :
    (c.setSelected true).countSelected ≤ c.countSelected + 1 := by
  cases c with
  | mk i h e s cs =>
    cases s
    · simp only [Item.setSelected_mk, Item.countSelected]
      simp only [if_true, Bool.false_eq_true, if_false]
      omega
    · simp [Item.countSelected]

mutual
/-- The loop over `selectedItems ()` leaves selected exactly the items that are selected and
hidden. -/
theorem countSelected_clearSelected :
    ∀ c : Item, (Item.clearSelected c).countSelected = c.countHiddenSelected
  | Item.mk i h e s cs => by
    simp only [Item.clearSelected, Item.countSelected, Item.countHiddenSelected,
      countSelectedL_clearSelectedL cs]
    cases h <;> cases s <;> simp
theorem countSelectedL_clearSelectedL :
    ∀ cs : List Item, countSelectedL (clearSelectedL cs) = countHiddenSelectedL cs
  | [] => by simp [clearSelectedL, countSelectedL, countHiddenSelectedL]
  | c :: cs => by
    simp [clearSelectedL, countSelectedL, countHiddenSelectedL, countSelected_clearSelected c,
      countSelectedL_clearSelectedL cs]
end

theorem countSelectedL_expandParents :
    ∀ (n : Nat) (o : Option Path) (w : TreeWidget),
      countSelectedL (expandParents n o w) ≤ countSelectedL w
  | _, none, w => by cases ‹Nat› <;> simp [expandParents]
  | 0, some _, w => by simp [expandParents]
  | n + 1, some p, w => by
    simp only [expandParents]
    have h1 := countSelectedL_expandParents n (parent p)
      (modifyAt (Item.setExpanded true) p w)
    have h2 := countSelectedL_modifyAt (Item.setExpanded true) 0 p w
      (fun X _ => by rw [countSelected_setExpanded]; omega)
    omega

/-- After `setItemSelected` the selected items are at most the item and the items that were
selected and hidden before. -/
theorem countSelectedL_setItemSelected (w w' : TreeWidget) (item : Option Path)
    (h : setItemSelected w item = some w') :
    countSelectedL w' ≤ countHiddenSelectedL w + 1 := by
  cases item with
  | none => simp [setItemSelected] at h
  | some p =>
    simp only [setItemSelected] at h
    have h1 := countSelectedL_clearSelectedL w
    have h2 := countSelectedL_expandParents p.length (parent p) (clearSelectedL w)
    have h3 := countSelectedL_modifyAt (Item.setSelected true) 1 p
      (expandParents p.length (parent p) (clearSelectedL w))
      (fun X _ => countSelected_setSelected_true X)
    have h4 := countSelectedL_modifyAt (Item.setExpanded false) 0 p
      (modifyAt (Item.setSelected true) p (expandParents p.length (parent p) (clearSelectedL w)))
      (fun X _ => by rw [countSelected_setExpanded]; omega)
    split at h
    · simp only [Option.some.injEq] at h
      subst h; omega
    · split at h <;>
      · simp only [Option.some.injEq] at h
        subst h; omega

theorem getElem?_eraseFlagsL : ∀ (cs : List Item) (i : Nat),
    (eraseFlagsL cs)[i]? = (cs[i]?).map Item.eraseFlags
  | [], i => by simp [eraseFlagsL]
  | c :: cs, 0 => by simp [eraseFlagsL]
  | c :: cs, i + 1 => by simpa [eraseFlagsL] using getElem?_eraseFlagsL cs i

theorem eraseFlagsL_modify (g : Item → Item) :
    ∀ (cs : List Item) (j : Nat),
      (∀ c, cs[j]? = some c → (g c).eraseFlags = c.eraseFlags) →
      eraseFlagsL (cs.modify g j) = eraseFlagsL cs
  | [], j, _ => by simp
  | c :: cs, 0, h => by
    rw [List.modify_zero_cons]
    simp only [eraseFlagsL, h c (by simp)]
  | c :: cs, j + 1, h => by
    rw [List.modify_succ_cons]
    simp only [eraseFlagsL]
    rw [eraseFlagsL_modify g cs j (fun c hc => h c (by simpa using hc))]

theorem item_eraseFlags_modifyAt (f : Item → Item)
    (hf : ∀ X, (f X).eraseFlags = X.eraseFlags) :
    ∀ (p : Path) (it : Item), (Item.modifyAt f p it).eraseFlags = it.eraseFlags
  | [], it => hf it
  | i :: p, Item.mk idx hh e s cs => by
    simp only [Item.modifyAt, Item.children_mk, Item.setChildren_mk, Item.eraseFlags]
    rw [eraseFlagsL_modify _ cs i (fun c _ => item_eraseFlags_modifyAt f hf p c)]

/-- Changing flags of one item leaves the tree of index entries as it is. -/
theorem eraseFlagsL_modifyAt (f : Item → Item) (hf : ∀ X, (f X).eraseFlags = X.eraseFlags)
    (p : Path) (w : TreeWidget) : eraseFlagsL (modifyAt f p w) = eraseFlagsL w := by
  cases p with
  | nil => rfl
  | cons i p =>
    simp only [modifyAt]
    exact eraseFlagsL_modify _ w i (fun c _ => item_eraseFlags_modifyAt f hf p c)

theorem eraseFlags_setExpanded (b : Bool) (c : Item) :
    (c.setExpanded b).eraseFlags = c.eraseFlags := by
  cases c; rfl

theorem eraseFlags_setSelected (b : Bool) (c : Item) :
    (c.setSelected b).eraseFlags = c.eraseFlags := by
  cases c; rfl

theorem eraseFlags_setHidden (b : Bool) (c : Item) :
    (c.setHidden b).eraseFlags = c.eraseFlags := by
  cases c; rfl

mutual
theorem eraseFlags_clearSelected : ∀ c : Item, (Item.clearSelected c).eraseFlags = c.eraseFlags
  | Item.mk i h e s cs => by
    simp [Item.clearSelected, Item.eraseFlags, eraseFlagsL_clearSelectedL cs]
theorem eraseFlagsL_clearSelectedL :
    ∀ cs : List Item, eraseFlagsL (clearSelectedL cs) = eraseFlagsL cs
  | [] => by simp [clearSelectedL]
  | c :: cs => by
    simp [clearSelectedL, eraseFlagsL, eraseFlags_clearSelected c,
      eraseFlagsL_clearSelectedL cs]
end

theorem eraseFlagsL_expandParents :
    ∀ (n : Nat) (o : Option Path) (w : TreeWidget),
      eraseFlagsL (expandParents n o w) = eraseFlagsL w
  | _, none, w => by cases ‹Nat› <;> simp [expandParents]
  | 0, some _, w => by simp [expandParents]
  | n + 1, some p, w => by
    simp only [expandParents]
    rw [eraseFlagsL_expandParents n (parent p), eraseFlagsL_modifyAt _
      (eraseFlags_setExpanded true)]

theorem item_get_eraseFlags :
    ∀ (p : Path) (it : Item), (it.eraseFlags).get p = (it.get p).map Item.eraseFlags
  | [], it => rfl
  | i :: p, Item.mk idx hh e s cs => by
    simp only [Item.eraseFlags, Item.get, Item.children_mk, getElem?_eraseFlagsL]
    cases cs[i]? with
    | none => rfl
    | some c => exact item_get_eraseFlags p c

theorem getItem_eraseFlagsL (w : TreeWidget) (p : Path) :
    getItem (eraseFlagsL w) p = (getItem w p).map Item.eraseFlags := by
  cases p with
  | nil => rfl
  | cons i p =>
    simp only [getItem, getElem?_eraseFlagsL]
    cases w[i]? with
    | none => rfl
    | some c => exact item_get_eraseFlags p c

/-- Trees with the same index entries have the same valid pointers. -/
theorem getItem_isSome_of_eraseFlagsL (w w' : TreeWidget) (h : eraseFlagsL w' = eraseFlagsL w)
    (p : Path) : (getItem w' p).isSome = (getItem w p).isSome := by
  have h1 := getItem_eraseFlagsL w p
  have h2 := getItem_eraseFlagsL w' p
  rw [h] at h2
  rw [h1] at h2
  cases hw : getItem w p <;> cases hw' : getItem w' p <;> simp [hw, hw'] at h2 ⊢

theorem childrenOf_length_of_eraseFlagsL (w w' : TreeWidget)
    (h : eraseFlagsL w' = eraseFlagsL w) (p : Path) :
    childCount w' p = childCount w p := by
  have hlen : ∀ cs : List Item, (eraseFlagsL cs).length = cs.length := by
    intro cs
    induction cs with
    | nil => rfl
    | cons c cs ih => simp [eraseFlagsL, ih]
  cases p with
  | nil =>
    simp only [childCount, childrenOf]
    rw [← hlen w', h, hlen]
  | cons i p =>
    have h1 := getItem_eraseFlagsL w (i :: p)
    have h2 := getItem_eraseFlagsL w' (i :: p)
    rw [h, h1] at h2
    simp only [childCount, childrenOf]
    cases hw : getItem w (i :: p) <;> cases hw' : getItem w' (i :: p) <;>
      simp only [hw, hw', Option.map_some', Option.map_none', Option.some.injEq] at h2 ⊢
    · exact absurd h2 (by simp)
    · exact absurd h2 (by simp)
    · rename_i X X'
      cases X; cases X'
      simp only [Item.eraseFlags, Item.mk.injEq] at h2
      simp only [Item.children_mk]
      rw [← hlen, ← h2.2.2.2.2, hlen]

theorem firstSelectedL_modify_congr (g : Item → Item) :
    ∀ (cs : List Item) (j i : Nat),
      (∀ c, cs[j]? = some c → Item.firstSelected (g c) = Item.firstSelected c) →
      firstSelectedL (cs.modify g j) i = firstSelectedL cs i
  | [], j, i, _ => by simp
  | d :: cs, 0, i, h => by
    rw [List.modify_zero_cons]
    simp only [firstSelectedL, h d (by simp)]
  | d :: cs, j + 1, i, h => by
    rw [List.modify_succ_cons]
    simp only [firstSelectedL]
    rw [firstSelectedL_modify_congr g cs j (i + 1) (fun c hc => h c (by simpa using hc))]

theorem firstSelected_congr (c d : Item) (hs : d.selected = c.selected)
    (hc : d.children = c.children) : Item.firstSelected d = Item.firstSelected c := by
  cases c; cases d
  simp only [Item.selected_mk, Item.children_mk] at hs hc
  subst hs; subst hc
  simp [Item.firstSelected]

theorem item_firstSelected_modifyAt (f : Item → Item)
    (hf : ∀ X, (f X).selected = X.selected ∧ (f X).children = X.children) :
    ∀ (p : Path) (c : Item),
      Item.firstSelected (Item.modifyAt f p c) = Item.firstSelected c
  | [], c => firstSelected_congr c (f c) (hf c).1 (hf c).2
  | j :: p, Item.mk i h e s cs => by
    simp only [Item.modifyAt, Item.children_mk, Item.setChildren_mk, Item.firstSelected]
    rw [firstSelectedL_modify_congr _ cs j 0 (fun c _ => item_firstSelected_modifyAt f hf p c)]

/-- Changing a flag other than the selected one does not move the selection. -/
theorem selectedTreeItem_modifyAt (f : Item → Item)
    (hf : ∀ X, (f X).selected = X.selected ∧ (f X).children = X.children)
    (p : Path) (w : TreeWidget) : selectedTreeItem (modifyAt f p w) = selectedTreeItem w := by
  cases p with
  | nil => rfl
  | cons j p =>
    simp only [selectedTreeItem, modifyAt]
    exact firstSelectedL_modify_congr _ w j 0 (fun c _ => item_firstSelected_modifyAt f hf p c)

theorem setExpanded_keeps (b : Bool) (X : Item) :
    (X.setExpanded b).selected = X.selected ∧ (X.setExpanded b).children = X.children := by
  cases X; exact ⟨rfl, rfl⟩

mutual
theorem firstSelected_valid :
    ∀ (c : Item) (r : Path), Item.firstSelected c = some r →
      ∃ X, c.get r = some X ∧ X.selected = true
  | Item.mk i h e s cs, r, hr => by
    simp only [Item.firstSelected] at hr
    by_cases hs : s = true
    · simp only [hs, if_true, Option.some.injEq] at hr
      subst hr
      exact ⟨_, rfl, hs⟩
    · simp only [hs, if_false] at hr
      obtain ⟨j, r', d, hp, hj, hd⟩ := firstSelectedL_valid cs 0 r hr
      obtain ⟨X, hX, hsel⟩ := firstSelected_valid d r' hd
      refine ⟨X, ?_, hsel⟩
      subst hp
      simp only [Nat.zero_add, Item.get, Item.children_mk, hj]
      exact hX
theorem firstSelectedL_valid :
    ∀ (cs : List Item) (i : Nat) (p : Path), firstSelectedL cs i = some p →
      ∃ j r c, p = (i + j) :: r ∧ cs[j]? = some c ∧ Item.firstSelected c = some r
  | [], _, _, h => by simp [firstSelectedL] at h
  | d :: cs, i, p, h => by
    simp only [firstSelectedL] at h
    cases hd : Item.firstSelected d with
    | some r =>
      simp only [hd, Option.some.injEq] at h
      exact ⟨0, r, d, by simpa using h.symm, by simp, hd⟩
    | none =>
      simp only [hd] at h
      obtain ⟨j, r, c, hp, hj, hc⟩ := firstSelectedL_valid cs (i + 1) p h
      exact ⟨j + 1, r, c, by rw [hp]; congr 1; omega, by simpa using hj, hc⟩
end

/-- The pointer `selectedTreeItem` returns designates an item, and that item is selected. -/
theorem selectedTreeItem_valid (w : TreeWidget) (p : Path) (h : selectedTreeItem w = some p) :
    ∃ X, getItem w p = some X ∧ X.selected = true := by
  obtain ⟨j, r, c, hp, hj, hc⟩ := firstSelectedL_valid w 0 p h
  obtain ⟨X, hX, hsel⟩ := firstSelected_valid c r hc
  refine ⟨X, ?_, hsel⟩
  subst hp
  simp only [Nat.zero_add, getItem, hj]
  exact hX


/-! ## What `setItemSelected` does to the flags -/

theorem setItemSelected_isSome (w : TreeWidget) (p : Path) :
    ∃ w', setItemSelected w (some p) = some w' := by
  simp only [setItemSelected]
  split
  · exact ⟨_, rfl⟩
  · split <;> exact ⟨_, rfl⟩

theorem eraseFlagsL_setItemSelected (w w' : TreeWidget) (item : Option Path)
    (h : setItemSelected w item = some w') : eraseFlagsL w' = eraseFlagsL w := by
  cases item with
  | none => simp [setItemSelected] at h
  | some p =>
    have he3 : eraseFlagsL (modifyAt (Item.setSelected true) p
        (expandParents p.length (parent p) (clearSelectedL w))) = eraseFlagsL w := by
      rw [eraseFlagsL_modifyAt _ (eraseFlags_setSelected true), eraseFlagsL_expandParents,
        eraseFlagsL_clearSelectedL]
    simp only [setItemSelected] at h
    split at h
    · simp only [Option.some.injEq] at h
      subst h
      exact he3
    · split at h
      · simp only [Option.some.injEq] at h
        subst h
        rw [eraseFlagsL_modifyAt _ (eraseFlags_setExpanded false), he3]
      · simp only [Option.some.injEq] at h
        subst h
        exact he3

/-- A change at `p` by a function that keeps the children is not seen at `q` through a
projection that does not read the children, when `q` differs from `p` or the projection
does not read what the function changes. -/
theorem item_get_modifyAt_proj {α : Type} (f : Item → Item)
    (hf : ∀ X, (f X).children = X.children) (g : Item → α)
    (hg : ∀ (X : Item) (cs : List Item), g (X.setChildren cs) = g X) :
    ∀ (p q : Path) (it : Item), (q = p → ∀ X, g (f X) = g X) →
      ((Item.modifyAt f p it).get q).map g = (it.get q).map g
  | [], [], it, h => by
    simp only [Item.modifyAt, Item.get, Option.map_some', h rfl it]
  | [], j :: q, it, _ => by
    simp only [Item.modifyAt, Item.get, hf]
  | i :: p, [], it, _ => by
    simp only [Item.modifyAt, Item.get, Option.map_some', hg]
  | i :: p, j :: q, it, h => by
    cases it with
    | mk idx hh e s cs =>
      simp only [Item.modifyAt, Item.get, Item.children_mk, Item.setChildren_mk,
        List.getElem?_modify]
      cases hc : cs[j]? with
      | none => simp
      | some c =>
        simp only [Option.map_eq_map, Option.map_some']
        by_cases hij : i = j
        · subst hij
          simp only [if_true]
          exact item_get_modifyAt_proj f hf g hg p q c (fun hqp => h (by rw [hqp]))
        · simp only [hij, if_false]

theorem getItem_modifyAt_proj {α : Type} (f : Item → Item)
    (hf : ∀ X, (f X).children = X.children) (g : Item → α)
    (hg : ∀ (X : Item) (cs : List Item), g (X.setChildren cs) = g X)
    (p q : Path) (w : TreeWidget) (h : q = p → ∀ X, g (f X) = g X) :
    (getItem (modifyAt f p w) q).map g = (getItem w q).map g := by
  cases p with
  | nil => rfl
  | cons i p =>
    cases q with
    | nil => rfl
    | cons j q =>
      simp only [modifyAt, getItem, List.getElem?_modify]
      cases hc : w[j]? with
      | none => simp
      | some c =>
        simp only [Option.map_eq_map, Option.map_some']
        by_cases hij : i = j
        · subst hij
          simp only [if_true]
          exact item_get_modifyAt_proj f hf g hg p q c (fun hqp => h (by rw [hqp]))
        · simp only [hij, if_false]

theorem children_setExpanded (b : Bool) (X : Item) : (X.setExpanded b).children = X.children := by
  cases X; rfl

theorem children_setSelected (b : Bool) (X : Item) : (X.setSelected b).children = X.children := by
  cases X; rfl

theorem selected_setChildren (X : Item) (cs : List Item) :
    (X.setChildren cs).selected = X.selected := by
  cases X; rfl

theorem expanded_setChildren (X : Item) (cs : List Item) :
    (X.setChildren cs).expanded = X.expanded := by
  cases X; rfl

theorem item_get_clearSelected :
    ∀ (q : Path) (it : Item), (Item.clearSelected it).get q = (it.get q).map Item.clearSelected
  | [], it => rfl
  | j :: q, Item.mk idx hh e s cs => by
    have hl : ∀ (l : List Item) (n : Nat),
        (clearSelectedL l)[n]? = (l[n]?).map Item.clearSelected := by
      intro l
      induction l with
      | nil => intro n; simp [clearSelectedL]
      | cons a l ih =>
        intro n
        cases n with
        | zero => simp [clearSelectedL]
        | succ n => simpa [clearSelectedL] using ih n
    simp only [Item.clearSelected, Item.get, Item.children_mk, hl]
    cases hc : cs[j]? with
    | none => rfl
    | some c => exact item_get_clearSelected q c

theorem getItem_clearSelectedL (w : TreeWidget) (q : Path) :
    getItem (clearSelectedL w) q = (getItem w q).map Item.clearSelected := by
  cases q with
  | nil => rfl
  | cons j q =>
    have hl : ∀ (l : List Item) (n : Nat),
        (clearSelectedL l)[n]? = (l[n]?).map Item.clearSelected := by
      intro l
      induction l with
      | nil => intro n; simp [clearSelectedL]
      | cons a l ih =>
        intro n
        cases n with
        | zero => simp [clearSelectedL]
        | succ n => simpa [clearSelectedL] using ih n
    simp only [getItem, hl]
    cases hc : w[j]? with
    | none => rfl
    | some c => exact item_get_clearSelected q c

/-- The loop of `expandParents` does not touch the selected flags. -/
theorem getItem_expandParents_selected :
    ∀ (n : Nat) (o : Option Path) (w : TreeWidget) (q : Path),
      (getItem (expandParents n o w) q).map Item.selected = (getItem w q).map Item.selected
  | _, none, w, q => by cases ‹Nat› <;> simp [expandParents]
  | 0, some _, w, q => by simp [expandParents]
  | n + 1, some p, w, q => by
    simp only [expandParents]
    rw [getItem_expandParents_selected n (parent p)]
    exact getItem_modifyAt_proj _ (children_setExpanded true) Item.selected
      selected_setChildren p q w (fun _ X => by cases X; rfl)

/-- The loop of `expandParents`, started at `r`, leaves the expanded flag as it is at
every item that is not `r` or above it. -/
theorem getItem_expandParents_other :
    ∀ (n : Nat) (r : Path) (w : TreeWidget) (q : Path), ¬ q <+: r →
      (getItem (expandParents n (some r) w) q).map Item.expanded
        = (getItem w q).map Item.expanded
  | 0, r, w, q, _ => by simp [expandParents]
  | n + 1, r, w, q, hq => by
    simp only [expandParents]
    have hne : q ≠ r := fun h => hq (h ▸ List.prefix_refl _)
    have hstep := getItem_modifyAt_proj (Item.setExpanded true) (children_setExpanded true)
      Item.expanded expanded_setChildren r q w (fun h => absurd h hne)
    unfold parent
    by_cases hl : r.length ≤ 1
    · simp only [hl, if_true]
      cases n <;> simpa [expandParents] using hstep
    · simp only [hl, if_false]
      rw [getItem_expandParents_other n r.dropLast _ q
        (fun h => hq (h.trans (List.dropLast_prefix r)))]
      exact hstep

theorem prefix_dropLast_of_ne {q r : Path} (h : q <+: r) (hne : q ≠ r) : q <+: r.dropLast := by
  obtain ⟨t, rfl⟩ := h
  have ht : t ≠ [] := by
    rintro rfl
    exact hne (by simp)
  rw [List.dropLast_append_of_ne_nil _ ht]
  exact List.prefix_append _ _

/-- After the loop of `expandParents`, started at `r` with enough fuel, `r` and every item
above it are expanded. -/
theorem getItem_expandParents_above :
    ∀ (n : Nat) (r : Path) (w : TreeWidget) (q : Path), r.length ≤ n → q ≠ [] → q <+: r →
      (getItem (expandParents n (some r) w) q).map Item.expanded
        = (getItem w q).map (fun _ => true)
  | 0, r, w, q, hn, hq, hqr => by
    have hr : r = [] := List.length_eq_zero.mp (Nat.le_zero.mp hn)
    subst hr
    exact absurd (List.prefix_nil.mp hqr) hq
  | n + 1, r, w, q, hn, hq, hqr => by
    simp only [expandParents]
    by_cases hqe : q = r
    · subst hqe
      have hself : (getItem (modifyAt (Item.setExpanded true) q w) q).map Item.expanded
          = (getItem w q).map (fun _ => true) := by
        rw [getItem_modifyAt]
        cases getItem w q with
        | none => rfl
        | some X => cases X; rfl
      unfold parent
      by_cases hl : q.length ≤ 1
      · simp only [hl, if_true]
        cases n <;> simpa [expandParents] using hself
      · simp only [hl, if_false]
        rw [getItem_expandParents_other n q.dropLast _ q]
        · exact hself
        · intro h
          have h1 := h.length_le
          simp only [List.length_dropLast] at h1
          omega
    · have hpre := prefix_dropLast_of_ne hqr hqe
      have hlen : 2 ≤ r.length := by
        have h1 := hpre.length_le
        simp only [List.length_dropLast] at h1
        have h2 : 0 < q.length := List.length_pos.mpr hq
        omega
      have hl : ¬ r.length ≤ 1 := by omega
      simp only [parent, hl, if_false]
      rw [getItem_expandParents_above n r.dropLast _ q
        (by simp only [List.length_dropLast]; omega) hq hpre]
      exact getItem_modifyAt_proj (Item.setExpanded true) (children_setExpanded true)
        (fun _ => true) (fun _ _ => rfl) r q w (fun _ _ => rfl)

theorem hidden_setChildren (X : Item) (cs : List Item) :
    (X.setChildren cs).hidden = X.hidden := by
  cases X; rfl

/-- The loop of `expandParents` does not touch the hidden flags. -/
theorem getItem_expandParents_hidden :
    ∀ (n : Nat) (o : Option Path) (w : TreeWidget) (q : Path),
      (getItem (expandParents n o w) q).map Item.hidden = (getItem w q).map Item.hidden
  | _, none, w, q => by cases ‹Nat› <;> simp [expandParents]
  | 0, some _, w, q => by simp [expandParents]
  | n + 1, some p, w, q => by
    simp only [expandParents]
    rw [getItem_expandParents_hidden n (parent p)]
    exact getItem_modifyAt_proj _ (children_setExpanded true) Item.hidden
      hidden_setChildren p q w (fun _ X => by cases X; rfl)

/-- The tree `setItemSelected` returns is the tree after the selection is set, with the item
collapsed when it was expanded. -/
theorem setItemSelected_cases (w : TreeWidget) (x : Path) :
    setItemSelected w (some x)
        = some (modifyAt (Item.setSelected true) x
            (expandParents x.length (parent x) (clearSelectedL w))) ∨
      setItemSelected w (some x)
        = some (modifyAt (Item.setExpanded false) x (modifyAt (Item.setSelected true) x
            (expandParents x.length (parent x) (clearSelectedL w)))) := by
  simp only [setItemSelected]
  split
  · exact Or.inl rfl
  · split
    · exact Or.inr rfl
    · exact Or.inl rfl

/-- The selected flags after the selection is set at `x`: set at `x`; elsewhere an item is
selected exactly when it was selected and hidden. -/
theorem getItem_selected_after (w : TreeWidget) (x q : Path) :
    (getItem (modifyAt (Item.setSelected true) x
        (expandParents x.length (parent x) (clearSelectedL w))) q).map Item.selected
      = (getItem w q).map (fun A => decide (q = x) || (A.hidden && A.selected)) := by
  by_cases hqx : q = x
  · subst hqx
    rw [getItem_modifyAt, Option.map_map]
    have h1 := getItem_expandParents_selected q.length (parent q) (clearSelectedL w) q
    rw [getItem_clearSelectedL] at h1
    cases h2 : getItem (expandParents q.length (parent q) (clearSelectedL w)) q with
    | none =>
      rw [h2] at h1
      cases h3 : getItem w q with
      | none => rfl
      | some X => simp [h3] at h1
    | some Y =>
      rw [h2] at h1
      cases h3 : getItem w q with
      | none => simp [h3] at h1
      | some X =>
        cases Y
        simp
  · rw [getItem_modifyAt_proj (Item.setSelected true) (children_setSelected true) Item.selected
      selected_setChildren x q _ (fun h => absurd h hqx),
      getItem_expandParents_selected, getItem_clearSelectedL, Option.map_map]
    cases getItem w q with
    | none => rfl
    | some X =>
      cases X
      simp [Item.clearSelected, hqx]

/-- The hidden flags after the selection is set at `x` are those of before. -/
theorem getItem_hidden_after (w : TreeWidget) (x q : Path) :
    (getItem (modifyAt (Item.setSelected true) x
        (expandParents x.length (parent x) (clearSelectedL w))) q).map Item.hidden
      = (getItem w q).map Item.hidden := by
  rw [getItem_modifyAt_proj (Item.setSelected true) (children_setSelected true) Item.hidden
    hidden_setChildren x q _ (fun _ X => by cases X; rfl),
    getItem_expandParents_hidden, getItem_clearSelectedL, Option.map_map]
  cases getItem w q with
  | none => rfl
  | some X =>
    cases X
    rfl

/-- The expanded flags above `x` after the selection is set at `x`. -/
theorem getItem_expanded_above (w : TreeWidget) (x q : Path) (hq : q ≠ []) (hqx : q <+: x)
    (hne : q ≠ x) :
    (getItem (modifyAt (Item.setSelected true) x
        (expandParents x.length (parent x) (clearSelectedL w))) q).map Item.expanded
      = (getItem w q).map (fun _ => true) := by
  have hpre := prefix_dropLast_of_ne hqx hne
  have hlen : ¬ x.length ≤ 1 := by
    have h1 := hpre.length_le
    simp only [List.length_dropLast] at h1
    have h2 : 0 < q.length := List.length_pos.mpr hq
    omega
  rw [getItem_modifyAt_proj (Item.setSelected true) (children_setSelected true) Item.expanded
    expanded_setChildren x q _ (fun h => absurd h hne)]
  simp only [parent, hlen, if_false]
  rw [getItem_expandParents_above x.length x.dropLast _ q
    (by simp only [List.length_dropLast]; omega) hq hpre, getItem_clearSelectedL,
    Option.map_map]
  rfl

theorem getItem_prefix_isSome (w : TreeWidget) (x q : Path) (X : Item)
    (hx : getItem w x = some X) (hq : q ≠ []) (hqx : q <+: x) : ∃ A, getItem w q = some A := by
  obtain ⟨t, rfl⟩ := hqx
  rw [getItem_append q t hq] at hx
  cases hA : getItem w q with
  | none => simp [hA] at hx
  | some A => exact ⟨A, rfl⟩

/-- The flags after `setItemSelected (x)`: `x` is selected, and another item is selected
exactly when it was selected and hidden; the hidden flags are those of before; the items
above `x` are expanded; the items are those of before. -/
theorem setItemSelected_flags (w : TreeWidget) (x : Path) :
    ∃ w', setItemSelected w (some x) = some w' ∧
      eraseFlagsL w' = eraseFlagsL w ∧
      (∀ q : Path, (getItem w' q).map Item.selected
        = (getItem w q).map (fun A => decide (q = x) || (A.hidden && A.selected))) ∧
      (∀ q : Path, (getItem w' q).map Item.hidden = (getItem w q).map Item.hidden) ∧
      (∀ q : Path, q ≠ [] → q <+: x → q ≠ x →
        (getItem w' q).map Item.expanded = (getItem w q).map (fun _ => true)) := by
  rcases setItemSelected_cases w x with h | h
  · exact ⟨_, h, eraseFlagsL_setItemSelected w _ _ h, getItem_selected_after w x,
      getItem_hidden_after w x,
      fun q hq hqx hne => getItem_expanded_above w x q hq hqx hne⟩
  · refine ⟨_, h, eraseFlagsL_setItemSelected w _ _ h, ?_, ?_, ?_⟩
    · intro q
      rw [getItem_modifyAt_proj (Item.setExpanded false) (children_setExpanded false)
        Item.selected selected_setChildren x q _ (fun _ X => by cases X; rfl)]
      exact getItem_selected_after w x q
    · intro q
      rw [getItem_modifyAt_proj (Item.setExpanded false) (children_setExpanded false)
        Item.hidden hidden_setChildren x q _ (fun _ X => by cases X; rfl)]
      exact getItem_hidden_after w x q
    · intro q hq hqx hne
      rw [getItem_modifyAt_proj (Item.setExpanded false) (children_setExpanded false)
        Item.expanded expanded_setChildren x q _ (fun h => absurd h hne)]
      exact getItem_expanded_above w x q hq hqx hne

/-! ## The order of the items in pre-order -/

theorem precedes_refl : ∀ p : Path, precedes p p = true
  | [] => rfl
  | i :: p => by simp [precedes, precedes_refl p]

theorem precedes_antisymm : ∀ p q : Path, precedes p q = true → precedes q p = true → p = q
  | [], [], _, _ => rfl
  | [], _ :: _, _, h => by simp [precedes] at h
  | _ :: _, [], h, _ => by simp [precedes] at h
  | i :: p, j :: q, h1, h2 => by
    simp only [precedes, Bool.or_eq_true, Bool.and_eq_true, decide_eq_true_eq] at h1 h2
    rcases h1 with h1 | ⟨rfl, h1⟩
    · rcases h2 with h2 | ⟨rfl, _⟩ <;> omega
    · rcases h2 with h2 | ⟨_, h2⟩
      · omega
      · rw [precedes_antisymm p q h1 h2]

theorem precedes_trans :
    ∀ p q r : Path, precedes p q = true → precedes q r = true → precedes p r = true
  | [], _, _, _, _ => rfl
  | _ :: _, [], _, h, _ => by simp [precedes] at h
  | _ :: _, _ :: _, [], _, h => by simp [precedes] at h
  | i :: p, j :: q, k :: r, h1, h2 => by
    simp only [precedes, Bool.or_eq_true, Bool.and_eq_true, decide_eq_true_eq] at h1 h2 ⊢
    rcases h1 with h1 | ⟨rfl, h1⟩
    · rcases h2 with h2 | ⟨rfl, _⟩
      · exact Or.inl (by omega)
      · exact Or.inl h1
    · rcases h2 with h2 | ⟨rfl, h2⟩
      · exact Or.inl h2
      · exact Or.inr ⟨rfl, precedes_trans p q r h1 h2⟩

/-- An item comes before the items below it. -/
theorem precedes_append : ∀ p r : Path, precedes p (p ++ r) = true
  | [], _ => rfl
  | i :: p, r => by simp [precedes, precedes_append p r]

/-- An item comes before its later siblings. -/
theorem precedes_snoc : ∀ (q : Path) (j i : Nat), j ≤ i → precedes (q ++ [j]) (q ++ [i]) = true
  | [], j, i, h => by
    simp only [List.nil_append, precedes, Bool.or_eq_true, Bool.and_eq_true,
      decide_eq_true_eq, and_true]
    omega
  | k :: q, j, i, h => by simp [precedes, precedes_snoc q j i h]

theorem precedes_take (p : Path) (m : Nat) : precedes (p.take m) p = true := by
  have := precedes_append (p.take m) (p.drop m)
  rwa [List.take_append_drop] at this

/-- The first top-level item comes before every item. -/
theorem precedes_first (k : Nat) (q : Path) : precedes [0] (k :: q) = true := by
  cases k <;> simp [precedes]

/-! ## Hidden selected items -/

theorem countHiddenSelected_of_mem :
    ∀ (l : List Item) (d : Item), d ∈ l → countHiddenSelectedL l = 0 →
      d.countHiddenSelected = 0 := by
  intro l
  induction l with
  | nil => intro d hm; simp at hm
  | cons a l ih =>
    intro d hm hz
    simp only [countHiddenSelectedL] at hz
    rcases List.mem_cons.mp hm with rfl | hm'
    · omega
    · exact ih d hm' (by omega)

theorem item_not_hiddenSelected :
    ∀ (q : Path) (c A : Item), c.countHiddenSelected = 0 → c.get q = some A →
      A.hidden = true → A.selected = true → False
  | [], Item.mk i h e s cs, A, hc, hA, hh, hs => by
    simp only [Item.get, Option.some.injEq] at hA
    subst hA
    simp only [Item.hidden_mk, Item.selected_mk] at hh hs
    simp [Item.countHiddenSelected, hh, hs] at hc
  | j :: q, Item.mk i h e s cs, A, hc, hA, hh, hs => by
    simp only [Item.countHiddenSelected] at hc
    simp only [Item.get, Item.children_mk] at hA
    cases hj : cs[j]? with
    | none => simp [hj] at hA
    | some d =>
      simp only [hj] at hA
      exact item_not_hiddenSelected q d A
        (countHiddenSelected_of_mem cs d (List.getElem?_mem hj) (by omega)) hA hh hs

/-- In a tree that counts no hidden selected item, a selected item is not hidden. -/
theorem not_hiddenSelected (w : TreeWidget) (hw : countHiddenSelectedL w = 0) (q : Path)
    (A : Item) (hA : getItem w q = some A) (hh : A.hidden = true) (hs : A.selected = true) :
    False := by
  cases q with
  | nil => simp [getItem] at hA
  | cons j q =>
    simp only [getItem] at hA
    cases hj : w[j]? with
    | none => simp [hj] at hA
    | some d =>
      simp only [hj] at hA
      exact item_not_hiddenSelected q d A
        (countHiddenSelected_of_mem w d (List.getElem?_mem hj) hw) hA hh hs

/-! ## The first selected item is the first in pre-order -/

mutual
theorem firstSelected_none :
    ∀ (c : Item) (q : Path) (A : Item), Item.firstSelected c = none → c.get q = some A →
      A.selected = false
  | Item.mk i h e s cs, q, A, hn, hA => by
    simp only [Item.firstSelected] at hn
    by_cases hs : s = true
    · simp [hs] at hn
    · simp only [hs, if_false] at hn
      cases q with
      | nil =>
        simp only [Item.get, Option.some.injEq] at hA
        subst hA
        simpa using hs
      | cons k q =>
        simp only [Item.get, Item.children_mk] at hA
        cases hk : cs[k]? with
        | none => simp [hk] at hA
        | some d =>
          simp only [hk] at hA
          exact firstSelectedL_none cs 0 k d q A hn hk hA
theorem firstSelectedL_none :
    ∀ (cs : List Item) (i k : Nat) (d : Item) (q : Path) (A : Item),
      firstSelectedL cs i = none → cs[k]? = some d → d.get q = some A → A.selected = false
  | [], _, _, _, _, _, _, hk, _ => by simp at hk
  | c :: cs, i, k, d, q, A, hn, hk, hA => by
    simp only [firstSelectedL] at hn
    cases hc : Item.firstSelected c with
    | some r => simp [hc] at hn
    | none =>
      simp only [hc] at hn
      cases k with
      | zero =>
        simp only [List.getElem?_cons_zero, Option.some.injEq] at hk
        subst hk
        exact firstSelected_none c q A hc hA
      | succ k =>
        exact firstSelectedL_none cs (i + 1) k d q A hn (by simpa using hk) hA
end

mutual
theorem firstSelected_min :
    ∀ (c : Item) (s q : Path) (A : Item), Item.firstSelected c = some s →
      c.get q = some A → A.selected = true → precedes s q = true
  | Item.mk i h e sel cs, s, q, A, hf, hA, hs => by
    simp only [Item.firstSelected] at hf
    by_cases hsel : sel = true
    · simp only [hsel, if_true, Option.some.injEq] at hf
      subst hf
      rfl
    · simp only [hsel, if_false] at hf
      cases q with
      | nil =>
        simp only [Item.get, Option.some.injEq] at hA
        subst hA
        exact absurd hs hsel
      | cons k q =>
        simp only [Item.get, Item.children_mk] at hA
        cases hk : cs[k]? with
        | none => simp [hk] at hA
        | some d =>
          simp only [hk] at hA
          simpa using firstSelectedL_min cs 0 s k d q A hf hk hA hs
theorem firstSelectedL_min :
    ∀ (cs : List Item) (i : Nat) (s : Path) (k : Nat) (d : Item) (q : Path) (A : Item),
      firstSelectedL cs i = some s → cs[k]? = some d → d.get q = some A →
      A.selected = true → precedes s ((i + k) :: q) = true
  | [], _, _, _, _, _, _, _, hk, _, _ => by simp at hk
  | c :: cs, i, s, k, d, q, A, hf, hk, hA, hs => by
    simp only [firstSelectedL] at hf
    cases hc : Item.firstSelected c with
    | some r =>
      simp only [hc, Option.some.injEq] at hf
      subst hf
      cases k with
      | zero =>
        simp only [List.getElem?_cons_zero, Option.some.injEq] at hk
        subst hk
        simp [precedes, firstSelected_min c r q A hc hA hs]
      | succ k => simp [precedes]
    | none =>
      simp only [hc] at hf
      cases k with
      | zero =>
        simp only [List.getElem?_cons_zero, Option.some.injEq] at hk
        subst hk
        have := firstSelected_none c q A hc hA
        rw [hs] at this
        exact absurd this (by simp)
      | succ k =>
        have := firstSelectedL_min cs (i + 1) s k d q A hf (by simpa using hk) hA hs
        have he : i + 1 + k = i + (k + 1) := by omega
        rwa [he] at this
end

/-- Every selected item is the item `selectedTreeItem` returns or comes after it in
pre-order. -/
theorem selectedTreeItem_min (w : TreeWidget) (s q : Path) (A : Item)
    (hsel : selectedTreeItem w = some s) (hA : getItem w q = some A)
    (hs : A.selected = true) : precedes s q = true := by
  cases q with
  | nil => simp [getItem] at hA
  | cons k q =>
    simp only [getItem] at hA
    cases hk : w[k]? with
    | none => simp [hk] at hA
    | some d =>
      simp only [hk] at hA
      simpa using firstSelectedL_min w 0 s k d q A hsel hk hA hs

/-- A selected item before which no item is selected is the item `selectedTreeItem`
returns. -/
theorem selectedTreeItem_of_first (w : TreeWidget) (p : Path) (X : Item)
    (hX : getItem w p = some X) (hXs : X.selected = true)
    (hmin : ∀ (q : Path) (A : Item), getItem w q = some A → A.selected = true →
      precedes p q = true) :
    selectedTreeItem w = some p := by
  cases hsel : selectedTreeItem w with
  | none =>
    cases p with
    | nil => simp [getItem] at hX
    | cons k q =>
      simp only [getItem] at hX
      cases hk : w[k]? with
      | none => simp [hk] at hX
      | some d =>
        simp only [hk] at hX
        have := firstSelectedL_none w 0 k d q X hsel hk hX
        rw [hXs] at this
        exact absurd this (by simp)
  | some s =>
    obtain ⟨A, hA, hAs⟩ := selectedTreeItem_valid w s hsel
    have h1 := hmin s A hA hAs
    have h2 := selectedTreeItem_min w s p X hsel hX hXs
    rw [precedes_antisymm s p h2 h1]

/-! ## The selected item after `setItemSelected` -/

/-- What `setItemSelected` does for a pointer to an item: the call returns, only flags have
changed, and the item is selected afterwards. -/
theorem setItemSelected_spec (w : TreeWidget) (p : Path) (X : Item)
    (hget : getItem w p = some X) :
    ∃ w', setItemSelected w (some p) = some w' ∧ eraseFlagsL w' = eraseFlagsL w ∧
      (getItem w' p).map Item.selected = some true := by
  obtain ⟨w', h, he, hsel, _⟩ := setItemSelected_flags w p
  refine ⟨w', h, he, ?_⟩
  rw [hsel p, hget]
  simp

/-- After `setItemSelected (p)` the item `p` is the one `selectedTreeItem` returns, provided
that every item that was selected and hidden comes after `p` in pre-order. -/
theorem setItemSelected_first (w : TreeWidget) (p : Path) (X : Item)
    (hget : getItem w p = some X)
    (hmin : ∀ (q : Path) (A : Item), getItem w q = some A → A.hidden = true →
      A.selected = true → precedes p q = true) :
    ∃ w', setItemSelected w (some p) = some w' ∧ selectedTreeItem w' = some p ∧
      eraseFlagsL w' = eraseFlagsL w ∧ (getItem w' p).map Item.selected = some true := by
  obtain ⟨w', h, he, hsel, _⟩ := setItemSelected_flags w p
  have hp : (getItem w' p).map Item.selected = some true := by
    rw [hsel p, hget]
    simp
  refine ⟨w', h, ?_, he, hp⟩
  cases hY : getItem w' p with
  | none => simp [hY] at hp
  | some Y =>
    refine selectedTreeItem_of_first w' p Y hY (by simpa [hY] using hp) ?_
    intro q B hB hBs
    by_cases hqp : q = p
    · subst hqp
      exact precedes_refl q
    · have h1 := hsel q
      rw [hB] at h1
      cases hA : getItem w q with
      | none => simp [hA] at h1
      | some A =>
        simp only [hA, Option.map_some', Option.some.injEq, hqp, decide_False,
          Bool.false_or] at h1
        rw [hBs] at h1
        have h2 : A.hidden = true ∧ A.selected = true := by
          simpa using h1.symm
        exact hmin q A hA h2.1 h2.2

/-- After `setItemSelected (p)` on a tree in which no selected item is hidden, `p` is the one
selected item. -/
theorem setItemSelected_visible (w : TreeWidget) (p : Path) (X : Item)
    (hget : getItem w p = some X) (hw : countHiddenSelectedL w = 0) :
    ∃ w', setItemSelected w (some p) = some w' ∧ selectedTreeItem w' = some p ∧
      eraseFlagsL w' = eraseFlagsL w ∧ (getItem w' p).map Item.selected = some true :=
  setItemSelected_first w p X hget
    (fun q A hA hh hs => (not_hiddenSelected w hw q A hA hh hs).elim)

/-! ## Scrolling -/

theorem parentOrRoot_snoc (q : Path) (i : Nat) : parentOrRoot (q ++ [i]) = q := by
  unfold parentOrRoot
  rw [parent_snoc]
  cases q <;> simp

theorem indexOfChild_snoc (q : Path) (i : Nat) : indexOfChild q (q ++ [i]) = (i : Int) := by
  simp [indexOfChild]

theorem getItem_child_of_lt (w : TreeWidget) (q : Path) (j : Nat) (h : j < childCount w q) :
    ∃ X, getItem w (q ++ [j]) = some X := by
  cases q with
  | nil =>
    simp only [childCount, childrenOf] at h
    refine ⟨w[j], ?_⟩
    simp [getItem, List.getElem?_eq_getElem h, Item.get]
  | cons a q =>
    simp only [childCount, childrenOf] at h
    rw [getItem_snoc j (a :: q) (by simp)]
    cases hq : getItem w (a :: q) with
    | none => simp [hq] at h
    | some A =>
      simp only [hq] at h
      exact ⟨A.children[j], by simp [List.getElem?_eq_getElem h]⟩

theorem lt_childCount_of_getItem (w : TreeWidget) (q : Path) (i : Nat) (X : Item)
    (h : getItem w (q ++ [i]) = some X) : i < childCount w q := by
  cases q with
  | nil =>
    simp only [List.nil_append, getItem] at h
    simp only [childCount, childrenOf]
    cases hi : w[i]? with
    | none => simp [hi] at h
    | some c =>
      exact (List.getElem?_eq_some_iff.mp hi).1
  | cons a q =>
    rw [getItem_snoc i (a :: q) (by simp)] at h
    simp only [childCount, childrenOf]
    cases hq : getItem w (a :: q) with
    | none => simp [hq] at h
    | some A =>
      simp only [hq, Option.some_bind] at h
      exact (List.getElem?_eq_some_iff.mp h).1

theorem wrapInt_of_range (x : Int) (h0 : -2147483648 ≤ x) (h1 : x < 2147483648) :
    wrapInt x = x := by
  unfold wrapInt
  omega

/-- From child `i` of `q`, `scrollUp` by `times ≥ 1` returns and selects child
`max (i - times) 0` of `q`: the items that stay selected because they are hidden come after
the selected item, and so after the earlier sibling. -/
theorem scrollUp_spec (w : TreeWidget) (q : Path) (i : Nat) (times : Int)
    (htimes : 1 ≤ times) (hsel : selectedTreeItem w = some (q ++ [i])) :
    ∃ w1, scrollUp w times = some w1 ∧
      selectedTreeItem w1 = some (q ++ [((i : Int) - times).toNat]) ∧
      eraseFlagsL w1 = eraseFlagsL w := by
  obtain ⟨X, hX, _⟩ := selectedTreeItem_valid w _ hsel
  have hik := lt_childCount_of_getItem w q i X hX
  obtain ⟨t, rfl⟩ := Int.eq_ofNat_of_zero_le (by omega : 0 ≤ times)
  have hfirst : ∀ j : Nat, j ≤ i → ∀ Y, getItem w (q ++ [j]) = some Y →
      ∃ w1, setItemSelected w (some (q ++ [j])) = some w1 ∧
        selectedTreeItem w1 = some (q ++ [j]) ∧ eraseFlagsL w1 = eraseFlagsL w := by
    intro j hj Y hY
    obtain ⟨w1, h1, h2, h3, _⟩ := setItemSelected_first w _ Y hY (fun r A hA _ hs =>
      precedes_trans _ _ _ (precedes_snoc q j i hj) (selectedTreeItem_min w _ r A hsel hA hs))
    exact ⟨w1, h1, h2, h3⟩
  simp only [scrollUp, hsel, parentOrRoot_snoc, indexOfChild_snoc]
  by_cases hi : (i : Int) > 0
  · simp only [hi, if_true]
    by_cases hit : (i : Int) > (t : Int)
    · have hj : ((i : Int) - (t : Int)).toNat < childCount w q := by omega
      simp only [hit, if_true, child]
      rw [if_pos (by omega)]
      obtain ⟨Y, hY⟩ := getItem_child_of_lt w q _ hj
      exact hfirst _ (by omega) Y hY
    · have hz : ((i : Int) - (t : Int)).toNat = 0 := by omega
      simp only [hit, if_false, child]
      rw [if_pos (by omega), hz]
      obtain ⟨Y, hY⟩ := getItem_child_of_lt w q 0 (by omega)
      simpa using hfirst 0 (by omega) Y hY
  · have hz : i = 0 := by omega
    subst hz
    have hz' : (((0 : Nat) : Int) - (t : Int)).toNat = 0 := by omega
    simp only [hi, if_false]
    exact ⟨w, rfl, by rw [hz']; exact hsel, rfl⟩

/-- From child `i` of `q`, `scrollDown` by `times ≥ 1` returns and sets the selection at child
`min (i + times) (k - 1)` of `q`, provided `i + times` is in the range of `int`; the result
is that of `setItemSelected` for that child. -/
theorem scrollDown_spec (w : TreeWidget) (q : Path) (i : Nat) (times : Int)
    (htimes : 1 ≤ times) (hrange : (i : Int) + times < 2147483648)
    (hsel : selectedTreeItem w = some (q ++ [i])) :
    (∃ Y, getItem w (q ++ [min (i + times.toNat) (childCount w q - 1)]) = some Y) ∧
      scrollDown w times
        = setItemSelected w (some (q ++ [min (i + times.toNat) (childCount w q - 1)])) := by
  obtain ⟨X, hX, _⟩ := selectedTreeItem_valid w _ hsel
  have hik := lt_childCount_of_getItem w q i X hX
  obtain ⟨t, rfl⟩ := Int.eq_ofNat_of_zero_le (by omega : 0 ≤ times)
  simp only [Int.toNat_ofNat]
  simp only [scrollDown, hsel, parentOrRoot_snoc, indexOfChild_snoc]
  rw [wrapInt_of_range _ (by omega) hrange]
  by_cases hlt : (i : Int) + (t : Int) < (childCount w q : Int)
  · have hm : min (i + t) (childCount w q - 1) = ((i : Int) + (t : Int)).toNat := by
      omega
    have h0 : (0 : Int) ≤ (i : Int) + (t : Int) := by omega
    simp only [hlt, if_true, child, h0, and_self]
    rw [hm]
    exact ⟨getItem_child_of_lt w q ((i : Int) + (t : Int)).toNat (by omega), rfl⟩
  · have hm : min (i + t) (childCount w q - 1)
        = ((childCount w q : Int) - 1).toNat := by omega
    have h0 : (0 : Int) ≤ (childCount w q : Int) - 1 ∧
        (childCount w q : Int) - 1 < (childCount w q : Int) := by omega
    simp only [hlt, if_false, child, h0, and_self, if_true]
    rw [hm]
    exact ⟨getItem_child_of_lt w q ((childCount w q : Int) - 1).toNat (by omega), rfl⟩

theorem scrollLeftLoop_eq :
    ∀ (k : Nat) (p : Path), p ≠ [] →
      scrollLeftLoop k p = p.take (p.length - min k (p.length - 1))
  | 0, p, _ => by simp [scrollLeftLoop]
  | k + 1, p, hp => by
    simp only [scrollLeftLoop, parent]
    by_cases hl : p.length ≤ 1
    · simp only [hl, if_true]
      have : p.length - min (k + 1) (p.length - 1) = p.length := by omega
      rw [this, List.take_length]
    · simp only [hl, if_false]
      have hne : p.dropLast ≠ [] := by
        intro h
        have := congrArg List.length h
        simp only [List.length_dropLast, List.length_nil] at this
        omega
      rw [scrollLeftLoop_eq k p.dropLast hne, List.length_dropLast, List.dropLast_eq_take,
        List.take_take]
      congr 1
      omega

theorem getItem_take_of_getItem (w : TreeWidget) (p : Path) (m : Nat) (X : Item)
    (hm : 1 ≤ m) (h : getItem w p = some X) : ∃ A, getItem w (p.take m) = some A := by
  have hp : p ≠ [] := by
    rintro rfl
    simp [getItem] at h
  have hne : p.take m ≠ [] := by
    cases p with
    | nil => exact absurd rfl hp
    | cons a p =>
      cases m with
      | zero => omega
      | succ m => simp
  rw [← List.take_append_drop m p, getItem_append _ _ hne] at h
  cases hA : getItem w (p.take m) with
  | none => simp [hA] at h
  | some A => exact ⟨A, rfl⟩

/-- C9. Let `p` be the selected item and `1 ≤ times`.  If `p` is a top-level item,
`scrollLeft` changes nothing.  Otherwise `p` has `d = p.length - 1` ancestors, and
`scrollLeft` returns and selects the ancestor `min times d` levels above `p`, changing only
flags of the tree. -/
theorem scrollLeft_climbs (w : TreeWidget) (p : Path) (times : Int) (htimes : 1 ≤ times)
    (hsel : selectedTreeItem w = some p) :
    (p.length ≤ 1 → scrollLeft w times = some w) ∧
      (2 ≤ p.length → ∃ w', scrollLeft w times = some w' ∧
        selectedTreeItem w' = some (p.take (p.length - min times.toNat (p.length - 1))) ∧
        eraseFlagsL w' = eraseFlagsL w) := by
  obtain ⟨X, hX, _⟩ := selectedTreeItem_valid w _ hsel
  constructor
  · intro hl
    simp [scrollLeft, hsel, parent, hl]
  · intro hl
    have hl' : ¬ p.length ≤ 1 := by omega
    have hne : p.dropLast ≠ [] := by
      intro h
      have := congrArg List.length h
      simp only [List.length_dropLast, List.length_nil] at this
      omega
    simp only [scrollLeft, hsel, parent, hl', if_false]
    rw [scrollLeftLoop_eq _ _ hne, List.length_dropLast, List.dropLast_eq_take, List.take_take]
    have hidx : min (p.length - 1 - min (times - 1).toNat (p.length - 1 - 1)) (p.length - 1)
        = p.length - min times.toNat (p.length - 1) := by omega
    rw [hidx]
    obtain ⟨A, hA⟩ := getItem_take_of_getItem w p
      (p.length - min times.toNat (p.length - 1)) X (by omega) hX
    obtain ⟨w', h1, h2, h3, _⟩ := setItemSelected_first w _ A hA (fun r B hB _ hs =>
      precedes_trans _ _ _ (precedes_take p _) (selectedTreeItem_min w p r B hsel hB hs))
    exact ⟨w', h1, h2, h3⟩

/-! ## The number of selected items under filtering and sorting -/

mutual
theorem countSelected_filterSpec (f : filterFunc) :
    ∀ c : Item, (filterSpec f c).countSelected = c.countSelected
  | Item.mk i h e s cs => by
    rw [filterSpec_mk]
    simp only [Item.countSelected]
    rw [countSelectedL_filterSpecL _ cs]
theorem countSelectedL_filterSpecL (f : filterFunc) :
    ∀ cs : List Item, countSelectedL (filterSpecL f cs) = countSelectedL cs
  | [] => by simp [filterSpecL]
  | c :: cs => by
    simp only [filterSpecL, countSelectedL]
    rw [countSelected_filterSpec f c, countSelectedL_filterSpecL f cs]
end

theorem countSelectedL_eraseIdx :
    ∀ (cur : List (Nat × Item)) (oi : Nat) (c : Nat × Item), cur[oi]? = some c →
      countSelectedL ((cur.eraseIdx oi).map Prod.snd) + c.2.countSelected
        = countSelectedL (cur.map Prod.snd)
  | [], oi, c, h => by simp at h
  | d :: cur, 0, c, h => by
    simp only [List.getElem?_cons_zero, Option.some.injEq] at h
    subst h
    simp only [List.eraseIdx_cons_zero, List.map_cons, countSelectedL]
    omega
  | d :: cur, oi + 1, c, h => by
    have := countSelectedL_eraseIdx cur oi c (by simpa using h)
    simp only [List.eraseIdx_cons_succ, List.map_cons, countSelectedL]
    omega

theorem countSelectedL_insertIdx (x : Nat × Item) :
    ∀ (i : Nat) (l : List (Nat × Item)),
      countSelectedL ((l.insertIdx i x).map Prod.snd)
        ≤ countSelectedL (l.map Prod.snd) + x.2.countSelected
  | 0, l => by
    simp only [List.insertIdx_zero, List.map_cons, countSelectedL]
    omega
  | i + 1, [] => by simp [List.insertIdx, countSelectedL]
  | i + 1, d :: l => by
    have := countSelectedL_insertIdx x i l
    rw [List.insertIdx_succ_cons]
    simp only [List.map_cons, countSelectedL]
    omega

theorem countSelectedL_reinsert :
    ∀ (ps : List itemState) (i : Nat) (cur : List (Nat × Item)),
      countSelectedL ((reinsert i ps cur).map Prod.snd) ≤ countSelectedL (cur.map Prod.snd)
  | [], i, cur => by simp [reinsert]
  | p :: ps, i, cur => by
    simp only [reinsert]
    split
    · split
      · exact countSelectedL_reinsert ps (i + 1) cur
      · rename_i c hc
        have h1 := countSelectedL_reinsert ps (i + 1)
          ((cur.eraseIdx (indexOfTag cur p.1.1)).insertIdx i (c.1, c.2.setExpanded p.2))
        have h2 := countSelectedL_insertIdx (c.1, c.2.setExpanded p.2) i
          (cur.eraseIdx (indexOfTag cur p.1.1))
        have h3 := countSelectedL_eraseIdx cur _ c hc
        simp only [countSelected_setExpanded] at h2
        omega
    · exact countSelectedL_reinsert ps (i + 1) cur

theorem countSelectedL_setChildrenAt (w : TreeWidget) (root : Path) (cs : List Item)
    (h : countSelectedL cs ≤ countSelectedL (childrenOf w root)) :
    countSelectedL (setChildrenAt root cs w) ≤ countSelectedL w := by
  cases root with
  | nil => exact h
  | cons a q =>
    simp only [setChildrenAt]
    have := countSelectedL_modifyAt (Item.setChildren cs) 0 (a :: q) w (fun X hX => by
      simp only [childrenOf, hX] at h
      cases X
      simp only [Item.setChildren_mk, Item.countSelected, Item.children_mk] at h ⊢
      omega)
    omega

/-- One run of `sortItems` does not raise the number of selected items. -/
theorem countSelectedL_sortLoop (srt : SortRoutine) (col : Column) (asc : Bool) :
    ∀ (fuel : Nat) (needSort : List Path) (w w' : TreeWidget),
      sortLoop srt col asc fuel needSort w = some w' → countSelectedL w' ≤ countSelectedL w
  | 0, [], w, w', h => by
    simp only [sortLoop, Option.some.injEq] at h
    subst h; exact Nat.le_refl _
  | 0, _ :: _, w, w', h => by simp [sortLoop] at h
  | fuel + 1, [], w, w', h => by
    simp only [sortLoop, Option.some.injEq] at h
    subst h; exact Nat.le_refl _
  | fuel + 1, root :: needSort, w, w', h => by
    simp only [sortLoop] at h
    have h1 := countSelectedL_sortLoop srt col asc fuel _ _ w' h
    have h2 := countSelectedL_reinsert
      (srt (sortComp col asc) (itemList (childrenOf w root).enum)) 0 (childrenOf w root).enum
    rw [List.enum_map_snd] at h2
    have h3 := countSelectedL_setChildrenAt w root _ h2
    omega

/-- What an operation returns: the tree as it was, the result of `setItemSelected` for some
item, the filtered tree, or the result of the sort loop. -/
theorem applyOp_cases (srt : SortRoutine) (op : Op) (w w' : TreeWidget)
    (h : applyOp srt op w = some w') :
    w' = w ∨ (∃ item, setItemSelected w item = some w') ∨
      (∃ f, op = Op.filterItemBy f ∧ w' = filterSpecL f w) ∨
      (∃ col asc fuel, sortLoop srt col asc fuel [[]] w = some w') := by
  cases op with
  | setItemSelected item =>
    simp only [applyOp] at h
    exact Or.inr (Or.inl ⟨_, h⟩)
  | scrollUp times =>
    simp only [applyOp, scrollUp] at h
    split at h
    · simp only [Option.some.injEq] at h; exact Or.inl h.symm
    · split at h
      · exact Or.inr (Or.inl ⟨_, h⟩)
      · simp only [Option.some.injEq] at h; exact Or.inl h.symm
  | scrollDown times =>
    simp only [applyOp, scrollDown] at h
    split at h
    · simp only [Option.some.injEq] at h; exact Or.inl h.symm
    · exact Or.inr (Or.inl ⟨_, h⟩)
  | scrollLeft times =>
    simp only [applyOp, scrollLeft] at h
    split at h
    · simp only [Option.some.injEq] at h; exact Or.inl h.symm
    · split at h
      · simp only [Option.some.injEq] at h; exact Or.inl h.symm
      · exact Or.inr (Or.inl ⟨_, h⟩)
  | scrollRight times =>
    simp only [applyOp, scrollRight] at h
    split at h
    · simp only [Option.some.injEq] at h; exact Or.inl h.symm
    · split at h
      · simp only [Option.some.injEq] at h; exact Or.inl h.symm
      · exact Or.inr (Or.inl ⟨_, h⟩)
  | setCurrentIndex path pn anchor =>
    simp only [applyOp, setCurrentIndex] at h
    split at h
    · rename_i fitr _
      cases hs : setItemSelected w (some fitr) with
      | none => simp [hs] at h
      | some w1 =>
        simp only [hs, Option.map_some', Option.some.injEq] at h
        subst h
        exact Or.inr (Or.inl ⟨_, hs⟩)
    · simp only [Option.map_some', Option.some.injEq] at h; exact Or.inl h.symm
  | selectFirstItem filename pageNumber =>
    simp only [applyOp, selectFirstItem] at h
    split at h
    · simp at h
    · rename_i w1 hs
      simp only [Option.some.injEq] at h
      subst h
      simp only [setCurrentIndex] at hs
      split at hs
      · rename_i fitr _
        cases hs' : setItemSelected w (some fitr) with
        | none => simp [hs'] at hs
        | some w2 =>
          simp only [hs', Option.map_some', Option.some.injEq, Prod.mk.injEq] at hs
          rw [← hs.1]
          exact Or.inr (Or.inl ⟨_, hs'⟩)
      · simp at hs
    · split at h
      · exact Or.inr (Or.inl ⟨_, h⟩)
      · simp only [Option.some.injEq] at h; exact Or.inl h.symm
  | filterItemBy filter_func =>
    simp only [applyOp, filterItemBy_root, Option.some.injEq] at h
    exact Or.inr (Or.inr (Or.inl ⟨_, rfl, h.symm⟩))
  | sortItems col asc =>
    simp only [applyOp, sortItems] at h
    exact Or.inr (Or.inr (Or.inr ⟨_, _, _, h⟩))

/-- No operation raises the number of selected items above one when it starts from a tree
with at most one selected item in which no selected item is hidden. -/
theorem countSelectedL_apply (srt : SortRoutine) (op : Op) (w w' : TreeWidget)
    (hw : countSelectedL w ≤ 1) (hh : countHiddenSelectedL w = 0)
    (h : applyOp srt op w = some w') : countSelectedL w' ≤ 1 := by
  rcases applyOp_cases srt op w w' h with rfl | ⟨item, hs⟩ | ⟨f, _, rfl⟩ | ⟨col, asc, fuel, hs⟩
  · exact hw
  · have := countSelectedL_setItemSelected w w' item hs
    omega
  · rw [countSelectedL_filterSpecL]
    exact hw
  · have := countSelectedL_sortLoop srt col asc _ _ w w' hs
    omega

/-- A run of operations keeps the number of selected items at most one, as long as no
selected item is hidden in the tree that an operation of the run starts from. -/
theorem runOps_count (srt : SortRoutine) :
    ∀ (ops : List Op) (w w' : TreeWidget), countSelectedL w ≤ 1 →
      (∀ k, k < ops.length → ∀ w1 ∈ runOps srt (ops.take k) w,
        countHiddenSelectedL w1 = 0) →
      runOps srt ops w = some w' → countSelectedL w' ≤ 1 := by
  intro ops
  induction ops with
  | nil =>
    intro w w' hw _ h
    simp only [runOps, Option.some.injEq] at h
    subst h
    exact hw
  | cons op ops ih =>
    intro w w' hw hvis h
    simp only [runOps] at h
    cases hop : applyOp srt op w with
    | none => simp [hop] at h
    | some w1 =>
      simp only [hop] at h
      have h0 : countHiddenSelectedL w = 0 :=
        hvis 0 (by simp) w (by simp [runOps])
      refine ih w1 w' (countSelectedL_apply srt op w w1 hw h0 hop) ?_ h
      intro k hk w2 hw2
      exact hvis (k + 1) (by simpa using hk) w2 (by simpa [runOps, hop] using hw2)

/-! ## Sorting: the reinsertion loop -/

theorem findIdx_append_mid {α : Type} (P : α → Bool) (x : α) (r2 : List α) (hx : P x = true) :
    ∀ (done r1 : List α), (∀ y ∈ done, P y = false) → (∀ y ∈ r1, P y = false) →
      (done ++ (r1 ++ x :: r2)).findIdx P = done.length + r1.length
  | [], [], _, _ => by simp [List.findIdx_cons, hx]
  | [], b :: r1, hd, hr => by
    have hb := hr b (by simp)
    have := findIdx_append_mid P x r2 hx [] r1 hd (fun y hy => hr y (by simp [hy]))
    simp only [List.nil_append, List.length_nil, Nat.zero_add] at this
    simp only [List.nil_append, List.cons_append, List.findIdx_cons, hb, List.length_nil,
      List.length_cons, Nat.zero_add, this]
    simp
  | a :: done, r1, hd, hr => by
    have ha := hd a (by simp)
    have := findIdx_append_mid P x r2 hx done r1 (fun y hy => hd y (by simp [hy])) hr
    simp only [List.cons_append, List.findIdx_cons, ha, List.length_cons, this]
    simp
    omega

theorem eraseIdx_append_mid {α : Type} (x : α) (r2 : List α) :
    ∀ (done r1 : List α),
      (done ++ (r1 ++ x :: r2)).eraseIdx (done.length + r1.length) = done ++ (r1 ++ r2)
  | [], [] => by simp
  | [], b :: r1 => by
    have := eraseIdx_append_mid x r2 [] r1
    simp only [List.nil_append, List.length_nil, Nat.zero_add] at this
    simp [this]
  | a :: done, r1 => by
    have := eraseIdx_append_mid x r2 done r1
    simp only [List.cons_append, List.length_cons]
    rw [show done.length + 1 + r1.length = (done.length + r1.length) + 1 by omega,
      List.eraseIdx_cons_succ, this]

theorem insertIdx_append_left {α : Type} (y : α) (rest : List α) :
    ∀ (done : List α), (done ++ rest).insertIdx done.length y = done ++ y :: rest
  | [] => by simp
  | a :: done => by
    simp only [List.cons_append, List.length_cons, List.insertIdx_succ_cons,
      insertIdx_append_left y rest done]

theorem getElem?_append_mid {α : Type} (x : α) (r2 : List α) (done r1 : List α) :
    (done ++ (r1 ++ x :: r2))[done.length + r1.length]? = some x := by
  rw [List.getElem?_append_right (by omega)]
  rw [show done.length + r1.length - done.length = r1.length by omega]
  rw [List.getElem?_append_right (Nat.le_refl _)]
  simp

theorem setExpanded_self (c : Item) : c.setExpanded c.expanded = c := by
  cases c; rfl

/-- One round of the reinsertion loop: the child that comes next in `item_list` ends
right behind the children already placed. -/
theorem reinsert_step (p : itemState) (ps : List itemState) (done r1 r2 : List (Nat × Item))
    (hp : p.2 = p.1.2.expanded)
    (hd : ∀ y ∈ done, (y.1 == p.1.1) = false) (hr : ∀ y ∈ r1, (y.1 == p.1.1) = false) :
    reinsert done.length (p :: ps) (done ++ (r1 ++ p.1 :: r2))
      = reinsert (done.length + 1) ps ((done ++ [p.1]) ++ (r1 ++ r2)) := by
  have hoi : indexOfTag (done ++ (r1 ++ p.1 :: r2)) p.1.1 = done.length + r1.length := by
    unfold indexOfTag
    exact findIdx_append_mid (fun (c : Nat × Item) => c.1 == p.1.1) p.1 r2 (by simp) done r1
      hd hr
  rw [reinsert]
  simp only [hoi]
  cases r1 with
  | nil => simp
  | cons b r1 =>
    have hne : done.length + (b :: r1).length ≠ done.length := by simp
    simp only [hne, ne_eq, not_false_eq_true, if_true, getElem?_append_mid]
    rw [eraseIdx_append_mid, insertIdx_append_left, hp, setExpanded_self]
    simp

theorem filter_not_mem_cons (t : Nat) (ts : List Nat) (l : List (Nat × Item))
    (h : ∀ c ∈ l, c.1 ≠ t) :
    l.filter (fun c => decide (c.1 ∉ t :: ts)) = l.filter (fun c => decide (c.1 ∉ ts)) := by
  apply List.filter_congr
  intro c hc
  have := h c hc
  simp [this]

/-- The reinsertion loop puts the children listed in `item_list` first, in the order of
`item_list`, and leaves the other children behind them in the order they had. -/
theorem reinsert_eq :
    ∀ (ps : List itemState) (done rem : List (Nat × Item)),
      ((done ++ rem).map Prod.fst).Nodup →
      (∀ p ∈ ps, p.1 ∈ rem ∧ p.2 = p.1.2.expanded) →
      (ps.map (fun p => p.1.1)).Nodup →
      reinsert done.length ps (done ++ rem)
        = done ++ ps.map Prod.fst
          ++ rem.filter (fun c => decide (c.1 ∉ ps.map (fun p => p.1.1)))
  | [], done, rem, _, _, _ => by simp [reinsert]
  | p :: ps, done, rem, hnd, hps, hts => by
    obtain ⟨hmem, hexp⟩ := hps p (by simp)
    obtain ⟨r1, r2, rfl⟩ := List.append_of_mem hmem
    simp only [List.map_append, List.map_cons] at hnd
    have hnd' := hnd
    rw [List.nodup_append] at hnd
    obtain ⟨_, hnr, hdisj⟩ := hnd
    rw [List.nodup_append] at hnr
    obtain ⟨_, hnr2, hdisj2⟩ := hnr
    have hd : ∀ y ∈ done, (y.1 == p.1.1) = false := by
      intro y hy
      have : y.1 ≠ p.1.1 := by
        intro he
        exact hdisj (List.mem_map_of_mem Prod.fst hy) (by simp [he])
      simpa using this
    have hr1 : ∀ y ∈ r1, y.1 ≠ p.1.1 := by
      intro y hy he
      exact hdisj2 (List.mem_map_of_mem Prod.fst hy) (by simp [he])
    have hr2 : ∀ y ∈ r2, y.1 ≠ p.1.1 := by
      intro y hy he
      have := (List.nodup_cons.mp hnr2).1
      exact this (by rw [← he]; exact List.mem_map_of_mem Prod.fst hy)
    rw [reinsert_step p ps done r1 r2 hexp hd (fun y hy => by simpa using hr1 y hy)]
    have hlen : (done ++ [p.1]).length = done.length + 1 := by simp
    rw [← hlen]
    have hts' := List.nodup_cons.mp hts
    rw [reinsert_eq ps (done ++ [p.1]) (r1 ++ r2)
      (by
        have hperm : ((done ++ [p.1] ++ (r1 ++ r2)).map Prod.fst).Perm
            (done.map Prod.fst ++ (r1.map Prod.fst ++ p.1.1 :: r2.map Prod.fst)) := by
          simp only [List.map_append, List.map_cons, List.map_nil, List.append_assoc]
          apply List.Perm.append_left
          simp only [List.singleton_append]
          exact List.perm_middle.symm
        exact hperm.nodup_iff.mpr hnd')
      (by
        intro q hq
        obtain ⟨hqm, hqe⟩ := hps q (by simp [hq])
        refine ⟨?_, hqe⟩
        have hne : q.1 ≠ p.1 := by
          intro he
          have hq' := List.mem_map_of_mem (fun p : itemState => p.1.1) hq
          simp only [he] at hq'
          exact hts'.1 hq'
        simp only [List.mem_append, List.mem_cons] at hqm ⊢
        rcases hqm with h | h | h
        · exact Or.inl h
        · exact absurd h hne
        · exact Or.inr h)
      hts'.2]
    have hF : (r1 ++ p.1 :: r2).filter
          (fun c => decide (c.1 ∉ (p :: ps).map (fun p => p.1.1)))
        = (r1 ++ r2).filter (fun c => decide (c.1 ∉ ps.map (fun p => p.1.1))) := by
      rw [List.map_cons, List.filter_append, List.filter_append, List.filter_cons,
        filter_not_mem_cons p.1.1 _ r1 hr1, filter_not_mem_cons p.1.1 _ r2 hr2]
      simp
    rw [hF]
    simp

/-! ## Sorting: one pass over the children of an item -/

theorem mem_itemList (tagged : List (Nat × Item)) (p : itemState) :
    p ∈ itemList tagged ↔
      p.1 ∈ tagged ∧ p.1.2.index.type ≠ FileIndexType.PAGE ∧ p.2 = p.1.2.expanded := by
  simp only [itemList, List.mem_map, List.mem_filter, decide_eq_true_eq]
  constructor
  · rintro ⟨c, ⟨hc, hnp⟩, rfl⟩
    exact ⟨hc, hnp, rfl⟩
  · rintro ⟨hc, hnp, he⟩
    refine ⟨p.1, ⟨hc, hnp⟩, ?_⟩
    rw [← he]

theorem itemList_tags (tagged : List (Nat × Item)) :
    (itemList tagged).map (fun p => p.1.1)
      = (tagged.filter (fun c => decide (c.2.index.type ≠ FileIndexType.PAGE))).map Prod.fst := by
  simp [itemList, List.map_map, Function.comp_def]

theorem enum_tag_unique {cs : List Item} {a b : Nat × Item} (ha : a ∈ cs.enum)
    (hb : b ∈ cs.enum) (h : a.1 = b.1) : a = b := by
  rw [List.mem_enum_iff_getElem?] at ha hb
  rw [h, hb] at ha
  simp only [Option.some.injEq] at ha
  exact Prod.ext h ha.symm

/-- The children after the reinsertion loop, with the positions they had before. -/
theorem reinsert_sorted (srt : SortRoutine) (hs : IsStdSort srt) (col : Column) (asc : Bool)
    (cs : List Item) :
    reinsert 0 (srt (sortComp col asc) (itemList cs.enum)) cs.enum
      = (srt (sortComp col asc) (itemList cs.enum)).map Prod.fst
        ++ cs.enum.filter (fun c => decide (c.2.index.type = FileIndexType.PAGE)) := by
  have hperm := hs.perm (sortComp col asc) (itemList cs.enum)
  have hnd : (cs.enum.map Prod.fst).Nodup := by
    rw [List.enum_map_fst]; exact List.nodup_range _
  have h := reinsert_eq (srt (sortComp col asc) (itemList cs.enum)) [] cs.enum
    (by simpa using hnd)
    (by
      intro p hp
      have := (mem_itemList cs.enum p).mp (hperm.subset hp)
      exact ⟨this.1, this.2.2⟩)
    (by
      have hp2 := hperm.map (fun p : itemState => p.1.1)
      rw [hp2.nodup_iff, itemList_tags]
      exact hnd.sublist (List.Sublist.map _ (List.filter_sublist _)))
  simp only [List.length_nil, List.nil_append] at h
  rw [h]
  congr 1
  apply List.filter_congr
  intro c hc
  have hiff : c.1 ∈ (srt (sortComp col asc) (itemList cs.enum)).map (fun p => p.1.1)
      ↔ c.2.index.type ≠ FileIndexType.PAGE := by
    constructor
    · intro hm
      obtain ⟨p, hp, hpc⟩ := List.mem_map.mp hm
      have hp' := (mem_itemList cs.enum p).mp (hperm.subset hp)
      have := enum_tag_unique hp'.1 hc hpc
      rw [← this]
      exact hp'.2.1
    · intro hnp
      have : (c, c.2.expanded) ∈ itemList cs.enum :=
        (mem_itemList cs.enum (c, c.2.expanded)).mpr ⟨hc, hnp, rfl⟩
      exact List.mem_map.mpr ⟨_, hperm.symm.subset this, rfl⟩
  by_cases hpg : c.2.index.type = FileIndexType.PAGE
  · simp [hpg, hiff]
  · simp [hpg, hiff]

theorem enum_filter_snd (P : Item → Bool) (cs : List Item) :
    (cs.enum.filter (fun c => P c.2)).map Prod.snd = cs.filter P := by
  have : (fun c : Nat × Item => P c.2) = P ∘ Prod.snd := rfl
  rw [this, ← List.filter_map, List.enum_map_snd]

/-- The reinsertion loop produces `levelSpec`. -/
theorem reinsert_levelSpec (srt : SortRoutine) (hs : IsStdSort srt) (col : Column)
    (asc : Bool) (cs : List Item) :
    (reinsert 0 (srt (sortComp col asc) (itemList cs.enum)) cs.enum).map Prod.snd
      = levelSpec srt col asc cs := by
  rw [reinsert_sorted srt hs col asc cs, List.map_append, List.map_map,
    enum_filter_snd (fun c => decide (c.index.type = FileIndexType.PAGE)) cs]
  rfl

/-! ## Sorting: the loop computes `sortSpecL` -/

theorem childrenOf_setChildrenAt (w : TreeWidget) (root : Path) (ys : List Item)
    (hv : ValidRoot w root) : childrenOf (setChildrenAt root ys w) root = ys := by
  cases root with
  | nil => rfl
  | cons a q =>
    rcases hv with h | ⟨X, hX⟩
    · exact absurd h (by simp)
    · simp only [setChildrenAt, childrenOf, getItem_modifyAt, hX, Option.map_some']
      cases X; rfl

theorem getItem_setChildrenAt_snoc (w : TreeWidget) (root : Path) (ys : List Item)
    (hv : ValidRoot w root) (pos : Nat) :
    getItem (setChildrenAt root ys w) (root ++ [pos]) = ys[pos]? := by
  cases root with
  | nil =>
    simp only [setChildrenAt, List.nil_append, getItem]
    cases ys[pos]? <;> rfl
  | cons a q =>
    rcases hv with h | ⟨X, hX⟩
    · exact absurd h (by simp)
    · rw [getItem_snoc pos (a :: q) (by simp)]
      simp only [setChildrenAt, getItem_modifyAt, hX, Option.map_some', Option.some_bind]
      cases X; rfl

theorem setChildrenAt_snoc (w : TreeWidget) (root : Path) (ys zs : List Item) (pos : Nat) :
    setChildrenAt (root ++ [pos]) zs (setChildrenAt root ys w)
      = setChildrenAt root (ys.modify (Item.setChildren zs) pos) w := by
  cases root with
  | nil =>
    simp only [List.nil_append, setChildrenAt, modifyAt, Item.modifyAt]
  | cons a q =>
    have h1 : (a :: q) ++ [pos] = a :: (q ++ [pos]) := rfl
    simp only [setChildrenAt, h1]
    rw [← h1, modifyAt_snoc _ _ _ (by simp), modifyAt_comp]
    congr 1
    funext c
    cases c; rfl

theorem modify_congr_at {α : Type} (f g : α → α) :
    ∀ (l : List α) (i : Nat) (c : α), l[i]? = some c → f c = g c →
      l.modify f i = l.modify g i
  | [], i, c, h, _ => by simp at h
  | a :: l, 0, c, h, hfg => by
    simp only [List.getElem?_cons_zero, Option.some.injEq] at h
    subst h
    rw [List.modify_zero_cons, List.modify_zero_cons, hfg]
  | a :: l, i + 1, c, h, hfg => by
    rw [List.modify_succ_cons, List.modify_succ_cons,
      modify_congr_at f g l i c (by simpa using h) hfg]

theorem getElem?_applyAt (g : Item → Item) :
    ∀ (poss : List Nat) (ys : List Item) (i : Nat), poss.Nodup →
      (applyAt g poss ys)[i]? = if i ∈ poss then (ys[i]?).map g else ys[i]?
  | [], ys, i, _ => by simp [applyAt]
  | pos :: poss, ys, i, hnd => by
    have hnd' := List.nodup_cons.mp hnd
    rw [applyAt, getElem?_applyAt g poss _ i hnd'.2]
    by_cases hi : i = pos
    · subst hi
      simp [hnd'.1]
    · have hne : pos ≠ i := fun h => hi h.symm
      simp [hi, List.getElem?_modify_ne _ _ hne]

theorem length_applyAt (g : Item → Item) :
    ∀ (poss : List Nat) (ys : List Item), (applyAt g poss ys).length = ys.length
  | [], ys => rfl
  | pos :: poss, ys => by
    rw [applyAt, length_applyAt g poss, List.length_modify]

theorem costAt_modify (g : Item → Item) (poss : List Nat) (ys : List Item) (pos : Nat)
    (h : pos ∉ poss) : costAt poss (ys.modify g pos) = costAt poss ys := by
  unfold costAt
  congr 1
  apply List.map_congr_left
  intro i hi
  have hne : pos ≠ i := by
    rintro rfl
    exact h hi
  rw [List.getElem?_modify_ne _ _ hne]

/-- The entries pushed for the children at the positions `poss` are worked off one after
the other, each changing only the subtree of its child. -/
theorem sortLoop_positions (srt : SortRoutine) (col : Column) (asc : Bool) (k : Nat)
    (IH : ∀ (root : Path) (w : TreeWidget) (rest : List Path) (fuel : Nat),
      ValidRoot w root → Item.sizeL (childrenOf w root) ≤ k →
      Item.sizeL (childrenOf w root) + 1 ≤ fuel →
      ∃ fuel', fuel ≤ fuel' + (Item.sizeL (childrenOf w root) + 1) ∧
        sortLoop srt col asc fuel (root :: rest) w
          = sortLoop srt col asc fuel' rest
              (setChildrenAt root (sortSpecL srt col asc k (childrenOf w root)) w))
    (root : Path) (w : TreeWidget) (hv : ValidRoot w root) (rest : List Path) :
    ∀ (poss : List Nat) (ys : List Item) (fuel : Nat), poss.Nodup →
      (∀ pos ∈ poss, ∃ c, ys[pos]? = some c ∧ c.size ≤ k + 1) →
      costAt poss ys ≤ fuel →
      ∃ fuel', fuel ≤ fuel' + costAt poss ys ∧
        sortLoop srt col asc fuel (poss.map (fun pos => root ++ [pos]) ++ rest)
            (setChildrenAt root ys w)
          = sortLoop srt col asc fuel' rest
              (setChildrenAt root (applyAt (sortBelow srt col asc k) poss ys) w)
  | [], ys, fuel, _, _, _ => ⟨fuel, by simp [costAt], by simp [applyAt]⟩
  | pos :: poss, ys, fuel, hnd, hys, hfuel => by
    have hnd' := List.nodup_cons.mp hnd
    obtain ⟨c, hc, hsize⟩ := hys pos (by simp)
    have hcost : costAt (pos :: poss) ys = c.size + costAt poss ys := by
      simp [costAt, hc]
    rw [hcost] at hfuel
    have hcs : c.size = 1 + Item.sizeL c.children := by
      cases c; simp [Item.size]
    have hget := getItem_setChildrenAt_snoc w root ys hv pos
    rw [hc] at hget
    have hv' : ValidRoot (setChildrenAt root ys w) (root ++ [pos]) := Or.inr ⟨c, hget⟩
    have hch : childrenOf (setChildrenAt root ys w) (root ++ [pos]) = c.children := by
      cases hr : root ++ [pos] with
      | nil => simp at hr
      | cons a q =>
        rw [hr] at hget
        simp only [childrenOf, hget]
    obtain ⟨fuel1, hf1, hstep⟩ := IH (root ++ [pos]) (setChildrenAt root ys w)
      (poss.map (fun pos => root ++ [pos]) ++ rest) fuel hv'
      (by rw [hch]; omega) (by rw [hch]; omega)
    rw [hch] at hf1 hstep
    simp only [List.map_cons, List.cons_append]
    rw [hstep, setChildrenAt_snoc,
      modify_congr_at (Item.setChildren (sortSpecL srt col asc k c.children))
        (sortBelow srt col asc k) ys pos c hc rfl]
    obtain ⟨fuel2, hf2, hrest⟩ := sortLoop_positions srt col asc k IH root w hv rest poss
      (ys.modify (sortBelow srt col asc k) pos) fuel1 hnd'.2
      (by
        intro pos' hp'
        have hne : pos ≠ pos' := by
          rintro rfl
          exact hnd'.1 hp'
        rw [List.getElem?_modify_ne _ _ hne]
        exact hys pos' (by simp [hp']))
      (by rw [costAt_modify _ _ _ _ hnd'.1]; omega)
    rw [costAt_modify _ _ _ _ hnd'.1] at hf2
    exact ⟨fuel2, by rw [hcost]; omega, by rw [hrest]; rfl⟩

theorem sizeL_eq_sum : ∀ (ys : List Item), Item.sizeL ys = (ys.map Item.size).sum
  | [] => rfl
  | c :: ys => by simp [Item.sizeL, sizeL_eq_sum ys]

theorem sizeL_perm {l1 l2 : List Item} (h : l1.Perm l2) : Item.sizeL l1 = Item.sizeL l2 := by
  rw [sizeL_eq_sum, sizeL_eq_sum]
  exact (h.map Item.size).sum_eq

theorem size_le_sizeL {c : Item} {ys : List Item} (h : c ∈ ys) : c.size ≤ Item.sizeL ys := by
  induction ys with
  | nil => simp at h
  | cons a ys ih =>
    simp only [Item.sizeL]
    rcases List.mem_cons.mp h with rfl | h'
    · omega
    · have := ih h'
      omega

theorem costAt_le_sizeL (poss : List Nat) (ys : List Item) (hnd : poss.Nodup)
    (hlt : ∀ pos ∈ poss, pos < ys.length) : costAt poss ys ≤ Item.sizeL ys := by
  have hsub : poss ⊆ List.range ys.length := by
    intro pos hp
    exact List.mem_range.mpr (hlt pos hp)
  obtain ⟨l', hperm, hsl⟩ := List.subperm_of_subset hnd hsub
  have hmap : (List.range ys.length).map (fun pos => match ys[pos]? with
      | some c => c.size
      | none => 0) = ys.map Item.size := by
    apply List.ext_getElem?
    intro i
    simp only [List.getElem?_map, List.getElem?_range']
    by_cases hi : i < ys.length
    · simp [List.getElem?_range hi, List.getElem?_eq_getElem hi]
    · have h1 : (List.range ys.length)[i]? = none := by
        apply List.getElem?_eq_none
        simp only [List.length_range]
        omega
      have h2 : ys[i]? = none := List.getElem?_eq_none (by omega)
      simp [h1, h2]
  unfold costAt
  rw [sizeL_eq_sum, ← hmap, ← (hperm.map _).sum_eq]
  exact List.Sublist.sum_le_sum (hsl.map _) (fun a _ => Nat.zero_le a)

theorem indexOfTag_of_getElem? :
    ∀ (F : List (Nat × Item)) (i : Nat) (x : Nat × Item), (F.map Prod.fst).Nodup →
      F[i]? = some x → indexOfTag F x.1 = i
  | [], i, x, _, h => by simp at h
  | a :: F, 0, x, _, h => by
    simp only [List.getElem?_cons_zero, Option.some.injEq] at h
    subst h
    simp [indexOfTag, List.findIdx_cons]
  | a :: F, i + 1, x, hnd, h => by
    simp only [List.map_cons, List.nodup_cons] at hnd
    have hx : F[i]? = some x := by simpa using h
    have hne : (a.1 == x.1) = false := by
      have : a.1 ≠ x.1 := by
        intro he
        exact hnd.1 (by rw [he]; exact List.mem_map_of_mem Prod.fst (List.getElem?_mem hx))
      simpa using this
    have ih := indexOfTag_of_getElem? F i x hnd.2 hx
    simp only [indexOfTag] at ih ⊢
    rw [List.findIdx_cons, hne, ih]
    simp

/-- The children after the reinsertion loop are the children before it, rearranged. -/
theorem reinsert_perm (srt : SortRoutine) (hs : IsStdSort srt) (col : Column) (asc : Bool)
    (cs : List Item) :
    (reinsert 0 (srt (sortComp col asc) (itemList cs.enum)) cs.enum).Perm cs.enum := by
  rw [reinsert_sorted srt hs col asc cs]
  have h1 : ((srt (sortComp col asc) (itemList cs.enum)).map Prod.fst).Perm
      (cs.enum.filter (fun c => decide (c.2.index.type ≠ FileIndexType.PAGE))) := by
    have := (hs.perm (sortComp col asc) (itemList cs.enum)).map Prod.fst
    simpa [itemList, List.map_map, Function.comp_def] using this
  have h2 : cs.enum.filter (fun c => decide (c.2.index.type = FileIndexType.PAGE))
      = cs.enum.filter
          (fun c => !(decide (c.2.index.type ≠ FileIndexType.PAGE))) := by
    apply List.filter_congr
    intro c _
    by_cases h : c.2.index.type = FileIndexType.PAGE <;> simp [h]
  rw [h2]
  exact (h1.append_right _).trans (List.filter_append_perm _ _)

theorem levelSpec_perm (srt : SortRoutine) (hs : IsStdSort srt) (col : Column) (asc : Bool)
    (cs : List Item) : (levelSpec srt col asc cs).Perm cs := by
  rw [← reinsert_levelSpec srt hs col asc cs]
  have := (reinsert_perm srt hs col asc cs).map Prod.snd
  rwa [List.enum_map_snd] at this

theorem sortLoop_nil (srt : SortRoutine) (col : Column) (asc : Bool) (fuel : Nat)
    (w : TreeWidget) : sortLoop srt col asc fuel [] w = some w := by
  cases fuel <;> rfl

theorem sortLoop_step (srt : SortRoutine) (col : Column) (asc : Bool) (fuel : Nat)
    (root : Path) (needSort : List Path) (w : TreeWidget) :
    sortLoop srt col asc (fuel + 1) (root :: needSort) w
      = sortLoop srt col asc fuel
          (((needSortPushes (itemList (childrenOf w root).enum)).map
              (fun p => root ++ [indexOfTag
                (reinsert 0 (srt (sortComp col asc) (itemList (childrenOf w root).enum))
                  (childrenOf w root).enum) p.1.1])).reverse ++ needSort)
          (setChildrenAt root
            ((reinsert 0 (srt (sortComp col asc) (itemList (childrenOf w root).enum))
              (childrenOf w root).enum).map Prod.snd) w) := rfl

/-- The positions pushed on `needSort` are, each once, the positions of the children that
pass the test `needsSort`. -/
theorem pushed_positions (srt : SortRoutine) (hs : IsStdSort srt) (col : Column) (asc : Bool)
    (cs : List Item) :
    (((needSortPushes (itemList cs.enum)).map
        (fun p => indexOfTag (reinsert 0 (srt (sortComp col asc) (itemList cs.enum)) cs.enum)
          p.1.1)).reverse).Nodup ∧
      (∀ i ∈ ((needSortPushes (itemList cs.enum)).map
            (fun p => indexOfTag
              (reinsert 0 (srt (sortComp col asc) (itemList cs.enum)) cs.enum) p.1.1)).reverse,
          i < (levelSpec srt col asc cs).length) ∧
      ∀ (i : Nat) (c : Item), (levelSpec srt col asc cs)[i]? = some c →
        (i ∈ ((needSortPushes (itemList cs.enum)).map
            (fun p => indexOfTag
              (reinsert 0 (srt (sortComp col asc) (itemList cs.enum)) cs.enum) p.1.1)).reverse
          ↔ needsSort c = true) := by
  have hFperm := reinsert_perm srt hs col asc cs
  have hL := reinsert_levelSpec srt hs col asc cs
  have hFeq := reinsert_sorted srt hs col asc cs
  generalize reinsert 0 (srt (sortComp col asc) (itemList cs.enum)) cs.enum = F at *
  have hperm := hs.perm (sortComp col asc) (itemList cs.enum)
  have hnd : (cs.enum.map Prod.fst).Nodup := by
    rw [List.enum_map_fst]; exact List.nodup_range _
  have hFnd : (F.map Prod.fst).Nodup := (hFperm.map Prod.fst).nodup_iff.mpr hnd
  -- an element of `item_list` sits in `F` at the position its tag is found at
  have hpos : ∀ p ∈ itemList cs.enum, F[indexOfTag F p.1.1]? = some p.1 := by
    intro p hp
    have hin : p.1 ∈ F := by
      rw [hFeq]
      exact List.mem_append_left _ (List.mem_map_of_mem Prod.fst (hperm.symm.subset hp))
    obtain ⟨j, hj⟩ := List.mem_iff_getElem?.mp hin
    rw [indexOfTag_of_getElem? F j p.1 hFnd hj]
    exact hj
  have hpush : ∀ p, p ∈ needSortPushes (itemList cs.enum) ↔
      p ∈ itemList cs.enum ∧ needsSort p.1.2 = true := by
    intro p
    simp [needSortPushes, needsSort, List.mem_filter]
  constructor
  · rw [List.nodup_reverse]
    apply List.Nodup.map_on
    · intro p hp q hq hpq
      have h1 := hpos p ((hpush p).mp hp).1
      have h2 := hpos q ((hpush q).mp hq).1
      rw [hpq, h2] at h1
      simp only [Option.some.injEq] at h1
      have hp2 := ((mem_itemList cs.enum p).mp ((hpush p).mp hp).1).2.2
      have hq2 := ((mem_itemList cs.enum q).mp ((hpush q).mp hq).1).2.2
      exact Prod.ext h1.symm (by rw [hp2, hq2, h1])
    · have hnd2 : (itemList cs.enum).Nodup := by
        have : ((itemList cs.enum).map (fun p => p.1.1)).Nodup := by
          rw [itemList_tags]
          exact hnd.sublist (List.Sublist.map _ (List.filter_sublist _))
        exact List.Nodup.of_map _ this
      exact hnd2.sublist (List.filter_sublist _)
  constructor
  · intro i hi
    simp only [List.mem_reverse, List.mem_map] at hi
    obtain ⟨p, hp, hpi⟩ := hi
    have h1 := hpos p ((hpush p).mp hp).1
    rw [hpi] at h1
    rw [← hL, List.length_map]
    exact (List.getElem?_eq_some_iff.mp h1).1
  · intro i c hc
    rw [← hL, List.getElem?_map] at hc
    cases hx : F[i]? with
    | none => simp [hx] at hc
    | some x =>
      simp only [hx, Option.map_some', Option.some.injEq] at hc
      simp only [List.mem_reverse, List.mem_map]
      constructor
      · rintro ⟨p, hp, hpi⟩
        have h1 := hpos p ((hpush p).mp hp).1
        rw [hpi, hx] at h1
        simp only [Option.some.injEq] at h1
        rw [← hc, h1]
        exact ((hpush p).mp hp).2
      · intro hneed
        have hxin : x ∈ cs.enum := hFperm.subset (List.getElem?_mem hx)
        have hnp : x.2.index.type ≠ FileIndexType.PAGE := by
          rw [← hc] at hneed
          simp only [needsSort, decide_eq_true_eq] at hneed
          rw [hneed.2]
          decide
        refine ⟨(x, x.2.expanded), (hpush _).mpr ⟨(mem_itemList cs.enum _).mpr
          ⟨hxin, hnp, rfl⟩, by rw [hc]; exact hneed⟩, ?_⟩
        exact indexOfTag_of_getElem? F i x hFnd hx

/-- Working off one entry of `needSort` sorts below the item it points to, to any depth
that covers the subtree. -/
theorem sortLoop_item (srt : SortRoutine) (hs : IsStdSort srt) (col : Column) (asc : Bool) :
    ∀ (k : Nat) (root : Path) (w : TreeWidget) (rest : List Path) (fuel : Nat),
      ValidRoot w root → Item.sizeL (childrenOf w root) ≤ k →
      Item.sizeL (childrenOf w root) + 1 ≤ fuel →
      ∃ fuel', fuel ≤ fuel' + (Item.sizeL (childrenOf w root) + 1) ∧
        sortLoop srt col asc fuel (root :: rest) w
          = sortLoop srt col asc fuel' rest
              (setChildrenAt root (sortSpecL srt col asc k (childrenOf w root)) w) := by
  intro k
  induction k with
  | zero =>
    intro root w rest fuel hv hk hfuel
    have hnil : childrenOf w root = [] := by
      cases hcs : childrenOf w root with
      | nil => rfl
      | cons c cs =>
        rw [hcs] at hk
        simp only [Item.sizeL] at hk
        have := c.size_pos
        omega
    cases fuel with
    | zero => omega
    | succ fuel =>
      refine ⟨fuel, by omega, ?_⟩
      rw [sortLoop_step, hnil]
      have hsrt : srt (sortComp col asc) (itemList ([] : List Item).enum) = [] := by
        have := hs.perm (sortComp col asc) (itemList ([] : List Item).enum)
        simpa [itemList] using this
      rw [hsrt]
      simp [itemList, needSortPushes, reinsert, sortSpecL]
  | succ k IH =>
    intro root w rest fuel hv hk hfuel
    cases fuel with
    | zero => omega
    | succ fuel =>
      obtain ⟨hposnd, hposlt, hposiff⟩ := pushed_positions srt hs col asc (childrenOf w root)
      have hLperm := levelSpec_perm srt hs col asc (childrenOf w root)
      have hLsize := sizeL_perm hLperm
      rw [sortLoop_step, reinsert_levelSpec srt hs col asc]
      have hstack : ((needSortPushes (itemList (childrenOf w root).enum)).map
            (fun p => root ++ [indexOfTag
              (reinsert 0 (srt (sortComp col asc) (itemList (childrenOf w root).enum))
                (childrenOf w root).enum) p.1.1])).reverse
          = (((needSortPushes (itemList (childrenOf w root).enum)).map
              (fun p => indexOfTag
                (reinsert 0 (srt (sortComp col asc) (itemList (childrenOf w root).enum))
                  (childrenOf w root).enum) p.1.1)).reverse).map (fun pos => root ++ [pos]) := by
        rw [← List.map_reverse, ← List.map_reverse, List.map_map]
        rfl
      rw [hstack]
      generalize ((needSortPushes (itemList (childrenOf w root).enum)).map
        (fun p => indexOfTag
          (reinsert 0 (srt (sortComp col asc) (itemList (childrenOf w root).enum))
            (childrenOf w root).enum) p.1.1)).reverse = poss at hposnd hposlt hposiff ⊢
      have hin : ∀ pos ∈ poss, ∃ c, (levelSpec srt col asc (childrenOf w root))[pos]? = some c
          ∧ needsSort c = true := by
        intro pos hp
        cases hc : (levelSpec srt col asc (childrenOf w root))[pos]? with
        | some c => exact ⟨c, rfl, (hposiff pos c hc).mp hp⟩
        | none =>
          have h1 := hposlt pos hp
          have h2 := List.getElem?_eq_none_iff.mp hc
          omega
      obtain ⟨fuel', hf', hrun⟩ := sortLoop_positions srt col asc k IH root w hv rest poss
        (levelSpec srt col asc (childrenOf w root)) fuel hposnd
        (by
          intro pos hp
          obtain ⟨c, hc, _⟩ := hin pos hp
          refine ⟨c, hc, ?_⟩
          have := size_le_sizeL (List.getElem?_mem hc)
          omega)
        (by
          have := costAt_le_sizeL poss _ hposnd (fun pos hp => by
            obtain ⟨c, hc, _⟩ := hin pos hp
            exact (List.getElem?_eq_some_iff.mp hc).1)
          omega)
      have hcost := costAt_le_sizeL poss (levelSpec srt col asc (childrenOf w root)) hposnd
        (fun pos hp => by
          obtain ⟨c, hc, _⟩ := hin pos hp
          exact (List.getElem?_eq_some_iff.mp hc).1)
      refine ⟨fuel', by omega, ?_⟩
      rw [hrun]
      congr 2
      apply List.ext_getElem?
      intro i
      rw [getElem?_applyAt _ _ _ _ hposnd]
      simp only [sortSpecL, List.getElem?_map]
      cases hc : (levelSpec srt col asc (childrenOf w root))[i]? with
      | none => simp
      | some c =>
        by_cases hn : needsSort c = true
        · simp [(hposiff i c hc).mpr hn, hn, sortBelow]
        · have : i ∉ poss := fun h => hn ((hposiff i c hc).mp h)
          simp [this, hn]

/-! ## Sorting twice -/

theorem sortComp_index (col : Column) (asc : Bool) (a a' b b' : itemState)
    (ha : a.1.2.index = a'.1.2.index) (hb : b.1.2.index = b'.1.2.index) :
    sortComp col asc a b = sortComp col asc a' b' := by
  simp only [sortComp, ha, hb]

/-- Of two entries with different keys one compares before the other. -/
theorem sortComp_of_not_sameKey (col : Column) (asc : Bool) (a b : itemState)
    (hk : sameKey col a.1.2.index b.1.2.index = false) (hba : sortComp col asc b a = false) :
    sortComp col asc a b = true := by
  cases col <;> cases asc <;>
    simp only [sameKey, sortComp, decide_eq_false_iff_not, decide_eq_true_eq, if_true,
      Bool.false_eq_true, if_false, gt_iff_lt, not_lt] at hk hba ⊢
  · exact lt_of_le_of_ne hba hk
  · exact lt_of_le_of_ne hba (fun h => hk h.symm)
  · exact lt_of_le_of_ne hba hk
  · exact lt_of_le_of_ne hba (fun h => hk h.symm)
  · exact lt_of_le_of_ne hba hk
  · exact lt_of_le_of_ne hba (fun h => hk h.symm)

theorem sortComp_asymm (col : Column) (asc : Bool) (a b : itemState)
    (h : sortComp col asc a b = true) : sortComp col asc b a = false := by
  cases col <;> cases asc <;>
    simp only [sortComp, decide_eq_false_iff_not, decide_eq_true_eq, if_true,
      Bool.false_eq_true, if_false, gt_iff_lt, not_lt] at h ⊢ <;>
    exact le_of_lt h

/-- A list in strict order has no other ordered rearrangement. -/
theorem eq_of_perm_of_strict {α : Type} (r : α → α → Prop) :
    ∀ (l1 l2 : List α), l1.Perm l2 → l1.Pairwise (fun a b => ¬ r b a) → l2.Pairwise r →
      l1 = l2
  | [], l2, hp, _, _ => hp.nil_eq
  | a :: l1, l2, hp, h1, h2 => by
    have ha : a ∈ l2 := hp.subset (List.mem_cons_self _ _)
    obtain ⟨u, v, rfl⟩ := List.append_of_mem ha
    have h1' := List.pairwise_cons.mp h1
    have hu : u = [] := by
      cases u with
      | nil => rfl
      | cons x u =>
        exfalso
        have hrxa : r x a := by
          have := List.pairwise_cons.mp h2
          exact this.1 a (by simp)
        have hx : x ∈ a :: l1 := hp.symm.subset (by simp)
        rcases List.mem_cons.mp hx with rfl | hx'
        · -- `x = a`: then `a` occurs twice in `l2`, hence once more in `l1`
          have hp' : l1.Perm (u ++ x :: v) := (List.perm_cons x).mp hp
          have hmem : x ∈ l1 := hp'.symm.subset (by simp)
          exact h1'.1 x hmem hrxa
        · exact h1'.1 x hx' hrxa
    subst hu
    have hp' : l1.Perm v := (List.perm_cons a).mp hp
    rw [List.nil_append] at h2 ⊢
    rw [eq_of_perm_of_strict r l1 v hp' h1'.2 (List.pairwise_cons.mp h2).2]

theorem noTiesL_spec (col : Column) :
    ∀ (cs : List Item), noTiesL col cs = true →
      (cs.filter (fun c => decide (c.index.type ≠ FileIndexType.PAGE))).Pairwise
          (fun a b => sameKey col a.index b.index = false) ∧
        ∀ c ∈ cs, noTiesL col c.children = true
  | [], _ => by simp
  | c :: cs, h => by
    simp only [noTiesL, Bool.and_eq_true, Bool.or_eq_true, decide_eq_true_eq,
      List.all_eq_true, Bool.not_eq_true'] at h
    obtain ⟨⟨hhead, hc⟩, hcs⟩ := h
    obtain ⟨ih1, ih2⟩ := noTiesL_spec col cs hcs
    constructor
    · rw [List.filter_cons]
      by_cases hp : c.index.type = FileIndexType.PAGE
      · simpa [hp] using ih1
      · simp only [ne_eq, hp, not_false_eq_true, decide_True, if_true, List.pairwise_cons]
        refine ⟨?_, ih1⟩
        intro d hd
        simp only [List.mem_filter, decide_eq_true_eq] at hd
        rcases hhead with h | h
        · exact absurd h hp
        · rcases h d hd.1 with h' | h'
          · exact absurd h' hd.2
          · exact h'
    · intro d hd
      rcases List.mem_cons.mp hd with rfl | hd'
      · cases d
        simpa [Item.noTies] using hc
      · exact ih2 d hd'

theorem sortComp_eq_compItems (col : Column) (asc : Bool) (p q : itemState) :
    sortComp col asc p q = compItems col asc p.1.2 q.1.2 :=
  sortComp_index col asc p _ q _ rfl rfl

theorem itemList_items (cs : List Item) :
    (itemList cs.enum).map (fun p => p.1.2)
      = cs.filter (fun c => decide (c.index.type ≠ FileIndexType.PAGE)) := by
  simp only [itemList, List.map_map]
  exact enum_filter_snd (fun c => decide (c.index.type ≠ FileIndexType.PAGE)) cs

/-- A list whose entries that are not pages come first, in strict order of the comparison,
is left as it is by a pass. -/
theorem levelSpec_fixed (srt : SortRoutine) (hs : IsStdSort srt) (col : Column) (asc : Bool)
    (A B : List Item) (hA : ∀ a ∈ A, a.index.type ≠ FileIndexType.PAGE)
    (hB : ∀ b ∈ B, b.index.type = FileIndexType.PAGE)
    (hsorted : A.Pairwise (fun a b => compItems col asc a b = true)) :
    levelSpec srt col asc (A ++ B) = A ++ B := by
  have hI : itemList (A ++ B).enum = A.enum.map (fun c => (c, c.2.expanded)) := by
    simp only [itemList, List.enum, List.enumFrom_append, List.filter_append, Nat.zero_add]
    have h1 : (List.enumFrom 0 A).filter
        (fun c => decide (c.2.index.type ≠ FileIndexType.PAGE)) = List.enumFrom 0 A := by
      apply List.filter_eq_self.mpr
      intro c hc
      have hm : c.2 ∈ A := by
        rw [(List.mem_enumFrom hc).2.2]
        exact List.getElem_mem _
      simpa using hA c.2 hm
    have h2 : (List.enumFrom A.length B).filter
        (fun c => decide (c.2.index.type ≠ FileIndexType.PAGE)) = [] := by
      apply List.filter_eq_nil_iff.mpr
      intro c hc
      have hm : c.2 ∈ B := by
        rw [(List.mem_enumFrom hc).2.2]
        exact List.getElem_mem _
      simpa using hB c.2 hm
    rw [h1, h2, List.append_nil]
  have hstrict : (itemList (A ++ B).enum).Pairwise
      (fun p q => ¬ (sortComp col asc p q = false)) := by
    rw [hI, List.pairwise_map]
    have : (A.enum.map Prod.snd).Pairwise (fun a b => compItems col asc a b = true) := by
      rw [List.enum_map_snd]; exact hsorted
    rw [List.pairwise_map] at this
    refine this.imp ?_
    intro x y hxy
    rw [sortComp_eq_compItems]
    simp [hxy]
  have hfix : srt (sortComp col asc) (itemList (A ++ B).enum) = itemList (A ++ B).enum :=
    (eq_of_perm_of_strict (fun a b => sortComp col asc b a = false) _ _
      (hs.perm _ _).symm hstrict (hs.sorted col asc _)).symm
  unfold levelSpec
  rw [hfix, hI, List.map_map, List.filter_append]
  have h3 : A.filter (fun c => decide (c.index.type = FileIndexType.PAGE)) = [] := by
    apply List.filter_eq_nil_iff.mpr
    intro c hc
    simpa using hA c hc
  have h4 : B.filter (fun c => decide (c.index.type = FileIndexType.PAGE)) = B := by
    apply List.filter_eq_self.mpr
    intro c hc
    simpa using hB c hc
  rw [h3, h4, List.nil_append]
  congr 1
  have : ((fun p : itemState => p.1.2) ∘ fun c : Nat × Item => (c, c.2.expanded))
      = Prod.snd := rfl
  rw [this, List.enum_map_snd]

theorem length_sortSpecL (srt : SortRoutine) (hs : IsStdSort srt) (col : Column) (asc : Bool) :
    ∀ (k : Nat) (cs : List Item), (sortSpecL srt col asc k cs).length = cs.length
  | 0, cs => rfl
  | k + 1, cs => by
    simp only [sortSpecL, List.length_map]
    exact (levelSpec_perm srt hs col asc cs).length_eq

theorem sizeL_map_congr (g : Item → Item) :
    ∀ (l : List Item), (∀ c ∈ l, (g c).size = c.size) → Item.sizeL (l.map g) = Item.sizeL l
  | [], _ => rfl
  | c :: l, h => by
    simp only [List.map_cons, Item.sizeL]
    rw [h c (by simp), sizeL_map_congr g l (fun d hd => h d (by simp [hd]))]

/-- Sorting does not change the number of items. -/
theorem sizeL_sortSpecL (srt : SortRoutine) (hs : IsStdSort srt) (col : Column) (asc : Bool) :
    ∀ (k : Nat) (cs : List Item), Item.sizeL (sortSpecL srt col asc k cs) = Item.sizeL cs
  | 0, cs => rfl
  | k + 1, cs => by
    simp only [sortSpecL]
    rw [sizeL_map_congr, sizeL_perm (levelSpec_perm srt hs col asc cs)]
    intro c _
    split
    · cases c
      simp only [Item.setChildren_mk, Item.size, Item.children_mk]
      rw [sizeL_sortSpecL srt hs col asc k]
    · rfl

/-- The children that are not pages, in the order the sort routine gives them, are in
strict order when no two of them have the same key. -/
theorem sorted_strict (srt : SortRoutine) (hs : IsStdSort srt) (col : Column) (asc : Bool)
    (cs : List Item)
    (hnt : (cs.filter (fun c => decide (c.index.type ≠ FileIndexType.PAGE))).Pairwise
      (fun a b => sameKey col a.index b.index = false)) :
    ((srt (sortComp col asc) (itemList cs.enum)).map (fun p => p.1.2)).Pairwise
      (fun a b => compItems col asc a b = true) := by
  have hperm := hs.perm (sortComp col asc) (itemList cs.enum)
  have hsym : ∀ {x y : itemState}, sameKey col x.1.2.index y.1.2.index = false →
      sameKey col y.1.2.index x.1.2.index = false := by
    intro x y h
    cases col <;> simp only [sameKey, decide_eq_false_iff_not] at h ⊢ <;>
      exact fun he => h he.symm
  have h1 : (itemList cs.enum).Pairwise
      (fun p q => sameKey col p.1.2.index q.1.2.index = false) := by
    have := hnt
    rw [← itemList_items, List.pairwise_map] at this
    exact this
  have h2 : (srt (sortComp col asc) (itemList cs.enum)).Pairwise
      (fun p q => sameKey col p.1.2.index q.1.2.index = false) :=
    (hperm.pairwise_iff (fun {x y} h => hsym h)).mpr h1
  rw [List.pairwise_map]
  refine (h2.and (hs.sorted col asc (itemList cs.enum))).imp ?_
  intro p q hpq
  rw [← sortComp_eq_compItems]
  exact sortComp_of_not_sameKey col asc p q hpq.1 hpq.2

/-- Sorting what has been sorted changes nothing, when no two siblings that are not pages
share a key. -/
theorem sortSpecL_idem (srt : SortRoutine) (hs : IsStdSort srt) (col : Column) (asc : Bool) :
    ∀ (k : Nat) (cs : List Item), noTiesL col cs = true → ∀ k', k' ≤ k →
      sortSpecL srt col asc k' (sortSpecL srt col asc k cs) = sortSpecL srt col asc k cs
  | 0, cs, _, k', hk' => by
    have : k' = 0 := by omega
    subst this
    rfl
  | k + 1, cs, hnt, 0, _ => rfl
  | k + 1, cs, hnt, k' + 1, hk' => by
    obtain ⟨hpair, hchild⟩ := noTiesL_spec col cs hnt
    have hperm := hs.perm (sortComp col asc) (itemList cs.enum)
    have hLperm := levelSpec_perm srt hs col asc cs
    -- the function applied below each child keeps the index entry
    have hidx : ∀ c : Item,
        (if needsSort c = true then c.setChildren (sortSpecL srt col asc k c.children)
          else c).index = c.index := by
      intro c
      split
      · cases c; rfl
      · rfl
    have hlevel : levelSpec srt col asc (sortSpecL srt col asc (k + 1) cs)
        = sortSpecL srt col asc (k + 1) cs := by
      simp only [sortSpecL]
      unfold levelSpec
      rw [List.map_append]
      apply levelSpec_fixed srt hs col asc
      · intro a ha
        obtain ⟨c, hc, rfl⟩ := List.mem_map.mp ha
        rw [hidx]
        obtain ⟨p, hp, rfl⟩ := List.mem_map.mp hc
        exact ((mem_itemList cs.enum p).mp (hperm.subset hp)).2.1
      · intro b hb
        obtain ⟨c, hc, rfl⟩ := List.mem_map.mp hb
        rw [hidx]
        simpa using (List.mem_filter.mp hc).2
      · rw [List.pairwise_map]
        refine (sorted_strict srt hs col asc cs hpair).imp ?_
        intro a b hab
        exact (sortComp_index col asc _ _ _ _ (hidx a) (hidx b)).trans hab
    rw [sortSpecL, hlevel]
    simp only [sortSpecL, List.map_map]
    apply List.map_congr_left
    intro c hc
    have hcs : c ∈ cs := hLperm.subset hc
    simp only [Function.comp_apply]
    by_cases hn : needsSort c = true
    · simp only [hn, if_true]
      have hn' : needsSort (c.setChildren (sortSpecL srt col asc k c.children)) = true := by
        cases c
        simp only [needsSort, Item.setChildren_mk, Item.children_mk, Item.index_mk,
          length_sortSpecL srt hs col asc] at hn ⊢
        exact hn
      simp only [hn', if_true]
      cases c
      simp only [Item.setChildren_mk, Item.children_mk]
      rw [sortSpecL_idem srt hs col asc k _ (by simpa using hchild _ hcs) k' (by omega)]
    · simp only [hn, if_false]
      simp [hn]

/-- The whole of `sortItems` from the invisible root, for a sort routine that meets the
contract of `std::ranges::sort`. -/
theorem sortItems_root (srt : SortRoutine) (hs : IsStdSort srt) (col : Column) (asc : Bool)
    (w : TreeWidget) :
    sortItems srt col asc w [] = some (sortSpecL srt col asc (Item.sizeL w) w) := by
  obtain ⟨fuel', _, h⟩ := sortLoop_item srt hs col asc (Item.sizeL w) [] w []
    (Item.sizeL w + 1) (Or.inl rfl) (Nat.le_refl _) (Nat.le_refl _)
  unfold sortItems
  rw [h, sortLoop_nil]
  rfl

/-! ## Sort routines that meet the contract -/

theorem sortComp_total (col : Column) (asc : Bool) (a b : itemState) :
    sortComp col asc b a = false ∨ sortComp col asc a b = false := by
  cases h : sortComp col asc b a with
  | false => exact Or.inl rfl
  | true => exact Or.inr (sortComp_asymm col asc b a h)

theorem sortComp_trans (col : Column) (asc : Bool) (a b c : itemState)
    (hab : sortComp col asc b a = false) (hbc : sortComp col asc c b = false) :
    sortComp col asc c a = false := by
  cases col <;> cases asc <;>
    simp only [sortComp, decide_eq_false_iff_not, if_true, Bool.false_eq_true, if_false,
      gt_iff_lt, not_lt] at hab hbc ⊢
  · exact le_trans hab hbc
  · exact le_trans hbc hab
  · exact le_trans hab hbc
  · exact le_trans hbc hab
  · exact le_trans hab hbc
  · exact le_trans hbc hab

theorem sorted_insertionSort_sortComp (col : Column) (asc : Bool) (l : List itemState) :
    (List.insertionSort (fun a b => sortComp col asc b a = false) l).Pairwise
      (fun a b => sortComp col asc b a = false) := by
  haveI : IsTotal itemState (fun a b => sortComp col asc b a = false) :=
    ⟨fun a b => sortComp_total col asc a b⟩
  haveI : IsTrans itemState (fun a b => sortComp col asc b a = false) :=
    ⟨fun a b c hab hbc => sortComp_trans col asc a b c hab hbc⟩
  exact List.sorted_insertionSort (fun a b => sortComp col asc b a = false) l

/-- Insertion sort meets the contract of `std::ranges::sort`. -/
theorem isStdSort_insertionSortRoutine : IsStdSort insertionSortRoutine where
  perm := fun comp l => List.perm_insertionSort (fun a b => comp b a = false) l
  sorted := fun col asc l => sorted_insertionSort_sortComp col asc l

/-- Insertion sort of the reversed input meets the contract of `std::ranges::sort`. -/
theorem isStdSort_reversingSortRoutine : IsStdSort reversingSortRoutine where
  perm := fun comp l =>
    (List.perm_insertionSort (fun a b => comp b a = false) l.reverse).trans
      (List.reverse_perm l)
  sorted := fun col asc l => sorted_insertionSort_sortComp col asc l.reverse

/-! ## Sorting twice, without and with ties -/

/-- C3, as amended. For a sort routine that meets the contract of `std::ranges::sort`, any
column and either direction: on a tree in which no two siblings that are not pages have the
same key, `sortItems` returns, and `sortItems` on its result returns that result again. -/
theorem sortItems_idempotent_without_ties (srt : SortRoutine) (hs : IsStdSort srt)
    (col : Column) (asc : Bool) (w : TreeWidget) (hnt : noTiesL col w = true) :
    ∃ w1, sortItems srt col asc w [] = some w1 ∧ sortItems srt col asc w1 [] = some w1 := by
  refine ⟨sortSpecL srt col asc (Item.sizeL w) w, sortItems_root srt hs col asc w, ?_⟩
  rw [sortItems_root srt hs col asc, sizeL_sortSpecL srt hs col asc,
    sortSpecL_idem srt hs col asc (Item.sizeL w) w hnt (Item.sizeL w) (Nat.le_refl _)]

/-- Witness for C3 as amended: the files of `treeThreeFiles` have the modification times
10, 30 and 20. -/
theorem sortItems_idempotent_without_ties_witness :
    IsStdSort insertionSortRoutine ∧ noTiesL Column.MTime treeThreeFiles = true ∧
      ∃ w1, sortItems insertionSortRoutine Column.MTime true treeThreeFiles [] = some w1 ∧
        sortItems insertionSortRoutine Column.MTime true w1 [] = some w1 :=
  ⟨isStdSort_insertionSortRoutine, by decide,
    sortItems_idempotent_without_ties insertionSortRoutine isStdSort_insertionSortRoutine
      Column.MTime true treeThreeFiles (by decide)⟩

/-- Counterexample to C3. `reversingSortRoutine` meets the contract of `std::ranges::sort`.
On the two directories `A` and `B` with equal modification times, `sortItems` with it gives
`[B, A]`, and `sortItems` on that gives `[A, B]`: the second pass moves both items. -/
theorem sortItems_twice_differs_on_ties :
    IsStdSort reversingSortRoutine ∧
      ∃ w1 w2, sortItems reversingSortRoutine Column.MTime true treeTies [] = some w1 ∧
        sortItems reversingSortRoutine Column.MTime true w1 [] = some w2 ∧ w2 ≠ w1 := by
  refine ⟨isStdSort_reversingSortRoutine,
    [mkItem (mkIndex FileIndexType.DIR "B" 0 0) [], mkItem (mkIndex FileIndexType.DIR "A" 0 0) []],
    [mkItem (mkIndex FileIndexType.DIR "A" 0 0) [], mkItem (mkIndex FileIndexType.DIR "B" 0 0) []],
    rfl, rfl, ?_⟩
  intro h
  have := congrArg (List.map (fun c => c.index.title)) h
  revert this
  decide

/-! ## The operations return -/

theorem selectedTreeItem_snoc (w : TreeWidget) (p : Path) (h : selectedTreeItem w = some p) :
    ∃ q i, p = q ++ [i] := by
  obtain ⟨X, hX, _⟩ := selectedTreeItem_valid w p h
  rcases List.eq_nil_or_concat p with hp | ⟨q, i, hq⟩
  · subst hp
    simp [getItem] at hX
  · exact ⟨q, i, by simpa using hq⟩

/-! ## The operations keep the number of items -/

mutual
theorem size_eraseFlags : ∀ c : Item, (Item.eraseFlags c).size = c.size
  | Item.mk i h e s cs => by
    simp only [Item.eraseFlags, Item.size, sizeL_eraseFlagsL cs]
theorem sizeL_eraseFlagsL : ∀ cs : List Item, Item.sizeL (eraseFlagsL cs) = Item.sizeL cs
  | [] => rfl
  | c :: cs => by
    simp only [eraseFlagsL, Item.sizeL, size_eraseFlags c, sizeL_eraseFlagsL cs]
end

theorem sizeL_of_eraseFlagsL (w w' : TreeWidget) (h : eraseFlagsL w' = eraseFlagsL w) :
    Item.sizeL w' = Item.sizeL w := by
  rw [← sizeL_eraseFlagsL w', h, sizeL_eraseFlagsL]

mutual
theorem eraseFlags_filterSpec (f : filterFunc) :
    ∀ c : Item, (filterSpec f c).eraseFlags = c.eraseFlags
  | Item.mk i h e s cs => by
    rw [filterSpec_mk]
    simp only [Item.eraseFlags]
    rw [eraseFlagsL_filterSpecL _ cs]
theorem eraseFlagsL_filterSpecL (f : filterFunc) :
    ∀ cs : List Item, eraseFlagsL (filterSpecL f cs) = eraseFlagsL cs
  | [] => by simp [filterSpecL]
  | c :: cs => by
    simp only [filterSpecL, eraseFlagsL, eraseFlags_filterSpec f c, eraseFlagsL_filterSpecL f cs]
end

theorem length_le_sizeL : ∀ cs : List Item, cs.length ≤ Item.sizeL cs
  | [] => Nat.zero_le _
  | c :: cs => by
    have h1 := c.size_pos
    have h2 := length_le_sizeL cs
    simp only [List.length_cons, Item.sizeL]
    omega

theorem item_get_size : ∀ (p : Path) (c A : Item), c.get p = some A → A.size ≤ c.size
  | [], c, A, h => by
    simp only [Item.get, Option.some.injEq] at h
    subst h
    exact Nat.le_refl _
  | i :: p, Item.mk idx hh e s cs, A, h => by
    simp only [Item.get, Item.children_mk] at h
    cases hc : cs[i]? with
    | none => simp [hc] at h
    | some d =>
      simp only [hc] at h
      have h1 := item_get_size p d A h
      have h2 := size_le_sizeL (List.getElem?_mem hc)
      simp only [Item.size]
      omega

theorem childCount_le_sizeL (w : TreeWidget) (q : Path) : childCount w q ≤ Item.sizeL w := by
  cases q with
  | nil => exact length_le_sizeL w
  | cons i p =>
    simp only [childCount, childrenOf, getItem]
    cases hc : w[i]? with
    | none => simp
    | some c =>
      simp only []
      cases hA : c.get p with
      | none => simp
      | some A =>
        simp only []
        have h1 := item_get_size p c A hA
        have h2 := size_le_sizeL (List.getElem?_mem hc)
        have h3 := length_le_sizeL A.children
        have h4 : Item.sizeL A.children < A.size := by
          cases A
          simp only [Item.children_mk, Item.size]
          omega
        omega

/-- Every operation keeps the number of items of the tree, for a sort routine that meets
the contract of `std::ranges::sort`. -/
theorem sizeL_applyOp (srt : SortRoutine) (hs : IsStdSort srt) (op : Op) (w w' : TreeWidget)
    (h : applyOp srt op w = some w') : Item.sizeL w' = Item.sizeL w := by
  cases op with
  | setItemSelected item =>
    simp only [applyOp] at h
    exact sizeL_of_eraseFlagsL w w' (eraseFlagsL_setItemSelected w w' _ h)
  | scrollUp times =>
    simp only [applyOp, scrollUp] at h
    split at h
    · simp only [Option.some.injEq] at h; subst h; rfl
    · split at h
      · exact sizeL_of_eraseFlagsL w w' (eraseFlagsL_setItemSelected w w' _ h)
      · simp only [Option.some.injEq] at h; subst h; rfl
  | scrollDown times =>
    simp only [applyOp, scrollDown] at h
    split at h
    · simp only [Option.some.injEq] at h; subst h; rfl
    · exact sizeL_of_eraseFlagsL w w' (eraseFlagsL_setItemSelected w w' _ h)
  | scrollLeft times =>
    simp only [applyOp, scrollLeft] at h
    split at h
    · simp only [Option.some.injEq] at h; subst h; rfl
    · split at h
      · simp only [Option.some.injEq] at h; subst h; rfl
      · exact sizeL_of_eraseFlagsL w w' (eraseFlagsL_setItemSelected w w' _ h)
  | scrollRight times =>
    simp only [applyOp, scrollRight] at h
    split at h
    · simp only [Option.some.injEq] at h; subst h; rfl
    · split at h
      · simp only [Option.some.injEq] at h; subst h; rfl
      · exact sizeL_of_eraseFlagsL w w' (eraseFlagsL_setItemSelected w w' _ h)
  | setCurrentIndex path pn anchor =>
    simp only [applyOp, setCurrentIndex] at h
    split at h
    · rename_i fitr _
      cases hsel : setItemSelected w (some fitr) with
      | none => simp [hsel] at h
      | some w1 =>
        simp only [hsel, Option.map_some', Option.some.injEq] at h
        subst h
        exact sizeL_of_eraseFlagsL w w1 (eraseFlagsL_setItemSelected w w1 _ hsel)
    · simp only [Option.map_some', Option.some.injEq] at h; subst h; rfl
  | selectFirstItem filename pageNumber =>
    simp only [applyOp, selectFirstItem, setCurrentIndex] at h
    cases hfind : setCurrentIndexFind w filename pageNumber "" with
    | some fitr =>
      cases hsel : setItemSelected w (some fitr) with
      | none => simp [hfind, hsel] at h
      | some w1 =>
        simp only [hfind, hsel, Option.map_some', Option.some.injEq] at h
        subst h
        exact sizeL_of_eraseFlagsL w w1 (eraseFlagsL_setItemSelected w w1 _ hsel)
    | none =>
      simp only [hfind] at h
      split at h
      · exact sizeL_of_eraseFlagsL w w' (eraseFlagsL_setItemSelected w w' _ h)
      · simp only [Option.some.injEq] at h; subst h; rfl
  | filterItemBy filter_func =>
    simp only [applyOp, filterItemBy_root, Option.some.injEq] at h
    subst h
    exact sizeL_of_eraseFlagsL w _ (eraseFlagsL_filterSpecL filter_func w)
  | sortItems col asc =>
    simp only [applyOp, sortItems_root srt hs, Option.some.injEq] at h
    subst h
    exact sizeL_sortSpecL srt hs col asc _ w

/-- Every operation returns when it is called in its domain and the sort routine meets the
contract of `std::ranges::sort`. -/
theorem applyOp_isSome (srt : SortRoutine) (hs : IsStdSort srt) (op : Op) (w : TreeWidget)
    (hop : opInDomain (Item.sizeL w) op) : ∃ w', applyOp srt op w = some w' := by
  cases op with
  | setItemSelected item => exact setItemSelected_isSome w item
  | scrollUp times =>
    simp only [applyOp]
    cases hsel : selectedTreeItem w with
    | none => exact ⟨w, by simp [scrollUp, hsel]⟩
    | some p =>
      obtain ⟨q, i, rfl⟩ := selectedTreeItem_snoc w p hsel
      obtain ⟨w1, h1, _⟩ := scrollUp_spec w q i times hop hsel
      exact ⟨w1, h1⟩
  | scrollDown times =>
    simp only [applyOp]
    cases hsel : selectedTreeItem w with
    | none => exact ⟨w, by simp [scrollDown, hsel]⟩
    | some p =>
      obtain ⟨q, i, rfl⟩ := selectedTreeItem_snoc w p hsel
      obtain ⟨X, hX, _⟩ := selectedTreeItem_valid w _ hsel
      have hik := lt_childCount_of_getItem w q i X hX
      have hle := childCount_le_sizeL w q
      have hop2 : (Item.sizeL w : Int) + times < 2147483648 := hop.2
      obtain ⟨_, hd⟩ := scrollDown_spec w q i times hop.1 (by omega) hsel
      rw [hd]
      exact setItemSelected_isSome w _
  | scrollLeft times =>
    simp only [applyOp, scrollLeft]
    split
    · exact ⟨_, rfl⟩
    · split
      · exact ⟨_, rfl⟩
      · exact setItemSelected_isSome w _
  | scrollRight times =>
    simp only [applyOp, scrollRight]
    split
    · exact ⟨_, rfl⟩
    · split
      · exact ⟨_, rfl⟩
      · exact setItemSelected_isSome w _
  | setCurrentIndex path pn anchor =>
    simp only [applyOp, setCurrentIndex]
    split
    · rename_i fitr _
      obtain ⟨w1, h1⟩ := setItemSelected_isSome w fitr
      exact ⟨w1, by simp [h1]⟩
    · exact ⟨w, rfl⟩
  | selectFirstItem filename pageNumber =>
    simp only [applyOp, selectFirstItem, setCurrentIndex]
    cases hfind : setCurrentIndexFind w filename pageNumber "" with
    | some fitr =>
      obtain ⟨w1, h1⟩ := setItemSelected_isSome w fitr
      exact ⟨w1, by simp [h1]⟩
    | none =>
      simp only []
      split
      · exact setItemSelected_isSome w _
      · exact ⟨w, rfl⟩
  | filterItemBy filter_func => exact ⟨_, filterItemBy_root w filter_func⟩
  | sortItems col asc => exact ⟨_, sortItems_root srt hs col asc w⟩

theorem opInDomain_congr (n m : Nat) (h : n = m) (op : Op) (hop : opInDomain n op) :
    opInDomain m op := by
  subst h
  exact hop

theorem runOps_isSome (srt : SortRoutine) (hs : IsStdSort srt) :
    ∀ (ops : List Op) (w : TreeWidget), (∀ op ∈ ops, opInDomain (Item.sizeL w) op) →
      ∃ w', runOps srt ops w = some w' := by
  intro ops
  induction ops with
  | nil => exact fun w _ => ⟨w, rfl⟩
  | cons op ops ih =>
    intro w hops
    obtain ⟨w1, h1⟩ := applyOp_isSome srt hs op w (hops op (by simp))
    have hsz := sizeL_applyOp srt hs op w w1 h1
    obtain ⟨w2, h2⟩ := ih w1 (fun o ho =>
      opInDomain_congr _ _ hsz.symm o (hops o (by simp [ho])))
    exact ⟨w2, by simp [runOps, h1, h2]⟩

/-- With no item selected `setCurrentIndex` finds nothing, whatever the tree holds: the
first search starts from null, and the two searches of the whole tree start from the
invisible root, which carries no `FileIndex`. -/
theorem setCurrentIndex_of_no_selection (w : TreeWidget) (path : String) (pn : Int)
    (anchor : String) (hsel : selectedTreeItem w = none) :
    setCurrentIndex w path pn anchor = some (w, false) := by
  simp [setCurrentIndex, setCurrentIndexFind, findTreeWidgetItem, getFileIndexFromTreeItem,
    getItem, hsel]

/-- After `setItemSelected` the item is not expanded. -/
theorem setItemSelected_collapsed (w : TreeWidget) (p : Path) (X : Item)
    (hget : getItem w p = some X) :
    ∃ w' Y, setItemSelected w (some p) = some w' ∧ getItem w' p = some Y ∧
      Y.expanded = false := by
  have he3 : eraseFlagsL (modifyAt (Item.setSelected true) p
      (expandParents p.length (parent p) (clearSelectedL w))) = eraseFlagsL w := by
    rw [eraseFlagsL_modifyAt _ (eraseFlags_setSelected true), eraseFlagsL_expandParents,
      eraseFlagsL_clearSelectedL]
  have hsome := getItem_isSome_of_eraseFlagsL w _ he3 p
  rw [hget] at hsome
  obtain ⟨it, hit⟩ := Option.isSome_iff_exists.mp hsome
  simp only [setItemSelected, hit]
  by_cases he : it.expanded = true
  · simp only [he, if_true]
    refine ⟨_, it.setExpanded false, rfl, ?_, ?_⟩
    · rw [getItem_modifyAt, hit]
      rfl
    · cases it
      rfl
  · simp only [he, if_false]
    exact ⟨_, it, rfl, hit, by simpa using he⟩

/-- When the selected item is the last child of its parent, `scrollDown (1)` selects it
again, and afterwards the item is not expanded, whether or not it was before. -/
theorem scrollDown_last_collapsed (w : TreeWidget) (q : Path) (i : Nat)
    (hsel : selectedTreeItem w = some (q ++ [i])) (hlast : i + 1 = childCount w q)
    (hrange : (i : Int) + 1 < 2147483648) :
    ∃ w' Y, scrollDown w 1 = some w' ∧ getItem w' (q ++ [i]) = some Y ∧
      Y.expanded = false := by
  obtain ⟨X, hX, _⟩ := selectedTreeItem_valid w _ hsel
  simp only [scrollDown, hsel, parentOrRoot_snoc, indexOfChild_snoc]
  rw [wrapInt_of_range _ (by omega) hrange]
  have hlt : ¬ ((i : Int) + 1 < (childCount w q : Int)) := by omega
  have h0 : (0 : Int) ≤ (childCount w q : Int) - 1 ∧
      (childCount w q : Int) - 1 < (childCount w q : Int) := by omega
  have hi : ((childCount w q : Int) - 1).toNat = i := by omega
  simp only [hlt, if_false, child, h0, and_self, if_true, hi]
  exact setItemSelected_collapsed w _ X hX

/-! ## The order `sortItems` produces, level by level -/

/-- One pass leaves the items that are not pages in the order of the comparison. -/
theorem sortSpecL_succ_sorted (srt : SortRoutine) (hs : IsStdSort srt) (col : Column)
    (asc : Bool) (k : Nat) (cs : List Item) :
    ((sortSpecL srt col asc (k + 1) cs).filter
        (fun c => decide (c.index.type ≠ FileIndexType.PAGE))).Pairwise
      (fun a b => compItems col asc b a = false) := by
  have hperm := hs.perm (sortComp col asc) (itemList cs.enum)
  have hidx : ∀ c : Item,
      (if needsSort c = true then c.setChildren (sortSpecL srt col asc k c.children)
        else c).index = c.index := by
    intro c
    split
    · cases c; rfl
    · rfl
  simp only [sortSpecL, levelSpec, List.map_append, List.filter_append]
  have hP : ((cs.filter (fun c => decide (c.index.type = FileIndexType.PAGE))).map
        (fun c => if needsSort c = true
          then c.setChildren (sortSpecL srt col asc k c.children) else c)).filter
        (fun c => decide (c.index.type ≠ FileIndexType.PAGE)) = [] := by
    apply List.filter_eq_nil_iff.mpr
    intro a ha
    obtain ⟨c, hc, rfl⟩ := List.mem_map.mp ha
    rw [hidx]
    simpa using (List.mem_filter.mp hc).2
  have hS : (((srt (sortComp col asc) (itemList cs.enum)).map (fun p => p.1.2)).map
        (fun c => if needsSort c = true
          then c.setChildren (sortSpecL srt col asc k c.children) else c)).filter
        (fun c => decide (c.index.type ≠ FileIndexType.PAGE))
      = ((srt (sortComp col asc) (itemList cs.enum)).map (fun p => p.1.2)).map
        (fun c => if needsSort c = true
          then c.setChildren (sortSpecL srt col asc k c.children) else c) := by
    apply List.filter_eq_self.mpr
    intro a ha
    obtain ⟨c, hc, rfl⟩ := List.mem_map.mp ha
    obtain ⟨p, hp, rfl⟩ := List.mem_map.mp hc
    rw [hidx]
    simpa using ((mem_itemList cs.enum p).mp (hperm.subset hp)).2.1
  rw [hP, hS, List.append_nil, List.pairwise_map, List.pairwise_map]
  refine (hs.sorted col asc (itemList cs.enum)).imp ?_
  intro p q hpq
  rw [← hpq, sortComp_eq_compItems]
  exact sortComp_index col asc _ _ _ _ (hidx q.1.2) (hidx p.1.2)

theorem sizeL_eq_zero (cs : List Item) (h : Item.sizeL cs = 0) : cs = [] := by
  cases cs with
  | nil => rfl
  | cons c cs =>
    simp only [Item.sizeL] at h
    have := c.size_pos
    omega

/-- A pass to a depth that is at least the number of items leaves the items that are not
pages in the order of the comparison. -/
theorem sortSpecL_sorted (srt : SortRoutine) (hs : IsStdSort srt) (col : Column)
    (asc : Bool) (k : Nat) (cs : List Item) (hk : Item.sizeL cs ≤ k) :
    ((sortSpecL srt col asc k cs).filter
        (fun c => decide (c.index.type ≠ FileIndexType.PAGE))).Pairwise
      (fun a b => compItems col asc b a = false) := by
  cases k with
  | zero =>
    have := sizeL_eq_zero cs (by omega)
    subst this
    simp [sortSpecL]
  | succ k => exact sortSpecL_succ_sorted srt hs col asc k cs

/-- For a sort routine that meets the contract of `std::ranges::sort`, `sortItems` from the
invisible root returns, and among the top-level items that are not pages no item compares
before an item that precedes it.  With `mSortAscending` set the comparison is
`std::ranges::greater`, so the keys are then in non-increasing order. -/
theorem sortItems_root_sorted (srt : SortRoutine) (hs : IsStdSort srt) (col : Column)
    (asc : Bool) (w : TreeWidget) :
    ∃ w1, sortItems srt col asc w [] = some w1 ∧
      (w1.filter (fun c => decide (c.index.type ≠ FileIndexType.PAGE))).Pairwise
        (fun a b => compItems col asc b a = false) :=
  ⟨_, sortItems_root srt hs col asc w,
    sortSpecL_sorted srt hs col asc _ w (Nat.le_refl _)⟩

theorem getItem_cons_children (w : TreeWidget) (i : Nat) (c : Item) (q : Path)
    (hc : w[i]? = some c) (hq : q ≠ []) : getItem w (i :: q) = getItem c.children q := by
  cases q with
  | nil => exact absurd rfl hq
  | cons j q =>
    simp only [getItem, hc, Item.get]

/-- In the tree a pass leaves, the children of every item that is reached through items put
on `needSort`, and was put there itself, are in the order of the comparison. -/
theorem sortSpecL_deep_sorted (srt : SortRoutine) (hs : IsStdSort srt) (col : Column)
    (asc : Bool) :
    ∀ (p : Path) (k : Nat) (cs : List Item) (A : Item), Item.sizeL cs ≤ k →
      getItem (sortSpecL srt col asc k cs) p = some A →
      (∀ (q : Path) (B : Item), q ≠ [] → q <+: p →
        getItem (sortSpecL srt col asc k cs) q = some B → needsSort B = true) →
      (A.children.filter (fun c => decide (c.index.type ≠ FileIndexType.PAGE))).Pairwise
        (fun a b => compItems col asc b a = false)
  | [], _, _, _, _, hA, _ => by simp [getItem] at hA
  | i :: r, 0, cs, A, hk, hA, _ => by
    have := sizeL_eq_zero cs (by omega)
    subst this
    simp [sortSpecL, getItem] at hA
  | i :: r, k + 1, cs, A, hk, hA, hpre => by
    cases hc' : (sortSpecL srt col asc (k + 1) cs)[i]? with
    | none => simp [getItem, hc'] at hA
    | some c' =>
      have hc'' := hc'
      simp only [sortSpecL, List.getElem?_map] at hc''
      cases hc : (levelSpec srt col asc cs)[i]? with
      | none => simp [hc] at hc''
      | some c =>
        simp only [hc, Option.map_some', Option.some.injEq] at hc''
        have hmem : c ∈ cs := (levelSpec_perm srt hs col asc cs).subset (List.getElem?_mem hc)
        have hsz : Item.sizeL c.children ≤ k := by
          have h1 := size_le_sizeL hmem
          cases c
          simp only [Item.size, Item.children_mk] at h1 ⊢
          omega
        have hB : needsSort c' = true :=
          hpre [i] c' (by simp) (by simp) (by simp [getItem, hc', Item.get])
        have hns : needsSort c = true := by
          by_cases hn : needsSort c = true
          · exact hn
          · rw [if_neg hn] at hc''
            rw [← hc''] at hB
            exact hB
        rw [if_pos hns] at hc''
        have hch : c'.children = sortSpecL srt col asc k c.children := by
          rw [← hc'']
          cases c
          rfl
        cases r with
        | nil =>
          simp only [getItem, hc', Item.get, Option.some.injEq] at hA
          subst hA
          rw [hch]
          exact sortSpecL_sorted srt hs col asc k c.children hsz
        | cons j r =>
          rw [getItem_cons_children _ i c' (j :: r) hc' (by simp), hch] at hA
          refine sortSpecL_deep_sorted srt hs col asc (j :: r) k c.children A hsz hA ?_
          intro q B hq hqp hqB
          refine hpre (i :: q) B (by simp) ?_ ?_
          · exact (List.cons_prefix_cons).mpr ⟨rfl, hqp⟩
          · rw [getItem_cons_children _ i c' q hc' hq, hch]
            exact hqB

/-- C4 (as amended). `sortItems` from the invisible root orders the siblings at every level
its work list reaches.  For a sort routine that meets the contract of `std::ranges::sort`
the call returns, the top-level items that are not pages are in the order of the comparison,
and so are the children that are not pages of every item that is a directory with more than
one child and has only such directories above it. -/
theorem sortItems_sorts_reached_levels (srt : SortRoutine) (hs : IsStdSort srt) (col : Column)
    (asc : Bool) (w : TreeWidget) :
    ∃ w1, sortItems srt col asc w [] = some w1 ∧
      (w1.filter (fun c => decide (c.index.type ≠ FileIndexType.PAGE))).Pairwise
        (fun a b => compItems col asc b a = false) ∧
      ∀ (p : Path) (A : Item), getItem w1 p = some A →
        (∀ (q : Path) (B : Item), q ≠ [] → q <+: p → getItem w1 q = some B →
          B.index.type = FileIndexType.DIR ∧ 1 < B.children.length) →
        (A.children.filter (fun c => decide (c.index.type ≠ FileIndexType.PAGE))).Pairwise
          (fun a b => compItems col asc b a = false) := by
  refine ⟨_, sortItems_root srt hs col asc w,
    sortSpecL_sorted srt hs col asc _ w (Nat.le_refl _), ?_⟩
  intro p A hA hpre
  refine sortSpecL_deep_sorted srt hs col asc p _ w A (Nat.le_refl _) hA ?_
  intro q B hq hqp hB
  obtain ⟨h1, h2⟩ := hpre q B hq hqp hB
  simp only [needsSort, decide_eq_true_eq]
  exact ⟨h2, h1⟩

/-! ## What `setItemSelected` leaves behind -/

/-- C13 (as amended). `setItemSelected (x)` collapses `x` and never expands it: for every
item `x` of the tree the call returns, and afterwards `x` is not expanded, whether it was
expanded before or not. -/
theorem setItemSelected_leaves_collapsed (w : TreeWidget) (x : Path) (X : Item)
    (hx : getItem w x = some X) :
    ∃ w' Y, setItemSelected w (some x) = some w' ∧ getItem w' x = some Y ∧
      Y.expanded = false :=
  setItemSelected_collapsed w x X hx

/-! ## Clearing the filter -/

mutual
theorem filterSpec_const_true :
    ∀ X : Item, filterSpec (fun _ => (true, false)) X = Item.unhideAll X
  | Item.mk idx h e s cs => by
    rw [filterSpec_mk]
    simp only [Bool.false_eq_true, and_false, if_false, Bool.true_or, Bool.not_true,
      Item.unhideAll, filterSpecL_const_true cs]
theorem filterSpecL_const_true :
    ∀ cs : List Item, filterSpecL (fun _ => (true, false)) cs = unhideAllL cs
  | [] => by simp [filterSpecL, unhideAllL]
  | c :: cs => by
    simp only [filterSpecL, unhideAllL, filterSpec_const_true c, filterSpecL_const_true cs]
end

theorem getElem?_unhideAllL : ∀ (cs : List Item) (n : Nat),
    (unhideAllL cs)[n]? = (cs[n]?).map Item.unhideAll
  | [], n => by simp [unhideAllL]
  | c :: cs, 0 => by simp [unhideAllL]
  | c :: cs, n + 1 => by simpa [unhideAllL] using getElem?_unhideAllL cs n

theorem item_get_unhideAll :
    ∀ (q : Path) (it : Item), (Item.unhideAll it).get q = (it.get q).map Item.unhideAll
  | [], it => rfl
  | j :: q, Item.mk idx hh e s cs => by
    simp only [Item.unhideAll, Item.get, Item.children_mk, getElem?_unhideAllL]
    cases hc : cs[j]? with
    | none => rfl
    | some c => exact item_get_unhideAll q c

theorem getItem_unhideAllL (w : TreeWidget) (q : Path) :
    getItem (unhideAllL w) q = (getItem w q).map Item.unhideAll := by
  cases q with
  | nil => rfl
  | cons j q =>
    simp only [getItem, getElem?_unhideAllL]
    cases hc : w[j]? with
    | none => rfl
    | some c => exact item_get_unhideAll q c

mutual
theorem firstSelected_unhideAll :
    ∀ c : Item, Item.firstSelected (Item.unhideAll c) = Item.firstSelected c
  | Item.mk i h e s cs => by
    simp only [Item.unhideAll, Item.firstSelected, firstSelectedL_unhideAllL cs 0]
theorem firstSelectedL_unhideAllL :
    ∀ (cs : List Item) (n : Nat), firstSelectedL (unhideAllL cs) n = firstSelectedL cs n
  | [], _ => by simp [unhideAllL]
  | c :: cs, n => by
    simp only [unhideAllL, firstSelectedL, firstSelected_unhideAll c,
      firstSelectedL_unhideAllL cs (n + 1)]
end

/-- C11. With an empty text `onFilter` returns, for every filter type; afterwards the tree
has the same items, none of them is hidden, and the index, the expanded flag and the
selected flag of every item are those of before, so the selection is that of before. -/
theorem onFilter_empty_unhides (env : FilterEnv) (w : TreeWidget) (type : Option FilterType) :
    ∃ w', onFilter env w type "" = some w' ∧
      (∀ q : Path, (getItem w' q).map (fun X => (X.index, X.hidden, X.expanded, X.selected))
        = (getItem w q).map (fun X => (X.index, false, X.expanded, X.selected))) ∧
      selectedTreeItem w' = selectedTreeItem w := by
  refine ⟨unhideAllL w, ?_, ?_, ?_⟩
  · simp only [onFilter, if_true, setItemChildrenFilter]
    rw [filterItemBy_root, filterSpecL_const_true]
  · intro q
    rw [getItem_unhideAllL, Option.map_map]
    cases getItem w q with
    | none => rfl
    | some X => cases X; rfl
  · exact firstSelectedL_unhideAllL w 0

/-! ## The search returns items of the tree -/

mutual
theorem findInItem_valid (w : TreeWidget) (type : FileIndexType) (path : String) (pn : Int)
    (anchor : String) :
    ∀ (it : Item) (itr r : Path), getItem w itr = some it →
      findInItem w type path pn anchor it itr = some r → ∃ Y, getItem w r = some Y
  | Item.mk index hh e s cs, itr, r, hit, h => by
    simp only [findInItem] at h
    split at h
    · have hne : itr ≠ [] := by
        rintro rfl
        simp [getItem] at hit
      refine findInChildren_valid w type path pn anchor cs itr 0 r ?_ h
      intro k c hc
      rw [Nat.zero_add, getItem_snoc k itr hne, hit]
      exact hc
    · split at h
      · split at h
        · simp only [Option.some.injEq] at h
          subst h
          exact ⟨_, hit⟩
        · simp at h
      · split at h
        · simp only [Option.some.injEq] at h
          subst h
          exact ⟨_, hit⟩
        · simp at h
theorem findInChildren_valid (w : TreeWidget) (type : FileIndexType) (path : String)
    (pn : Int) (anchor : String) :
    ∀ (cs : List Item) (itr : Path) (ind : Nat) (r : Path),
      (∀ (k : Nat) (c : Item), cs[k]? = some c → getItem w (itr ++ [ind + k]) = some c) →
      findInChildren w type path pn anchor cs itr ind = some r → ∃ Y, getItem w r = some Y
  | [], _, _, _, _, h => by simp [findInChildren] at h
  | c :: cs, itr, ind, r, hcs, h => by
    simp only [findInChildren] at h
    cases hf : findInItem w type path pn anchor c (itr ++ [ind]) with
    | some citr =>
      simp only [hf, Option.some.injEq] at h
      subst h
      exact findInItem_valid w type path pn anchor c (itr ++ [ind]) citr
        (by simpa using hcs 0 c (by simp)) hf
    | none =>
      simp only [hf] at h
      refine findInChildren_valid w type path pn anchor cs itr (ind + 1) r ?_ h
      intro k d hd
      have := hcs (k + 1) d (by simpa using hd)
      have he : ind + 1 + k = ind + (k + 1) := by omega
      rw [he]
      exact this
end

theorem findTreeWidgetItem_valid (w : TreeWidget) (itr : Option Path) (type : FileIndexType)
    (path : String) (pn : Int) (anchor : String) (r : Path)
    (h : findTreeWidgetItem w itr type path pn anchor = some r) : ∃ Y, getItem w r = some Y := by
  simp only [findTreeWidgetItem] at h
  cases hidx : getFileIndexFromTreeItem w itr with
  | none => simp [hidx] at h
  | some index =>
    simp only [hidx] at h
    cases itr with
    | none => simp at h
    | some p =>
      simp only [] at h
      cases hit : getItem w p with
      | none => simp [hit] at h
      | some it =>
        simp only [hit] at h
        exact findInItem_valid w type path pn anchor it p r hit h

theorem findTreeWidgetItem_root (w : TreeWidget) (type : FileIndexType) (path : String)
    (pn : Int) (anchor : String) :
    findTreeWidgetItem w (some []) type path pn anchor = none := by
  simp [findTreeWidgetItem, getFileIndexFromTreeItem, getItem]

theorem setCurrentIndexFind_valid (w : TreeWidget) (path : String) (pn : Int)
    (anchor : String) (m : Path) (h : setCurrentIndexFind w path pn anchor = some m) :
    ∃ Y, getItem w m = some Y := by
  simp only [setCurrentIndexFind, findTreeWidgetItem_root] at h
  split at h
  · rename_i fitr hf
    simp only [Option.some.injEq] at h
    subst h
    exact findTreeWidgetItem_valid w _ _ _ _ _ _ hf
  · simp at h

/-- In a tree with items of which none is selected, below a directory, `setIndex` with an
index that is not a directory dereferences the null `cur_index`. -/
theorem setIndex_null_cur_index (srt : SortRoutine)
    (moveChildChildren : IndexNode → IndexNode → IndexNode) (s : Content) (index : IndexNode)
    (hw : s.mTreeWidget ≠ []) (hidx : index.entry.type ≠ FileIndexType.DIR)
    (hroot : s.mIndex.entry.type = FileIndexType.DIR)
    (hsel : selectedTreeItem s.mTreeWidget = none) :
    setIndex srt moveChildChildren s index = none := by
  have hlen : ¬ s.mTreeWidget.length = 0 := by
    intro h
    exact hw (List.length_eq_zero.mp h)
  simp [setIndex, hlen, hidx, hroot, currentItemFileIndex, hsel, getFileIndexFromTreeItem]

/-! ## `onFileDelete` and the result of `QFile::remove` -/

theorem onFileDeleteLoop_state (removeChild : IndexNode → FileIndex → IndexNode)
    (question : String → Bool → StandardButton) (remove1 remove2 : String → Bool)
    (several : Bool) :
    ∀ (items removed : List Path) (msg_res : StandardButton) (s : Content)
      (log1 log2 : List (String × Bool)),
      (onFileDeleteLoop removeChild question remove1 several items removed msg_res s log1).map
          Prod.fst
        = (onFileDeleteLoop removeChild question remove2 several items removed msg_res s
          log2).map Prod.fst
  | [], _, _, _, _, _ => rfl
  | item0 :: items, removed, msg_res, s, log1, log2 => by
    simp only [onFileDeleteLoop]
    cases shiftPaths removed item0 with
    | none => rfl
    | some item =>
      simp only []
      cases getFileIndexFromTreeItem s.mTreeWidget (some item) with
      | none => rfl
      | some index =>
        simp only []
        by_cases hfile : index.type ≠ FileIndexType.FILE
        · rw [if_pos hfile, if_pos hfile]
          exact onFileDeleteLoop_state removeChild question remove1 remove2 several items
            removed msg_res s log1 log2
        · rw [if_neg hfile, if_neg hfile]
          generalize (if msg_res = StandardButton.No ∨ msg_res = StandardButton.Yes then
            question index.path several else msg_res) = m1
          by_cases h1 : m1 = StandardButton.NoToAll
          · rw [if_pos h1, if_pos h1]
            rfl
          · rw [if_neg h1, if_neg h1]
            by_cases h2 : m1 = StandardButton.No
            · rw [if_pos h2, if_pos h2]
              exact onFileDeleteLoop_state removeChild question remove1 remove2 several items
                removed _ s log1 log2
            · rw [if_neg h2, if_neg h2]
              generalize (match parent item with
                | none => some (removeChild s.mIndex index)
                | some parent =>
                  Option.map
                    (fun ks => IndexNode.modifyAt (fun pindex => removeChild pindex index) ks
                      s.mIndex)
                    (indexPathOf s.mIndex.mChildrenIndex s.mTreeWidget parent)) = mi
              cases mi with
              | none => rfl
              | some mIndex1 =>
                exact onFileDeleteLoop_state removeChild question remove1 remove2 several
                  items _ _ _ _ _

/-- The members after `onFileDelete` do not depend on what `QFile::remove` returns. -/
theorem onFileDelete_state (removeChild : IndexNode → FileIndex → IndexNode)
    (question : String → Bool → StandardButton) (remove1 remove2 : String → Bool)
    (s : Content) :
    (onFileDelete removeChild question remove1 s).map Prod.fst
      = (onFileDelete removeChild question remove2 s).map Prod.fst := by
  simp only [onFileDelete]
  split
  · rfl
  · exact onFileDeleteLoop_state removeChild question remove1 remove2 _ _ _ _ _ _ _

/-! ## The bound filters -/

theorem getElem?_expandAllL : ∀ (cs : List Item) (n : Nat),
    (expandAllL cs)[n]? = (cs[n]?).map Item.expandAll
  | [], n => by simp [expandAllL]
  | c :: cs, 0 => by simp [expandAllL]
  | c :: cs, n + 1 => by simpa [expandAllL] using getElem?_expandAllL cs n

theorem item_get_expandAll :
    ∀ (q : Path) (it : Item), (Item.expandAll it).get q = (it.get q).map Item.expandAll
  | [], it => rfl
  | j :: q, Item.mk idx hh e s cs => by
    simp only [Item.expandAll, Item.get, Item.children_mk, getElem?_expandAllL]
    cases hc : cs[j]? with
    | none => rfl
    | some c => exact item_get_expandAll q c

theorem getItem_expandAllL (w : TreeWidget) (q : Path) :
    getItem (expandAllL w) q = (getItem w q).map Item.expandAll := by
  cases q with
  | nil => rfl
  | cons j q =>
    simp only [getItem, getElem?_expandAllL]
    cases hc : w[j]? with
    | none => rfl
    | some c => exact item_get_expandAll q c

theorem hidden_expandAll (X : Item) : (Item.expandAll X).hidden = X.hidden := by
  cases X; rfl

/-- Below and at a `FILE` item for which `same_as_file` is set, and which has no `FILE` item
above it, an item is visible after filtering exactly when `is_filter` is set for the
`FILE` item. -/
theorem filterSpecL_blanket_file (w : TreeWidget) (f : filterFunc) (p : Path) (F : Item)
    (hF : getItem w p = some F) (hfile : F.index.type = FileIndexType.FILE)
    (hblanket : (f F.index).2 = true)
    (hanc : ∀ q ∈ p.inits, q ≠ p →
      (getItem w q).map (fun A => A.index.type) ≠ some FileIndexType.FILE)
    (r : Path) (D : Item) (hD : getItem (filterSpecL f w) (p ++ r) = some D) :
    D.hidden = false ↔ (f F.index).1 = true := by
  have hp : p ≠ [] := by
    rintro rfl
    simp [getItem] at hF
  rw [getItem_append p r hp, getItem_filterSpecL_noFile f w p F hF hanc] at hD
  simp only [Option.some_bind] at hD
  cases F with
  | mk idx hh e s cs =>
    simp only [Item.index_mk] at hfile hblanket ⊢
    rw [filterSpec_mk] at hD
    simp only [hfile, hblanket, and_self, if_true] at hD
    cases r with
    | nil =>
      simp only [Item.get, Option.some.injEq] at hD
      rw [← hD]
      simp only [Item.hidden_mk]
      rcases filterSpecL_const_any (f idx).1 cs with h | h
      · rw [h]
        cases (f idx).1 <;> simp
      · rw [h]
        simp
    | cons i r =>
      simp only [Item.get, Item.children_mk, getElem?_filterSpecL] at hD
      cases hc : cs[i]? with
      | none => simp [hc] at hD
      | some c =>
        simp only [hc, Option.map_some'] at hD
        have := filterSpec_const_get (f idx).1 r c D hD
        rw [this]
        cases (f idx).1 <;> simp

theorem onFilter_text (env : FilterEnv) (w : TreeWidget) (t : FilterType) (text : String)
    (htext : text ≠ "") :
    onFilter env w (some t) text
      = some (expandAllL (filterSpecL (filterFuncOf env t text) w)) := by
  simp only [onFilter, htext, if_false, filterItemBy_root]

/-- The bound filters set `same_as_file`. -/
theorem filterFuncOf_bound_blanket (env : FilterEnv) (t : FilterType) (text : String)
    (ht : t = FilterType.MTimeBe ∨ t = FilterType.MTimeLe ∨ t = FilterType.FileSizeBe
      ∨ t = FilterType.FileSizeLe) (a : FileIndex) :
    (filterFuncOf env t text a).2 = true := by
  rcases ht with h | h | h | h <;> subst h <;> rfl

/-- After `onFilter` with a bound filter and a text that is not empty, the items at and
below a `FILE` item that has no `FILE` item above it are visible exactly when the filter
function holds for the `FILE` item. -/
theorem onFilter_bound_visible (env : FilterEnv) (w : TreeWidget) (t : FilterType)
    (text : String) (htext : text ≠ "")
    (ht : t = FilterType.MTimeBe ∨ t = FilterType.MTimeLe ∨ t = FilterType.FileSizeBe
      ∨ t = FilterType.FileSizeLe) :
    ∃ w', onFilter env w (some t) text = some w' ∧
      ∀ (p : Path) (F : Item), getItem w p = some F → F.index.type = FileIndexType.FILE →
        (∀ q ∈ p.inits, q ≠ p →
          (getItem w q).map (fun A => A.index.type) ≠ some FileIndexType.FILE) →
        ∀ (r : Path) (D : Item), getItem w' (p ++ r) = some D →
          (D.hidden = false ↔ (filterFuncOf env t text F.index).1 = true) := by
  refine ⟨_, onFilter_text env w t text htext, ?_⟩
  intro p F hF hfile hanc r D hD
  rw [getItem_expandAllL] at hD
  cases hD0 : getItem (filterSpecL (filterFuncOf env t text) w) (p ++ r) with
  | none => simp [hD0] at hD
  | some D0 =>
    simp only [hD0, Option.map_some', Option.some.injEq] at hD
    rw [← hD, hidden_expandAll]
    exact filterSpecL_blanket_file w _ p F hF hfile
      (filterFuncOf_bound_blanket env t text ht F.index) hanc r D0 hD0

/-- Whatever number `toMSecsSinceEpoch ()` yields for a text that is not a date, a file with
that modification time is matched by both modified-time filters and is visible afterwards. -/
theorem onFilter_invalid_date_matches (env : FilterEnv) (text : String) (htext : text ≠ "")
    (hbad : env.fromString text = none) (t : FilterType)
    (ht : t = FilterType.MTimeBe ∨ t = FilterType.MTimeLe) :
    (onFilter env [mkItem (mkIndex FileIndexType.FILE "f" env.invalidMSecs 0) []]
      (some t) text).map (List.map Item.hidden) = some [false] := by
  rw [onFilter_text env _ t text htext]
  rcases ht with h | h <;> subst h <;>
    simp [filterSpecL, filterSpec, filterFuncOf, toMSecsSinceEpoch, hbad, mkIndex, mkItem,
      expandAllL, Item.expandAll]

/-- C17 (as amended). A bound that is not a date is not rejected, and the date filters do
not fail closed.  For a text that `QDateTime::fromString` does not parse, `onFilter` returns,
and the items at and below a `FILE` item that has no `FILE` item above it are visible
exactly when the modification time of the `FILE` item is at least, for `Modified Time >=`,
or at most, for `Modified Time <=`, the number that `toMSecsSinceEpoch ()` yields for the
invalid date.  The size filters use the number that `parseFormattedDataSize` yields for the
text in the same way, without a test of the text; what that function yields for a text that
is not a size is decided outside `ApvlvContent.cc`. -/
theorem onFilter_malformed_bound_not_rejected (env : FilterEnv) (w : TreeWidget)
    (text : String) (htext : text ≠ "") :
    (env.fromString text = none →
        (∃ w', onFilter env w (some FilterType.MTimeBe) text = some w' ∧
          FilesShownBy w w' (fun a => a.mtime ≥ env.invalidMSecs)) ∧
        (∃ w', onFilter env w (some FilterType.MTimeLe) text = some w' ∧
          FilesShownBy w w' (fun a => a.mtime ≤ env.invalidMSecs))) ∧
      (∃ w', onFilter env w (some FilterType.FileSizeBe) text = some w' ∧
        FilesShownBy w w'
          (fun a => (a.size : Int) ≥ env.castSize (env.parseFormattedDataSize text))) ∧
      (∃ w', onFilter env w (some FilterType.FileSizeLe) text = some w' ∧
        FilesShownBy w w'
          (fun a => (a.size : Int) ≤ env.castSize (env.parseFormattedDataSize text))) := by
  refine ⟨fun hbad => ⟨?_, ?_⟩, ?_, ?_⟩
  · obtain ⟨w', h1, h2⟩ := onFilter_bound_visible env w FilterType.MTimeBe text htext
      (Or.inl rfl)
    refine ⟨w', h1, fun p F hF hfile hanc r D hD => ?_⟩
    rw [h2 p F hF hfile hanc r D hD]
    simp [filterFuncOf, toMSecsSinceEpoch, hbad, hfile]
  · obtain ⟨w', h1, h2⟩ := onFilter_bound_visible env w FilterType.MTimeLe text htext
      (Or.inr (Or.inl rfl))
    refine ⟨w', h1, fun p F hF hfile hanc r D hD => ?_⟩
    rw [h2 p F hF hfile hanc r D hD]
    simp [filterFuncOf, toMSecsSinceEpoch, hbad, hfile]
  · obtain ⟨w', h1, h2⟩ := onFilter_bound_visible env w FilterType.FileSizeBe text htext
      (Or.inr (Or.inr (Or.inl rfl)))
    refine ⟨w', h1, fun p F hF hfile hanc r D hD => ?_⟩
    rw [h2 p F hF hfile hanc r D hD]
    simp [filterFuncOf, hfile]
  · obtain ⟨w', h1, h2⟩ := onFilter_bound_visible env w FilterType.FileSizeLe text htext
      (Or.inr (Or.inr (Or.inr rfl)))
    refine ⟨w', h1, fun p F hF hfile hanc r D hD => ?_⟩
    rw [h2 p F hF hfile hanc r D hD]
    simp [filterFuncOf, hfile]

/-! ## Evaluations of the code -/

/-- C2. With `mSortAscending` set, `sortItems` by modification time puts `B` (200) before
`A` (100): the order is descending, where the claim has `[A, B]`.  With the flag cleared
the order is `[A, B]`. -/
theorem sortItems_ascending_flag_gives_descending :
    (sortItems insertionSortRoutine Column.MTime true treeAB []).map
        (List.map (fun c => c.index.title)) = some ["B", "A"] ∧
      (sortItems insertionSortRoutine Column.MTime false treeAB []).map
        (List.map (fun c => c.index.title)) = some ["A", "B"] := by
  decide

/-- C4. The directory `D1` is the only child of `D0`, so `D0` is never pushed on `needSort`
and the children of `D1` are never looked at: after `sortItems`, in either direction, the
modification times below the directory `D1` are still `2, 1, 3`, which is monotone in
neither direction. -/
theorem sortItems_skips_below_single_child :
    (getItem treeChain [0, 0]).map (fun it => it.index.type) = some FileIndexType.DIR ∧
      (sortItems insertionSortRoutine Column.MTime true treeChain []).map
        (fun w => (childrenOf w [0, 0]).map (fun c => c.index.mtime)) = some [2, 1, 3] ∧
      (sortItems insertionSortRoutine Column.MTime false treeChain []).map
        (fun w => (childrenOf w [0, 0]).map (fun c => c.index.mtime)) = some [2, 1, 3] ∧
      ¬ ([2, 1, 3] : List Int).Pairwise (fun a b => a ≤ b) ∧
      ¬ ([2, 1, 3] : List Int).Pairwise (fun a b => a ≥ b) := by
  decide

/-- C6. The tree holds the file `report.pdf` with a page entry for page 3 and nothing is
selected, yet the search of `setCurrentIndex` for `("report.pdf", 3, "")` finds nothing
and the call returns `false`: both searches from the invisible root return null at once. -/
theorem setCurrentIndex_misses_page :
    (getItem treeReport [0, 0]).map (fun it => (it.index.type, it.index.page))
        = some (FileIndexType.PAGE, 3) ∧
      (treeItemToFileIndex treeReport 3 (some [0, 0])).map (fun i => i.path)
        = some "report.pdf" ∧
      selectedTreeItem treeReport = none ∧
      findTreeWidgetItem treeReport (some []) FileIndexType.PAGE "report.pdf" 3 "" = none ∧
      setCurrentIndexFind treeReport "report.pdf" 3 "" = none ∧
      (setCurrentIndex treeReport "report.pdf" 3 "").map Prod.snd = some false := by
  decide

/-- C8. The selected item `B` is the last child of its parent and is expanded;
`scrollDown (1)` selects it again and thereby collapses it, so the state changes. -/
theorem scrollDown_last_collapses :
    selectedTreeItem treeLastExpanded = some [1] ∧
      childCount treeLastExpanded [] = 2 ∧
      treeLastExpanded.map Item.expanded = [false, true] ∧
      (scrollDown treeLastExpanded 1).map (List.map Item.expanded) = some [false, false] ∧
      (scrollDown treeLastExpanded 1).map selectedTreeItem = some (some [1]) := by
  decide

/-- C15. The index of the directory `docs` is set, `selectFirstItem` selects `b.pdf`, and
`b.pdf` is deleted: the tree then holds `a.pdf` and nothing is selected.  In this state
`setIndex` with the index of the file `a.pdf` has no result: `currentItemFileIndex ()` is
null and `cur_index->type` is read. -/
theorem setIndex_fails_without_selection :
    contentDocs.map Content.view = some (["a.pdf", "b.pdf"], ["b.pdf", "a.pdf"], some [0]) ∧
      contentDeleted.map (fun r => r.1.view) = some (["a.pdf"], ["a.pdf"], none) ∧
      indexFileA.entry.type = FileIndexType.FILE ∧
      (contentDeleted.bind
        (fun r => setIndex insertionSortRoutine takeChildren r.1 indexFileA)).isNone = true := by
  decide

/-- C16. The selected file `b.pdf` is deleted with the answer `Yes` and `QFile::remove`
returns `false`: the call of `QFile::remove` comes last and its result is not looked at, so
`b.pdf` is gone from the index tree and from the widget all the same. -/
theorem onFileDelete_ignores_failure :
    contentDocs.map Content.view = some (["a.pdf", "b.pdf"], ["b.pdf", "a.pdf"], some [0]) ∧
      contentDeleted.map (fun r => r.2) = some [("b.pdf", false)] ∧
      contentDeleted.map (fun r => r.1.view) = some (["a.pdf"], ["a.pdf"], none) := by
  decide

/-- C17. The text `soon` is not a date.  With the filter `Modified Time >=` and this text,
`onFilter` leaves the directory `docs` and its three files visible, where the claim has
every item hidden. -/
theorem onFilter_malformed_date_shows_files :
    envNoDates.fromString "soon" = none ∧
      (onFilter envNoDates treeThreeFiles (some FilterType.MTimeBe) "soon").map
        (fun w => (w.map Item.hidden, (childrenOf w [0]).map Item.hidden))
        = some ([false], [false, false, false]) := by
  decide

/-- C13. The directory `A` of `treeAB` is collapsed; after `setItemSelected` it is still
collapsed, where the claim has it expanded. -/
theorem setItemSelected_keeps_collapsed_item :
    (getItem treeAB [0]).map Item.expanded = some false ∧
      ((setItemSelected treeAB (some [0])).bind (fun w => getItem w [0])).map Item.expanded
        = some false := by
  decide

/-- C21. The bound is the date 1000 seconds after the epoch.  A file modified 2000 seconds
after the epoch is not matched by `Modified Time >=` and is matched by
`Modified Time <=`, and a file modified at the very instant of the bound is not matched by
`Modified Time >=`: `mtime` counts seconds and is compared with milliseconds. -/
theorem onFilter_mtime_compares_seconds_with_msecs :
    envSecs1000.fromString "Thu Jan 1 00:16:40 1970" = some (1000 * 1000) ∧
      (filterFuncOf envSecs1000 FilterType.MTimeBe "Thu Jan 1 00:16:40 1970"
        (mkIndex FileIndexType.FILE "f" 2000 0)).1 = false ∧
      (filterFuncOf envSecs1000 FilterType.MTimeLe "Thu Jan 1 00:16:40 1970"
        (mkIndex FileIndexType.FILE "f" 2000 0)).1 = true ∧
      fromSecsSinceEpoch (mkIndex FileIndexType.FILE "g" 1000 0).mtime = 1000 * 1000 ∧
      (filterFuncOf envSecs1000 FilterType.MTimeBe "Thu Jan 1 00:16:40 1970"
        (mkIndex FileIndexType.FILE "g" 1000 0)).1 = false ∧
      (onFilter envSecs1000 [mkItem (mkIndex FileIndexType.FILE "f" 2000 0) []]
        (some FilterType.MTimeBe) "Thu Jan 1 00:16:40 1970").map (List.map Item.hidden)
        = some [true] := by
  decide

/-- C23. The index of the file `a.pdf` is set on the empty widget: the top-level items are
its two pages, a well-formed tree in which no item is of kind `FILE`.  The search for page
1 of `other.pdf` from the first item returns that item: without an item of kind `FILE` at
or above the page, `findTreeWidgetItem` does not compare the path. -/
theorem findTreeWidgetItem_ignores_path_without_file :
    (setIndex insertionSortRoutine takeChildren contentEmpty indexFileA).map
        (fun s => (s.mIndex.entry.path, wellFormedL s.mTreeWidget,
          s.mTreeWidget.map (fun c => (c.index.type, c.index.page))))
        = some ("a.pdf", true, [(FileIndexType.PAGE, 1), (FileIndexType.PAGE, 5)]) ∧
      (setIndex insertionSortRoutine takeChildren contentEmpty indexFileA).map
        (fun s => treeItemToFileIndex s.mTreeWidget 2 (some [0])) = some none ∧
      (setIndex insertionSortRoutine takeChildren contentEmpty indexFileA).map
        (fun s => findTreeWidgetItem s.mTreeWidget (some [0]) FileIndexType.PAGE
          "other.pdf" 1 "") = some (some [0]) := by
  decide

/-- Witness for C10: the file `paper.pdf` below the directory `docs`, filtered by
`filterFiles`; its page entries do not match on their own and are visible all the same. -/
theorem filterItemBy_blanket_witness :
    getItem treePaper [0, 0] = some itemPaper ∧
      itemPaper.index.type = FileIndexType.FILE ∧
      (filterFiles itemPaper.index).2 = true ∧
      (∃ w', filterItemBy treePaper [] filterFiles = some w' ∧
        ∀ (r : Path) (D : Item), r ≠ [] → getItem w' ([0, 0] ++ r) = some D →
          (D.hidden = false ↔ (filterFiles itemPaper.index).1 = true)) :=
  ⟨rfl, by decide, by decide,
    filterItemBy_blanket treePaper filterFiles [0, 0] itemPaper rfl (by decide) (by decide)
      (by decide)⟩

/-- Witness for C9: the selected page entry has two ancestors; `scrollLeft (5)` selects the
top-level directory. -/
theorem scrollLeft_climbs_witness :
    (1 : Int) ≤ 5 ∧ selectedTreeItem treeSelectedPage = some [0, 0, 1] ∧
      (([0, 0, 1] : Path).length ≤ 1 → scrollLeft treeSelectedPage 5 = some treeSelectedPage) ∧
      (2 ≤ ([0, 0, 1] : Path).length → ∃ w', scrollLeft treeSelectedPage 5 = some w' ∧
        selectedTreeItem w' = some (([0, 0, 1] : Path).take
          (([0, 0, 1] : Path).length - min (5 : Int).toNat (([0, 0, 1] : Path).length - 1))) ∧
        eraseFlagsL w' = eraseFlagsL treeSelectedPage) :=
  ⟨by decide, by decide, scrollLeft_climbs treeSelectedPage [0, 0, 1] 5 (by decide) (by decide)⟩

/-- Witness for C4: in `treeDeep` the directory `D1` lies below `D0`, which has two children;
sorting by modification time puts the files of `D1` in the order 1, 2, 3. -/
theorem sortItems_sorts_reached_levels_witness :
    IsStdSort insertionSortRoutine ∧
      (∃ w1, sortItems insertionSortRoutine Column.MTime false treeDeep [] = some w1 ∧
        (w1.filter (fun c => decide (c.index.type ≠ FileIndexType.PAGE))).Pairwise
          (fun a b => compItems Column.MTime false b a = false) ∧
        ∀ (p : Path) (A : Item), getItem w1 p = some A →
          (∀ (q : Path) (B : Item), q ≠ [] → q <+: p → getItem w1 q = some B →
            B.index.type = FileIndexType.DIR ∧ 1 < B.children.length) →
          (A.children.filter (fun c => decide (c.index.type ≠ FileIndexType.PAGE))).Pairwise
            (fun a b => compItems Column.MTime false b a = false)) ∧
      (sortItems insertionSortRoutine Column.MTime false treeDeep []).map
        (fun w => ((getItem w [0]).map (fun it => it.index.title),
          (getItem w [0, 0]).map (fun it => it.index.title),
          (childrenOf w [0, 0]).map (fun c => c.index.mtime)))
        = some (some "D0", some "D1", [1, 2, 3]) :=
  ⟨isStdSort_insertionSortRoutine,
    sortItems_sorts_reached_levels insertionSortRoutine isStdSort_insertionSortRoutine
      Column.MTime false treeDeep,
    by decide⟩

/-! ## What sorting keeps -/

theorem forall₂_map_of_mem {α β : Type} (R : α → β → Prop) (g : α → β) :
    ∀ l : List α, (∀ c ∈ l, R c (g c)) → List.Forall₂ R l (l.map g)
  | [], _ => List.Forall₂.nil
  | a :: l, h =>
    List.Forall₂.cons (h a (by simp))
      (forall₂_map_of_mem R g l (fun c hc => h c (by simp [hc])))

theorem reordered_refl : ∀ a : Item, Reordered a a
  | Item.mk i h e s cs => by
    refine Reordered.node i h e s cs cs cs ?_ (List.Perm.refl _)
    have hm := forall₂_map_of_mem Reordered id cs (fun c hc => by
      have : sizeOf c < sizeOf (Item.mk i h e s cs) := by
        have := List.sizeOf_lt_of_mem hc
        simp only [Item.mk.sizeOf_spec]
        omega
      exact reordered_refl c)
    simpa using hm
termination_by a => sizeOf a

/-- The tree a pass of `sortItems` leaves is the tree of before with siblings reordered. -/
theorem reordered_sortSpecL (srt : SortRoutine) (hs : IsStdSort srt) (col : Column)
    (asc : Bool) :
    ∀ (k : Nat) (cs : List Item),
      ∃ l, List.Forall₂ Reordered cs l ∧ l.Perm (sortSpecL srt col asc k cs)
  | 0, cs =>
    ⟨cs, by simpa using forall₂_map_of_mem Reordered id cs (fun c _ => reordered_refl c),
      List.Perm.refl _⟩
  | k + 1, cs => by
    refine ⟨cs.map (fun c => if needsSort c = true
        then c.setChildren (sortSpecL srt col asc k c.children) else c), ?_, ?_⟩
    · apply forall₂_map_of_mem
      intro c _
      split
      · obtain ⟨l, hl, hp⟩ := reordered_sortSpecL srt hs col asc k c.children
        cases c with
        | mk i h e s ds => exact Reordered.node i h e s ds l _ hl hp
      · exact reordered_refl c
    · simp only [sortSpecL]
      exact (levelSpec_perm srt hs col asc cs).symm.map _

theorem pagesKept_refl : ∀ a : Item, PagesKept a a
  | Item.mk i h e s cs => by
    refine PagesKept.node i h e s cs cs cs ?_ (List.Perm.refl _) rfl (fun _ => rfl)
    have hm := forall₂_map_of_mem PagesKept id cs (fun c hc => by
      have : sizeOf c < sizeOf (Item.mk i h e s cs) := by
        have := List.sizeOf_lt_of_mem hc
        simp only [Item.mk.sizeOf_spec]
        omega
      exact pagesKept_refl c)
    simpa using hm
termination_by a => sizeOf a

/-- One pass of `sortItems` over a list of siblings leaves its pages as they are. -/
theorem filter_page_sortSpecL (srt : SortRoutine) (hs : IsStdSort srt) (col : Column)
    (asc : Bool) (k : Nat) (cs : List Item) :
    (sortSpecL srt col asc k cs).filter (fun c => decide (c.index.type = FileIndexType.PAGE))
      = cs.filter (fun c => decide (c.index.type = FileIndexType.PAGE)) := by
  cases k with
  | zero => rfl
  | succ k =>
    have hperm := hs.perm (sortComp col asc) (itemList cs.enum)
    have hidx : ∀ c : Item,
        (if needsSort c = true then c.setChildren (sortSpecL srt col asc k c.children)
          else c).index = c.index := by
      intro c
      split
      · cases c; rfl
      · rfl
    simp only [sortSpecL, levelSpec, List.map_append, List.filter_append]
    have hS : (((srt (sortComp col asc) (itemList cs.enum)).map (fun p => p.1.2)).map
          (fun c => if needsSort c = true
            then c.setChildren (sortSpecL srt col asc k c.children) else c)).filter
          (fun c => decide (c.index.type = FileIndexType.PAGE)) = [] := by
      apply List.filter_eq_nil_iff.mpr
      intro a ha
      obtain ⟨c, hc, rfl⟩ := List.mem_map.mp ha
      obtain ⟨p, hp, rfl⟩ := List.mem_map.mp hc
      rw [hidx]
      simpa using ((mem_itemList cs.enum p).mp (hperm.subset hp)).2.1
    have hP : ((cs.filter (fun c => decide (c.index.type = FileIndexType.PAGE))).map
          (fun c => if needsSort c = true
            then c.setChildren (sortSpecL srt col asc k c.children) else c)).filter
          (fun c => decide (c.index.type = FileIndexType.PAGE))
        = cs.filter (fun c => decide (c.index.type = FileIndexType.PAGE)) := by
      have hid : (cs.filter (fun c => decide (c.index.type = FileIndexType.PAGE))).map
          (fun c => if needsSort c = true
            then c.setChildren (sortSpecL srt col asc k c.children) else c)
          = cs.filter (fun c => decide (c.index.type = FileIndexType.PAGE)) := by
        conv_rhs => rw [← List.map_id (cs.filter _)]
        apply List.map_congr_left
        intro c hc
        have hpage : c.index.type = FileIndexType.PAGE := by
          simpa using (List.mem_filter.mp hc).2
        have hns : needsSort c = false := by
          simp [needsSort, hpage]
        simp [hns]
      rw [hid, List.filter_filter]
      simp
    rw [hS, hP, List.nil_append]

theorem mem_sortSpecL_index (srt : SortRoutine) (hs : IsStdSort srt) (col : Column)
    (asc : Bool) (k : Nat) (cs : List Item) (d : Item)
    (hd : d ∈ sortSpecL srt col asc k cs) : ∃ c, c ∈ cs ∧ d.index = c.index := by
  cases k with
  | zero => exact ⟨d, hd, rfl⟩
  | succ k =>
    simp only [sortSpecL] at hd
    obtain ⟨c, hc, rfl⟩ := List.mem_map.mp hd
    refine ⟨c, (levelSpec_perm srt hs col asc cs).subset hc, ?_⟩
    split
    · cases c; rfl
    · rfl

theorem pagesKept_sortSpecL (srt : SortRoutine) (hs : IsStdSort srt) (col : Column)
    (asc : Bool) :
    ∀ (k : Nat) (cs : List Item),
      ∃ l, List.Forall₂ PagesKept cs l ∧ l.Perm (sortSpecL srt col asc k cs)
  | 0, cs =>
    ⟨cs, by simpa using forall₂_map_of_mem PagesKept id cs (fun c _ => pagesKept_refl c),
      List.Perm.refl _⟩
  | k + 1, cs => by
    refine ⟨cs.map (fun c => if needsSort c = true
        then c.setChildren (sortSpecL srt col asc k c.children) else c), ?_, ?_⟩
    · apply forall₂_map_of_mem
      intro c _
      split
      · obtain ⟨l, hl, hp⟩ := pagesKept_sortSpecL srt hs col asc k c.children
        cases c with
        | mk i h e s ds =>
          refine PagesKept.node i h e s ds l _ hl hp
            (filter_page_sortSpecL srt hs col asc k ds) ?_
          intro hall
          have h1 := filter_page_sortSpecL srt hs col asc k ds
          have h2 : ds.filter (fun c => decide (c.index.type = FileIndexType.PAGE)) = ds :=
            List.filter_eq_self.mpr (fun c hc => by simpa using hall c hc)
          have h3 : (sortSpecL srt col asc k ds).filter
              (fun c => decide (c.index.type = FileIndexType.PAGE))
              = sortSpecL srt col asc k ds := by
            apply List.filter_eq_self.mpr
            intro d hd
            obtain ⟨c, hc, hcd⟩ := mem_sortSpecL_index srt hs col asc k ds d hd
            rw [hcd]
            simpa using hall c hc
          show sortSpecL srt col asc k ds = ds
          rw [← h3, h1, h2]
      · exact pagesKept_refl c
    · simp only [sortSpecL]
      exact (levelSpec_perm srt hs col asc cs).symm.map _

/-- C19. The order of pages does not change under `sortItems`.  For a sort routine that meets
the contract of `std::ranges::sort` the call returns; at the top level and at every item
the children of kind `PAGE` are the same sequence as before, and where all children of an
item are of kind `PAGE` the list of its children is the same as before, so that every page
has the index it had. -/
theorem sortItems_keeps_pages (srt : SortRoutine) (hs : IsStdSort srt) (col : Column)
    (asc : Bool) (w : TreeWidget) :
    ∃ w1, sortItems srt col asc w [] = some w1 ∧
      w1.filter (fun c => decide (c.index.type = FileIndexType.PAGE))
        = w.filter (fun c => decide (c.index.type = FileIndexType.PAGE)) ∧
      ((∀ c ∈ w, c.index.type = FileIndexType.PAGE) → w1 = w) ∧
      ∃ l, List.Forall₂ PagesKept w l ∧ l.Perm w1 := by
  refine ⟨_, sortItems_root srt hs col asc w,
    filter_page_sortSpecL srt hs col asc _ w, ?_,
    pagesKept_sortSpecL srt hs col asc _ w⟩
  intro hall
  have h1 := filter_page_sortSpecL srt hs col asc (Item.sizeL w) w
  have h2 : w.filter (fun c => decide (c.index.type = FileIndexType.PAGE)) = w :=
    List.filter_eq_self.mpr (fun c hc => by simpa using hall c hc)
  have h3 : (sortSpecL srt col asc (Item.sizeL w) w).filter
      (fun c => decide (c.index.type = FileIndexType.PAGE))
      = sortSpecL srt col asc (Item.sizeL w) w := by
    apply List.filter_eq_self.mpr
    intro d hd
    obtain ⟨c, hc, hcd⟩ := mem_sortSpecL_index srt hs col asc _ w d hd
    rw [hcd]
    simpa using hall c hc
  rw [← h3, h1, h2]

/-! ## The full rebuild -/

mutual
theorem freshMirror_setIndexUnder : ∀ n : IndexNode, FreshMirror n (setIndexUnder n)
  | IndexNode.mk entry ns => by
    simp only [setIndexUnder]
    exact FreshMirror.node entry ns _ _ (freshMirror_setIndexUnderL ns) (List.Perm.refl _)
theorem freshMirror_setIndexUnderL :
    ∀ ns : List IndexNode, List.Forall₂ FreshMirror ns (setIndexUnderL ns)
  | [] => by
    simp only [setIndexUnderL]
    exact List.Forall₂.nil
  | n :: ns => by
    simp only [setIndexUnderL]
    exact List.Forall₂.cons (freshMirror_setIndexUnder n) (freshMirror_setIndexUnderL ns)
end

theorem forall₂_setIndexUnderL_map (g : Item → Item) :
    ∀ ns : List IndexNode, (∀ n ∈ ns, FreshMirror n (g (setIndexUnder n))) →
      List.Forall₂ FreshMirror ns ((setIndexUnderL ns).map g)
  | [], _ => by
    simp only [setIndexUnderL, List.map_nil]
    exact List.Forall₂.nil
  | n :: ns, h => by
    simp only [setIndexUnderL, List.map_cons]
    exact List.Forall₂.cons (h n (by simp))
      (forall₂_setIndexUnderL_map g ns (fun m hm => h m (by simp [hm])))

/-- The items made for the children of an index object, after a pass of `sortItems`, are
new items for these children, in some order. -/
theorem freshMirror_sortSpecL (srt : SortRoutine) (hs : IsStdSort srt) (col : Column)
    (asc : Bool) :
    ∀ (k : Nat) (ns : List IndexNode),
      ∃ l, List.Forall₂ FreshMirror ns l ∧
        l.Perm (sortSpecL srt col asc k (setIndexUnderL ns))
  | 0, ns => ⟨_, freshMirror_setIndexUnderL ns, List.Perm.refl _⟩
  | k + 1, ns => by
    refine ⟨(setIndexUnderL ns).map (fun c => if needsSort c = true
        then c.setChildren (sortSpecL srt col asc k c.children) else c), ?_, ?_⟩
    · apply forall₂_setIndexUnderL_map
      intro n _
      split
      · cases n with
        | mk entry cs =>
          obtain ⟨l, hl, hp⟩ := freshMirror_sortSpecL srt hs col asc k cs
          simp only [setIndexUnder, Item.setChildren_mk, Item.children_mk]
          exact FreshMirror.node entry cs l _ hl hp
      · exact freshMirror_setIndexUnder n
    · simp only [sortSpecL]
      exact (levelSpec_perm srt hs col asc _).symm.map _

/-- C20. The full rebuild makes a mirror of the index.  When the widget is empty or the new
index is a directory, `setIndex` returns for every sort routine that meets the contract of
`std::ranges::sort`; afterwards `mIndex` is the new index and the top-level items are, in
some order, new items for the children of the index, one for each, and so on below every
item; the result does not depend on the items the widget held before. -/
theorem setIndex_full_rebuild_mirrors (srt : SortRoutine) (hs : IsStdSort srt)
    (moveChildChildren : IndexNode → IndexNode → IndexNode) (s : Content) (index : IndexNode)
    (hfull : s.mTreeWidget.length = 0 ∨ index.entry.type = FileIndexType.DIR) :
    ∃ s1, setIndex srt moveChildChildren s index = some s1 ∧ s1.mIndex = index ∧
      (∃ l, List.Forall₂ FreshMirror index.mChildrenIndex l ∧ l.Perm s1.mTreeWidget) ∧
      setIndex srt moveChildChildren { s with mTreeWidget := [] } index = some s1 := by
  obtain ⟨l, hl, hp⟩ := freshMirror_sortSpecL srt hs s.mSortColumn s.mSortAscending
    (Item.sizeL (setIndexUnderL index.mChildrenIndex)) index.mChildrenIndex
  have h : setIndex srt moveChildChildren s index = some { s with
      mIndex := index
      mTreeWidget := sortSpecL srt s.mSortColumn s.mSortAscending
        (Item.sizeL (setIndexUnderL index.mChildrenIndex))
        (setIndexUnderL index.mChildrenIndex) } := by
    simp only [setIndex, hfull, if_true, refreshIndex, sortItemsOn, sortItems_root srt hs]
  have h' : setIndex srt moveChildChildren { s with mTreeWidget := [] } index = some { s with
      mIndex := index
      mTreeWidget := sortSpecL srt s.mSortColumn s.mSortAscending
        (Item.sizeL (setIndexUnderL index.mChildrenIndex))
        (setIndexUnderL index.mChildrenIndex) } := by
    simp only [setIndex, List.length_nil, true_or, if_true, refreshIndex, sortItemsOn,
      sortItems_root srt hs]
  exact ⟨_, h, rfl, ⟨l, hl, hp⟩, h'⟩

/-- Witness for C13: the expanded directory `B` of `treeLastExpanded` is collapsed by
`setItemSelected`. -/
theorem setItemSelected_leaves_collapsed_witness :
    (getItem treeLastExpanded [1]).map Item.expanded = some true ∧
      ∃ w' Y, setItemSelected treeLastExpanded (some [1]) = some w' ∧
        getItem w' [1] = some Y ∧ Y.expanded = false :=
  ⟨by decide, setItemSelected_leaves_collapsed treeLastExpanded [1] _ rfl⟩

/-- Witness for C17: the text `soon` is not a date; with `toMSecsSinceEpoch ()` yielding 0
for it, `Modified Time >=` leaves the three files of `treeThreeFiles` visible and
`Modified Time <=` hides them. -/
theorem onFilter_malformed_bound_not_rejected_witness :
    "soon" ≠ "" ∧ envNoDates.fromString "soon" = none ∧
      ((envNoDates.fromString "soon" = none →
          (∃ w', onFilter envNoDates treeThreeFiles (some FilterType.MTimeBe) "soon" = some w' ∧
            FilesShownBy treeThreeFiles w' (fun a => a.mtime ≥ envNoDates.invalidMSecs)) ∧
          (∃ w', onFilter envNoDates treeThreeFiles (some FilterType.MTimeLe) "soon" = some w' ∧
            FilesShownBy treeThreeFiles w' (fun a => a.mtime ≤ envNoDates.invalidMSecs))) ∧
        (∃ w', onFilter envNoDates treeThreeFiles (some FilterType.FileSizeBe) "soon"
            = some w' ∧
          FilesShownBy treeThreeFiles w'
            (fun a => (a.size : Int)
              ≥ envNoDates.castSize (envNoDates.parseFormattedDataSize "soon"))) ∧
        (∃ w', onFilter envNoDates treeThreeFiles (some FilterType.FileSizeLe) "soon"
            = some w' ∧
          FilesShownBy treeThreeFiles w'
            (fun a => (a.size : Int)
              ≤ envNoDates.castSize (envNoDates.parseFormattedDataSize "soon")))) ∧
      (onFilter envNoDates treeThreeFiles (some FilterType.MTimeBe) "soon").map
        (fun w => (childrenOf w [0]).map Item.hidden) = some [false, false, false] ∧
      (onFilter envNoDates treeThreeFiles (some FilterType.MTimeLe) "soon").map
        (fun w => (childrenOf w [0]).map Item.hidden) = some [true, true, true] :=
  ⟨by decide, by decide,
    onFilter_malformed_bound_not_rejected envNoDates treeThreeFiles "soon" (by decide),
    by decide, by decide⟩

/-- Witness for C19: the pages of `paper.pdf` keep their places when `treeSelectedPage` is
sorted. -/
theorem sortItems_keeps_pages_witness :
    IsStdSort insertionSortRoutine ∧
      (∃ w1, sortItems insertionSortRoutine Column.MTime true treeSelectedPage [] = some w1 ∧
        w1.filter (fun c => decide (c.index.type = FileIndexType.PAGE))
          = treeSelectedPage.filter (fun c => decide (c.index.type = FileIndexType.PAGE)) ∧
        ((∀ c ∈ treeSelectedPage, c.index.type = FileIndexType.PAGE) →
          w1 = treeSelectedPage) ∧
        ∃ l, List.Forall₂ PagesKept treeSelectedPage l ∧ l.Perm w1) ∧
      (sortItems insertionSortRoutine Column.MTime true treeSelectedPage []).map
        (fun w => (childrenOf w [0, 0]).map (fun c => c.index.title))
        = some ["Introduction", "Results"] :=
  ⟨isStdSort_insertionSortRoutine,
    sortItems_keeps_pages insertionSortRoutine isStdSort_insertionSortRoutine Column.MTime
      true treeSelectedPage,
    by decide⟩

/-- Witness for C20: `setIndex (indexDocs)` on the empty widget makes an item for each of
the two files. -/
theorem setIndex_full_rebuild_mirrors_witness :
    IsStdSort insertionSortRoutine ∧
      (contentEmpty.mTreeWidget.length = 0 ∨ indexDocs.entry.type = FileIndexType.DIR) ∧
      (∃ s1, setIndex insertionSortRoutine takeChildren contentEmpty indexDocs = some s1 ∧
        s1.mIndex = indexDocs ∧
        (∃ l, List.Forall₂ FreshMirror indexDocs.mChildrenIndex l ∧
          l.Perm s1.mTreeWidget) ∧
        setIndex insertionSortRoutine takeChildren
          { contentEmpty with mTreeWidget := [] } indexDocs = some s1) ∧
      (setIndex insertionSortRoutine takeChildren contentEmpty indexDocs).map
        (fun s => s.mTreeWidget.map (fun c => c.index.title)) = some ["b.pdf", "a.pdf"] :=
  ⟨isStdSort_insertionSortRoutine, Or.inl rfl,
    setIndex_full_rebuild_mirrors insertionSortRoutine isStdSort_insertionSortRoutine
      takeChildren contentEmpty indexDocs (Or.inl rfl),
    by decide⟩

/-! ## The unit of the modified-time filters -/

/-- For a text that is the date `t` seconds after the epoch, the modified-time filters
compare `mtime`, which counts seconds, with `1000 * t`, the milliseconds of the date. -/
theorem filterFuncOf_mtime_msecs (env : FilterEnv) (text : String) (t : Int)
    (hdate : env.fromString text = some (1000 * t)) (a : FileIndex) :
    ((filterFuncOf env FilterType.MTimeBe text a).1 = true ↔
        a.type = FileIndexType.FILE ∧ a.mtime ≥ 1000 * t) ∧
      ((filterFuncOf env FilterType.MTimeLe text a).1 = true ↔
        a.type = FileIndexType.FILE ∧ a.mtime ≤ 1000 * t) := by
  simp [filterFuncOf, toMSecsSinceEpoch, hdate]

/-! ## Filtering without `same_as_file` -/

theorem filterSpec_noblanket_mk (f : filterFunc) (hnb : ∀ a, (f a).2 = false)
    (idx : FileIndex) (h e s : Bool) (cs : List Item) :
    filterSpec f (Item.mk idx h e s cs)
      = Item.mk idx (!((f idx).1 || anyVisible (filterSpecL f cs))) e s (filterSpecL f cs) := by
  rw [filterSpec_mk]
  simp only [hnb, Bool.false_eq_true, and_false, if_false]

mutual
theorem hidden_filterSpec_noblanket (f : filterFunc) (hnb : ∀ a, (f a).2 = false) :
    ∀ X : Item, (filterSpec f X).hidden = !(Item.anyMatch f X)
  | Item.mk idx h e s cs => by
    rw [filterSpec_noblanket_mk f hnb]
    simp only [Item.hidden_mk, Item.anyMatch, anyVisible_filterSpecL_noblanket f hnb cs]
theorem anyVisible_filterSpecL_noblanket (f : filterFunc) (hnb : ∀ a, (f a).2 = false) :
    ∀ cs : List Item, anyVisible (filterSpecL f cs) = anyMatchL f cs
  | [] => by simp [filterSpecL, anyVisible, anyMatchL]
  | c :: cs => by
    have h1 := hidden_filterSpec_noblanket f hnb c
    have h2 := anyVisible_filterSpecL_noblanket f hnb cs
    simp only [anyVisible] at h2 ⊢
    simp only [filterSpecL, List.any_cons, h1, h2, anyMatchL, Bool.not_not]
end

theorem item_get_filterSpec_noblanket (f : filterFunc) (hnb : ∀ a, (f a).2 = false) :
    ∀ (r : Path) (X : Item), (filterSpec f X).get r = (X.get r).map (filterSpec f)
  | [], X => rfl
  | i :: r, Item.mk idx h e s cs => by
    rw [filterSpec_noblanket_mk f hnb]
    simp only [Item.get, Item.children_mk, getElem?_filterSpecL]
    cases hc : cs[i]? with
    | none => rfl
    | some c => exact item_get_filterSpec_noblanket f hnb r c

theorem getItem_filterSpecL_noblanket (f : filterFunc) (hnb : ∀ a, (f a).2 = false)
    (w : TreeWidget) (p : Path) :
    getItem (filterSpecL f w) p = (getItem w p).map (filterSpec f) := by
  cases p with
  | nil => rfl
  | cons i r =>
    simp only [getItem, getElem?_filterSpecL]
    cases hc : w[i]? with
    | none => rfl
    | some c => exact item_get_filterSpec_noblanket f hnb r c

mutual
theorem anyMatch_iff (f : filterFunc) :
    ∀ X : Item, Item.anyMatch f X = true ↔
      ∃ (r : Path) (D : Item), X.get r = some D ∧ (f D.index).1 = true
  | Item.mk idx h e s cs => by
    simp only [Item.anyMatch, Bool.or_eq_true, anyMatchL_iff f cs]
    constructor
    · rintro (hm | ⟨i, r, c, D, hc, hD, hm⟩)
      · exact ⟨[], _, rfl, hm⟩
      · exact ⟨i :: r, D, by simp [Item.get, hc, hD], hm⟩
    · rintro ⟨r, D, hD, hm⟩
      cases r with
      | nil =>
        simp only [Item.get, Option.some.injEq] at hD
        subst hD
        exact Or.inl hm
      | cons i r =>
        simp only [Item.get, Item.children_mk] at hD
        cases hc : cs[i]? with
        | none => simp [hc] at hD
        | some c =>
          simp only [hc] at hD
          exact Or.inr ⟨i, r, c, D, hc, hD, hm⟩
theorem anyMatchL_iff (f : filterFunc) :
    ∀ cs : List Item, anyMatchL f cs = true ↔
      ∃ (i : Nat) (r : Path) (c D : Item), cs[i]? = some c ∧ c.get r = some D ∧
        (f D.index).1 = true
  | [] => by simp [anyMatchL]
  | c :: cs => by
    simp only [anyMatchL, Bool.or_eq_true, anyMatch_iff f c, anyMatchL_iff f cs]
    constructor
    · rintro (⟨r, D, hD, hm⟩ | ⟨i, r, d, D, hd, hD, hm⟩)
      · exact ⟨0, r, c, D, by simp, hD, hm⟩
      · exact ⟨i + 1, r, d, D, by simpa using hd, hD, hm⟩
    · rintro ⟨i, r, d, D, hd, hD, hm⟩
      cases i with
      | zero =>
        simp only [List.getElem?_cons_zero, Option.some.injEq] at hd
        subst hd
        exact Or.inl ⟨r, D, hD, hm⟩
      | succ i => exact Or.inr ⟨i, r, d, D, by simpa using hd, hD, hm⟩
end

/-- C22. Exact visibility after a filter that never sets `same_as_file`.  The call of
`filterItemBy` from the invisible root returns, the tree has the same items as before, and
an item is visible afterwards exactly when the filter function holds for the item or for an
item below it. -/
theorem filterItemBy_exact_visibility (w : TreeWidget) (f : filterFunc)
    (hnb : ∀ a, (f a).2 = false) :
    ∃ w', filterItemBy w [] f = some w' ∧
      eraseFlagsL w' = eraseFlagsL w ∧
      ∀ (p : Path) (X : Item), getItem w p = some X →
        ∃ X', getItem w' p = some X' ∧
          (X'.hidden = false ↔
            ∃ (r : Path) (D : Item), X.get r = some D ∧ (f D.index).1 = true) := by
  refine ⟨filterSpecL f w, filterItemBy_root w f, eraseFlagsL_filterSpecL f w, ?_⟩
  intro p X hX
  refine ⟨filterSpec f X, ?_, ?_⟩
  · rw [getItem_filterSpecL_noblanket f hnb, hX]
    rfl
  · rw [hidden_filterSpec_noblanket f hnb, ← anyMatch_iff]
    cases Item.anyMatch f X <;> simp

/-! ## The search in pre-order -/

theorem qualifies_of_kind_ne (w : TreeWidget) (type : FileIndexType) (path : String)
    (pn : Int) (anchor : String) (p : Path) (X : Item) (hX : getItem w p = some X)
    (hk : X.index.type ≠ type) : qualifies w type path pn anchor p = false := by
  simp [qualifies, hX, hk]

mutual
/-- In a subtree without items of the kind looked for, no item qualifies. -/
theorem find?_preorder_kindFree (w : TreeWidget) (type : FileIndexType) (path : String)
    (pn : Int) (anchor : String) :
    ∀ (it : Item) (itr : Path), getItem w itr = some it → Item.kindFree type it = true →
      (Item.preorder it itr).find? (qualifies w type path pn anchor) = none
  | Item.mk index hh e s cs, itr, hit, hfree => by
    simp only [Item.kindFree, Bool.and_eq_true, decide_eq_true_eq] at hfree
    have hne : itr ≠ [] := by
      rintro rfl
      simp [getItem] at hit
    simp only [Item.preorder, List.find?_cons,
      qualifies_of_kind_ne w type path pn anchor itr _ hit hfree.1]
    refine find?_preorderL_kindFree w type path pn anchor cs itr 0 ?_ hfree.2
    intro k c hc
    rw [Nat.zero_add, getItem_snoc k itr hne, hit]
    exact hc
theorem find?_preorderL_kindFree (w : TreeWidget) (type : FileIndexType) (path : String)
    (pn : Int) (anchor : String) :
    ∀ (cs : List Item) (itr : Path) (ind : Nat),
      (∀ (k : Nat) (c : Item), cs[k]? = some c → getItem w (itr ++ [ind + k]) = some c) →
      kindFreeL type cs = true →
      (preorderL cs itr ind).find? (qualifies w type path pn anchor) = none
  | [], _, _, _, _ => rfl
  | c :: cs, itr, ind, hcs, hfree => by
    simp only [kindFreeL, Bool.and_eq_true] at hfree
    simp only [preorderL, List.find?_append]
    rw [find?_preorder_kindFree w type path pn anchor c (itr ++ [ind])
      (by simpa using hcs 0 c (by simp)) hfree.1]
    rw [find?_preorderL_kindFree w type path pn anchor cs itr (ind + 1) ?_ hfree.2]
    · rfl
    · intro k d hd
      have := hcs (k + 1) d (by simpa using hd)
      have he : ind + 1 + k = ind + (k + 1) := by omega
      rw [he]
      exact this
end

theorem kindFreeL_of_all_pages_leaves (type : FileIndexType) (htype : type ≠ FileIndexType.PAGE) :
    ∀ cs : List Item, cs.all (fun c => decide (c.index.type = FileIndexType.PAGE)) = true →
      wellFormedL cs = true → kindFreeL type cs = true
  | [], _, _ => rfl
  | Item.mk idx hh e s ds :: cs, hall, hwf => by
    simp only [List.all_cons, Bool.and_eq_true, decide_eq_true_eq, Item.index_mk] at hall
    simp only [wellFormedL, Item.wellFormed, Bool.and_eq_true, hall.1,
      List.isEmpty_iff] at hwf
    simp only [kindFreeL, Item.kindFree, Bool.and_eq_true, decide_eq_true_eq, hall.1]
    refine ⟨⟨fun h => htype h.symm, ?_⟩,
      kindFreeL_of_all_pages_leaves type htype cs hall.2 hwf.2⟩
    rw [hwf.1.1]
    rfl

/-- In a well-formed tree there is no page below a page and no file below a file. -/
theorem kindFreeL_children_of_wellFormed (type : FileIndexType)
    (hK : type = FileIndexType.PAGE ∨ type = FileIndexType.FILE) (idx : FileIndex)
    (hh e s : Bool) (cs : List Item) (hwf : Item.wellFormed (Item.mk idx hh e s cs) = true)
    (hkind : idx.type = type) : kindFreeL type cs = true := by
  simp only [Item.wellFormed, Bool.and_eq_true] at hwf
  rcases hK with h | h
  · subst h
    rw [hkind] at hwf
    have hnil : cs = [] := by simpa using hwf.1
    rw [hnil]
    rfl
  · subst h
    rw [hkind] at hwf
    exact kindFreeL_of_all_pages_leaves FileIndexType.FILE (by decide) cs hwf.1 hwf.2

mutual
/-- On a well-formed subtree the search returns the first item in pre-order that
qualifies. -/
theorem findInItem_preorder (w : TreeWidget) (type : FileIndexType)
    (hK : type = FileIndexType.PAGE ∨ type = FileIndexType.FILE) (path : String) (pn : Int)
    (anchor : String) :
    ∀ (it : Item) (itr : Path), getItem w itr = some it → Item.wellFormed it = true →
      findInItem w type path pn anchor it itr
        = (Item.preorder it itr).find? (qualifies w type path pn anchor)
  | Item.mk index hh e s cs, itr, hit, hwf => by
    have hne : itr ≠ [] := by
      rintro rfl
      simp [getItem] at hit
    have hpos : ∀ (k : Nat) (c : Item), cs[k]? = some c →
        getItem w (itr ++ [0 + k]) = some c := by
      intro k c hc
      rw [Nat.zero_add, getItem_snoc k itr hne, hit]
      exact hc
    simp only [findInItem, Item.preorder, List.find?_cons]
    by_cases hk : index.type = type
    · have hrest := find?_preorderL_kindFree w type path pn anchor cs itr 0 hpos
        (kindFreeL_children_of_wellFormed type hK index hh e s cs hwf hk)
      simp only [hk, ne_eq, not_true_eq_false, if_false, qualifies, hit, Item.index_mk,
        decide_True, Bool.true_and, hrest]
      cases treeItemToFileIndex w (itr.length + 1) (some itr) with
      | none =>
        simp only []
        by_cases hp : index.page = pn <;> by_cases ha : anchor = ""
          <;> by_cases hb : index.anchor = anchor <;> simp [hp, ha, hb]
      | some file_index =>
        simp only []
        by_cases hf : file_index.path = path <;> by_cases hp : index.page = pn
          <;> by_cases ha : anchor = "" <;> by_cases hb : index.anchor = anchor
          <;> simp [hf, hp, ha, hb]
    · have hwf' : wellFormedL cs = true := by
        simp only [Item.wellFormed, Bool.and_eq_true] at hwf
        exact hwf.2
      simp only [ne_eq, hk, not_false_eq_true, if_true,
        qualifies_of_kind_ne w type path pn anchor itr _ hit hk]
      exact findInChildren_preorder w type hK path pn anchor cs itr 0 hpos hwf'
theorem findInChildren_preorder (w : TreeWidget) (type : FileIndexType)
    (hK : type = FileIndexType.PAGE ∨ type = FileIndexType.FILE) (path : String) (pn : Int)
    (anchor : String) :
    ∀ (cs : List Item) (itr : Path) (ind : Nat),
      (∀ (k : Nat) (c : Item), cs[k]? = some c → getItem w (itr ++ [ind + k]) = some c) →
      wellFormedL cs = true →
      findInChildren w type path pn anchor cs itr ind
        = (preorderL cs itr ind).find? (qualifies w type path pn anchor)
  | [], _, _, _, _ => rfl
  | c :: cs, itr, ind, hcs, hwf => by
    simp only [wellFormedL, Bool.and_eq_true] at hwf
    simp only [findInChildren, preorderL, List.find?_append]
    rw [findInItem_preorder w type hK path pn anchor c (itr ++ [ind])
      (by simpa using hcs 0 c (by simp)) hwf.1]
    rw [findInChildren_preorder w type hK path pn anchor cs itr (ind + 1) ?_ hwf.2]
    · cases (Item.preorder c (itr ++ [ind])).find? (qualifies w type path pn anchor) <;> rfl
    · intro k d hd
      have := hcs (k + 1) d (by simpa using hd)
      have he : ind + 1 + k = ind + (k + 1) := by omega
      rw [he]
      exact this
end

mutual
/-- The pre-order list of an item consists of the positions of the items of its subtree. -/
theorem mem_preorder_iff :
    ∀ (it : Item) (p q : Path),
      q ∈ Item.preorder it p ↔ ∃ r, q = p ++ r ∧ (it.get r).isSome = true
  | Item.mk idx h e s cs, p, q => by
    rw [Item.preorder, List.mem_cons, mem_preorderL_iff cs p 0 q]
    constructor
    · rintro (rfl | ⟨k, c, r, hk, rfl, hr⟩)
      · exact ⟨[], by simp, rfl⟩
      · refine ⟨k :: r, by simp, ?_⟩
        simpa [Item.get, Item.children, hk] using hr
    · rintro ⟨r, rfl, hr⟩
      cases r with
      | nil => exact Or.inl (by simp)
      | cons k r =>
        right
        simp only [Item.get, Item.children] at hr
        cases hk : cs[k]? with
        | none => simp [hk] at hr
        | some c =>
          simp only [hk] at hr
          exact ⟨k, c, r, by simpa using hk, by simp, hr⟩
theorem mem_preorderL_iff :
    ∀ (cs : List Item) (p : Path) (i : Nat) (q : Path),
      q ∈ preorderL cs p i ↔
        ∃ (k : Nat) (c : Item) (r : Path),
          cs[k]? = some c ∧ q = p ++ (i + k) :: r ∧ (c.get r).isSome = true
  | [], p, i, q => by simp [preorderL]
  | c :: cs, p, i, q => by
    rw [preorderL, List.mem_append, mem_preorder_iff c (p ++ [i]) q,
      mem_preorderL_iff cs p (i + 1) q]
    constructor
    · rintro (⟨r, rfl, hr⟩ | ⟨k, c', r, hk, rfl, hr⟩)
      · exact ⟨0, c, r, by simp, by simp, hr⟩
      · exact ⟨k + 1, c', r, by simpa using hk, by simp [Nat.add_assoc, Nat.add_comm 1 k], hr⟩
    · rintro ⟨k, c', r, hk, rfl, hr⟩
      cases k with
      | zero =>
        left
        simp only [List.getElem?_cons_zero, Option.some.injEq] at hk
        subst hk
        exact ⟨r, by simp, hr⟩
      | succ k =>
        right
        exact ⟨k, c', r, by simpa using hk, by simp [Nat.add_assoc, Nat.add_comm 1 k], hr⟩
end

/-- The first step of `treeItemToFileIndex`: an item of kind `FILE` is its own enclosing
file, and for any other item the search goes on at the parent. -/
theorem treeItemToFileIndex_step (w : TreeWidget) (n : Nat) (p : Path) (X : Item)
    (hX : getItem w p = some X) :
    treeItemToFileIndex w (n + 1) (some p)
      = if X.index.type = FileIndexType.FILE then some X.index
        else treeItemToFileIndex w n (parent p) := by
  simp [treeItemToFileIndex, getFileIndexFromTreeItem, hX]

/-- C23 (as amended). On a well-formed subtree `findTreeWidgetItem`, for the kinds `PAGE`
and `FILE`, returns the first item in pre-order that has the kind, the page and, unless it
is empty, the anchor looked for, and whose nearest item of kind `FILE` at or above it has
the path looked for or is missing; when there is no item of kind `FILE` at or above it, the
path is not compared.  The result is null exactly when no item of the subtree is such. -/
theorem findTreeWidgetItem_first_in_preorder (w : TreeWidget) (start : Path) (S : Item)
    (type : FileIndexType) (path : String) (pn : Int) (anchor : String)
    (hstart : getItem w start = some S) (hwf : Item.wellFormed S = true)
    (hK : type = FileIndexType.PAGE ∨ type = FileIndexType.FILE) :
    findTreeWidgetItem w (some start) type path pn anchor
        = (Item.preorder S start).find? (qualifies w type path pn anchor) ∧
      (∀ r : Path, findTreeWidgetItem w (some start) type path pn anchor = some r →
        qualifies w type path pn anchor r = true ∧
          ∃ before after, Item.preorder S start = before ++ r :: after ∧
            ∀ q ∈ before, qualifies w type path pn anchor q = false) ∧
      (findTreeWidgetItem w (some start) type path pn anchor = none ↔
        ∀ q ∈ Item.preorder S start, qualifies w type path pn anchor q = false) := by
  have heq : findTreeWidgetItem w (some start) type path pn anchor
      = (Item.preorder S start).find? (qualifies w type path pn anchor) := by
    simp only [findTreeWidgetItem, getFileIndexFromTreeItem, hstart, Option.map_some']
    exact findInItem_preorder w type hK path pn anchor S start hstart hwf
  refine ⟨heq, ?_, ?_⟩
  · intro r hr
    rw [heq] at hr
    obtain ⟨h1, as, bs, h2, h3⟩ := List.find?_eq_some.mp hr
    exact ⟨h1, as, bs, h2, fun q hq => by simpa using h3 q hq⟩
  · rw [heq, List.find?_eq_none]
    constructor
    · intro h q hq
      simpa using h q hq
    · intro h q hq
      simp [h q hq]

/-- Witness for C22: the title filter with the text `chapter` on `treeChapter`.  The file
`chapter one` lies three levels below `books`; it and the three directories above it are
visible afterwards, the file `notes` is hidden. -/
theorem filterItemBy_exact_visibility_witness :
    (∀ a, (filterFuncOf envNoDates FilterType.Title "chapter" a).2 = false) ∧
      (∃ w', filterItemBy treeChapter [] (filterFuncOf envNoDates FilterType.Title "chapter")
          = some w' ∧
        eraseFlagsL w' = eraseFlagsL treeChapter ∧
        ∀ (p : Path) (X : Item), getItem treeChapter p = some X →
          ∃ X', getItem w' p = some X' ∧
            (X'.hidden = false ↔
              ∃ (r : Path) (D : Item), X.get r = some D ∧
                (filterFuncOf envNoDates FilterType.Title "chapter" D.index).1 = true)) ∧
      (filterItemBy treeChapter [] (filterFuncOf envNoDates FilterType.Title "chapter")).map
        (fun w => [[], [0], [0, 0], [0, 0, 0], [1]].map
          (fun r => (getItem w ([0] ++ r)).map Item.hidden))
        = some [some false, some false, some false, some false, some true] :=
  ⟨fun _ => rfl,
    filterItemBy_exact_visibility treeChapter _ (fun _ => rfl),
    by decide⟩

/-- Witness for C23: in `treeSelectedPage` the search for page 5 of `paper.pdf` from the
directory `docs` returns the second page entry of the file, the fourth item in pre-order,
and the search for page 5 of `other.pdf` returns null. -/
theorem findTreeWidgetItem_first_in_preorder_witness :
    getItem treeSelectedPage [0] = some itemDocs ∧
      Item.wellFormed itemDocs = true ∧
      (FileIndexType.PAGE = FileIndexType.PAGE ∨ FileIndexType.PAGE = FileIndexType.FILE) ∧
      (findTreeWidgetItem treeSelectedPage (some [0]) FileIndexType.PAGE "paper.pdf" 5 ""
          = (Item.preorder itemDocs [0]).find?
              (qualifies treeSelectedPage FileIndexType.PAGE "paper.pdf" 5 "") ∧
        (∀ r : Path,
          findTreeWidgetItem treeSelectedPage (some [0]) FileIndexType.PAGE "paper.pdf" 5 ""
            = some r →
          qualifies treeSelectedPage FileIndexType.PAGE "paper.pdf" 5 "" r = true ∧
            ∃ before after, Item.preorder itemDocs [0] = before ++ r :: after ∧
              ∀ q ∈ before,
                qualifies treeSelectedPage FileIndexType.PAGE "paper.pdf" 5 "" q = false) ∧
        (findTreeWidgetItem treeSelectedPage (some [0]) FileIndexType.PAGE "paper.pdf" 5 ""
            = none ↔
          ∀ q ∈ Item.preorder itemDocs [0],
            qualifies treeSelectedPage FileIndexType.PAGE "paper.pdf" 5 "" q = false)) ∧
      Item.preorder itemDocs [0] = [[0], [0, 0], [0, 0, 0], [0, 0, 1]] ∧
      findTreeWidgetItem treeSelectedPage (some [0]) FileIndexType.PAGE "paper.pdf" 5 ""
        = some [0, 0, 1] ∧
      findTreeWidgetItem treeSelectedPage (some [0]) FileIndexType.PAGE "other.pdf" 5 ""
        = none :=
  ⟨rfl, by decide, Or.inl rfl,
    findTreeWidgetItem_first_in_preorder treeSelectedPage [0] itemDocs FileIndexType.PAGE
      "paper.pdf" 5 "" rfl (by decide) (Or.inl rfl),
    by decide, by decide, by decide⟩

end apvlv
